import Mathlib

/-!
# Verification of the `plots` package (style tables and spike raster engine)

Shallow embedding of `styles.go` and `spikes.go`.

Modelling conventions
* `float64` and `vg.Length` values are modelled by exact rationals `ℚ`; the
  development therefore speaks about the arithmetic the code writes down, not
  about IEEE rounding, infinities or NaN.
* Go `int` values are modelled by `Int`/`Nat`; no computation below comes near
  the 64-bit range, indices are bounded by slice lengths.
* A Go run-time panic (index out of range, slice bounds out of range, integer
  division by zero) is modelled by `none`.
* Slices are lists.  Loops are folds over their index range or structural
  recursions on a counter that bounds the number of iterations.
* `sort.Slice` and `sort.SearchFloat64s` belong to the Go standard library; they
  are embedded from `sort/slice.go`, `sort/zsortfunc.go` and `sort/search.go`
  (Go 1.19 and later: pattern-defeating quicksort).
-/

namespace Plots

/-! ## Generic loop combinators -/

/-- Counted loop `for i := lo; i < lo + count; i++ { s = body i s }`. -/
def forUp {σ : Type} (body : Nat → σ → σ) : Nat → Nat → σ → σ
  | 0, _, s => s
  | c + 1, i, s => forUp body c (i + 1) (body i s)

/-- Counted loop `for i := top; i >= 0; i-- { s = body i s }`. -/
def forDown {σ : Type} (body : Nat → σ → σ) : Nat → σ → σ
  | 0, s => body 0 s
  | i + 1, s => forDown body i (body (i + 1) s)

/-- Scan `for i < hi && p(i) { i++ }`; the counter bounds the iterations by `hi - i`. -/
def scanUp (p : Nat → Bool) (hi : Nat) : Nat → Nat → Nat
  | 0, i => i
  | f + 1, i => if i < hi ∧ p i = true then scanUp p hi f (i + 1) else i

/-- Scan `for i <= j && p(j) { j-- }`; the counter bounds the iterations by `j + 1 - i`.
Every caller has `1 ≤ i`, so `j - 1` never leaves the naturals. -/
def scanDown (p : Nat → Bool) (i : Nat) : Nat → Nat → Nat
  | 0, j => j
  | f + 1, j => if i ≤ j ∧ p j = true then scanDown p i f (j - 1) else j

/-! ## styles.go -/

/-- The `color.RGBA` values used by the package. -/
structure RGBA where
  R : Nat
  G : Nat
  B : Nat
  A : Nat
deriving DecidableEq, Repr

/-- The `draw.GlyphDrawer` values of the table `Glyphs`. -/
inductive GlyphDrawer where
  | CircleGlyph | BoxGlyph | PyramidGlyph | RingGlyph
  | SquareGlyph | TriangleGlyph | CrossGlyph | PlusGlyph
deriving DecidableEq, Repr

/-- Go slice indexing `t[k]` with a signed index: panics outside `[0, len(t))`. -/
def index {α : Type} (t : List α) (k : Int) : Option α :=
  if k < 0 then none else t[k.toNat]?

/-- Type `ColorTable []color.Color`. -/
abbrev ColorTable := List RGBA

/-- Type `GlyphTable []draw.GlyphDrawer`. -/
abbrev GlyphTable := List GlyphDrawer

/-- Type `DashesTable [][]vg.Length`. -/
abbrev DashesTable := List (List ℚ)

/-- Method `ColorTable.Id`; `i%n` panics when `n = 0`. -/
def ColorTable.Id (t : ColorTable) (i : Int) : Option RGBA :=
  let n : Int := t.length
  if n = 0 then none
  else if i < 0 then index t (Int.tmod i n + n)
  else index t (Int.tmod i n)

/-- Method `GlyphTable.Id`. -/
def GlyphTable.Id (t : GlyphTable) (i : Int) : Option GlyphDrawer :=
  let n : Int := t.length
  if n = 0 then none
  else if i < 0 then index t (Int.tmod i n + n)
  else index t (Int.tmod i n)

/-- Method `DashesTable.Id`. -/
def DashesTable.Id (t : DashesTable) (i : Int) : Option (List ℚ) :=
  let n : Int := t.length
  if n = 0 then none
  else if i < 0 then index t (Int.tmod i n + n)
  else index t (Int.tmod i n)

/-- Helper `rgb`. -/
def rgb (r g b : Nat) : RGBA := ⟨r, g, b, 255⟩

/-- Table `DarkColors`. -/
def DarkColors : ColorTable :=
  [rgb 32 32 32, rgb 238 46 47, rgb 24 90 169, rgb 0 140 72,
   rgb 244 125 35, rgb 102 44 145, rgb 162 29 33, rgb 180 56 148]

/-- Table `Glyphs`. -/
def Glyphs : GlyphTable :=
  [.CircleGlyph, .BoxGlyph, .PyramidGlyph, .RingGlyph,
   .SquareGlyph, .TriangleGlyph, .CrossGlyph, .PlusGlyph]

/-- Table `Dashes`. -/
def Dashes : DashesTable :=
  [[6, 2], [2, 2], [1, 1], [5, 2, 1, 2], [10, 2, 2, 2, 2, 2, 2, 2], [10, 2, 2, 2],
   [5, 2, 5, 2, 2, 2, 2, 2], [4, 2, 4, 1, 1, 1, 1, 1, 1, 1]]

/-! ## Go standard library: `sort.Search` and `sort.SearchFloat64s` -/

/-- The loop of `sort.Search(n, f)` from the state `i, j`; `none` is a panic inside `f`
or an exhausted counter. -/
def searchLoop (f : Nat → Option Bool) : Nat → Nat → Nat → Option Nat
  | 0, i, j => if i < j then none else some i
  | fuel + 1, i, j =>
    if i < j then
      let h := (i + j) / 2
      match f h with
      | none => none
      | some false => searchLoop f fuel (h + 1) j
      | some true => searchLoop f fuel i h
    else some i

/-- Function `sort.Search`. -/
def Search (n : Nat) (f : Nat → Option Bool) : Option Nat :=
  searchLoop f n 0 n

/-- Function `sort.SearchFloat64s(a, x)`: `Search(len(a), func(i) { return a[i] >= x })`. -/
def SearchFloat64s (a : List ℚ) (x : ℚ) : Option Nat :=
  Search a.length (fun i => (a[i]?).map (fun v => decide (v ≥ x)))

/-! ## Go standard library: `sort.Slice` (pattern-defeating quicksort)

The slice being sorted is `drawingOrder`, a `[]int` of row indices; `z r` is the
`ZIndex` of row `r`, so that the `less` closure of `SpikeLines.Plot` is
`Less z l i j`. -/

/-- The swapper: `data.Swap(i, j)`. -/
def swap (l : List Nat) (i j : Nat) : List Nat :=
  if i < l.length ∧ j < l.length then (l.set i (l.getD j 0)).set j (l.getD i 0) else l

/-- The closure `s.Lines[drawingOrder[i]].ZIndex < s.Lines[drawingOrder[j]].ZIndex`. -/
def Less (z : Nat → Int) (l : List Nat) (i j : Nat) : Bool :=
  decide (z (l.getD i 0) < z (l.getD j 0))

/-- Inner loop of `insertionSort_func`: `for j := i; j > a && Less(j, j-1); j--`. -/
def insertionShift (z : Nat → Int) (a : Nat) : Nat → List Nat → List Nat
  | 0, l => l
  | j + 1, l =>
    if a < j + 1 ∧ Less z l (j + 1) j = true then insertionShift z a j (swap l (j + 1) j)
    else l

/-- Function `insertionSort_func(data, a, b)`. -/
def insertionSort_func (z : Nat → Int) (l : List Nat) (a b : Nat) : List Nat :=
  forUp (fun i l => insertionShift z a i l) (b - (a + 1)) (a + 1) l

/-- The loop of `siftDown_func` from `root`; the counter bounds the iterations by `hi`. -/
def siftDownLoop (z : Nat → Int) (hi first : Nat) : Nat → Nat → List Nat → List Nat
  | 0, _, l => l
  | fuel + 1, root, l =>
    let child := 2 * root + 1
    if child ≥ hi then l
    else
      let child :=
        if child + 1 < hi ∧ Less z l (first + child) (first + child + 1) = true then child + 1
        else child
      if Less z l (first + root) (first + child) = false then l
      else siftDownLoop z hi first fuel child (swap l (first + root) (first + child))

/-- Function `siftDown_func(data, lo, hi, first)`. -/
def siftDown_func (z : Nat → Int) (l : List Nat) (lo hi first : Nat) : List Nat :=
  siftDownLoop z hi first hi lo l

/-- Function `heapSort_func(data, a, b)`. -/
def heapSort_func (z : Nat → Int) (l : List Nat) (a b : Nat) : List Nat :=
  let first := a
  let lo := 0
  let hi := b - a
  let l1 := forDown (fun i l => siftDown_func z l i hi first) ((hi - 1) / 2) l
  if hi = 0 then l1
  else forDown (fun i l => siftDown_func z (swap l first (first + i)) lo i first) (hi - 1) l1

/-- The `for` loop of `partition_func`, returning the data and `j`. -/
def partitionLoop (z : Nat → Int) (a : Nat) : Nat → List Nat → Nat → Nat → List Nat × Nat
  | 0, l, _, j => (l, j)
  | f + 1, l, i, j =>
    let i1 := scanUp (fun k => Less z l k a) (j + 1) (j + 1 - i) i
    let j1 := scanDown (fun k => !Less z l k a) i1 (j + 1 - i1) j
    if i1 > j1 then (l, j1)
    else partitionLoop z a f (swap l i1 j1) (i1 + 1) (j1 - 1)

/-- Function `partition_func(data, a, b, pivot)`: data, `newpivot`, `alreadyPartitioned`. -/
def partition_func (z : Nat → Int) (l : List Nat) (a b pivot : Nat) : List Nat × Nat × Bool :=
  let l := swap l a pivot
  let i := a + 1
  let j := b - 1
  let i := scanUp (fun k => Less z l k a) (j + 1) (j + 1 - i) i
  let j := scanDown (fun k => !Less z l k a) i (j + 1 - i) j
  if i > j then (swap l j a, j, true)
  else
    let l := swap l i j
    let r := partitionLoop z a (j - i) l (i + 1) (j - 1)
    (swap r.1 r.2 a, r.2, false)

/-- The `for` loop of `partitionEqual_func`, returning the data and `i`. -/
def partitionEqualLoop (z : Nat → Int) (a : Nat) :
    Nat → List Nat → Nat → Nat → List Nat × Nat
  | 0, l, i, _ => (l, i)
  | f + 1, l, i, j =>
    let i1 := scanUp (fun k => !Less z l a k) (j + 1) (j + 1 - i) i
    let j1 := scanDown (fun k => Less z l a k) i1 (j + 1 - i1) j
    if i1 > j1 then (l, i1)
    else partitionEqualLoop z a f (swap l i1 j1) (i1 + 1) (j1 - 1)

/-- Function `partitionEqual_func(data, a, b, pivot)`: data and `newpivot`. -/
def partitionEqual_func (z : Nat → Int) (l : List Nat) (a b pivot : Nat) : List Nat × Nat :=
  let l := swap l a pivot
  partitionEqualLoop z a (b - a) l (a + 1) (b - 1)

/-- Loop `for j := i - 1; j >= 1; j-- { if !Less(j, j-1) { break }; Swap(j, j-1) }`. -/
def shiftLeft (z : Nat → Int) : Nat → List Nat → List Nat
  | 0, l => l
  | j + 1, l =>
    if Less z l (j + 1) j = false then l else shiftLeft z j (swap l (j + 1) j)

/-- Loop `for j := i + 1; j < b; j++ { if !Less(j, j-1) { break }; Swap(j, j-1) }`. -/
def shiftRight (z : Nat → Int) (b : Nat) : Nat → Nat → List Nat → List Nat
  | 0, _, l => l
  | f + 1, j, l =>
    if j < b then
      if Less z l j (j - 1) = false then l else shiftRight z b f (j + 1) (swap l j (j - 1))
    else l

/-- The loop of `partialInsertionSort_func` with `steps` iterations left. -/
def partialInsertionLoop (z : Nat → Int) (a b : Nat) :
    Nat → Nat → List Nat → List Nat × Bool
  | 0, _, l => (l, false)
  | steps + 1, i, l =>
    let i := scanUp (fun k => !Less z l k (k - 1)) b (b - i) i
    if i = b then (l, true)
    else if b - a < 50 then (l, false)
    else
      let l := swap l i (i - 1)
      let l := if i - a ≥ 2 then shiftLeft z (i - 1) l else l
      let l := if b - i ≥ 2 then shiftRight z b (b - (i + 1)) (i + 1) l else l
      partialInsertionLoop z a b steps i l

/-- Function `partialInsertionSort_func(data, a, b)` (`maxSteps = 5`,
`shortestShifting = 50`). -/
def partialInsertionSort_func (z : Nat → Int) (l : List Nat) (a b : Nat) : List Nat × Bool :=
  partialInsertionLoop z a b 5 (a + 1) l

/-- Function `bits.Len`. -/
def bitsLen (x : Nat) : Nat := if x = 0 then 0 else Nat.log2 x + 1

/-- Method `xorshift.Next` on a `uint64` state (shifts 13, 7, 17).  No result below depends on
the values the generator produces. -/
def xorshiftNext (r : Nat) : Nat :=
  let r := r ^^^ ((r <<< 13) % 2 ^ 64)
  let r := r ^^^ (r >>> 7)
  let r := r ^^^ ((r <<< 17) % 2 ^ 64)
  r

/-- Function `nextPowerOfTwo`. -/
def nextPowerOfTwo (length : Nat) : Nat := 1 <<< bitsLen length

/-- Function `breakPatterns_func(data, a, b)`; the loop state is the generator and the data. -/
def breakPatterns_func (l : List Nat) (a b : Nat) : List Nat :=
  let length := b - a
  if length ≥ 8 then
    let modulus := nextPowerOfTwo length
    let idx := a + (length / 4) * 2 - 1
    (forUp (fun i (st : Nat × List Nat) =>
      let random := xorshiftNext st.1
      let other := random &&& (modulus - 1)
      let other := if other ≥ length then other - length else other
      (random, swap st.2 (idx - 1 + i) (a + other))) 3 0 (length, l)).2
  else l

/-- Type `sortedHint`. -/
inductive sortedHint where
  | unknownHint | increasingHint | decreasingHint
deriving DecidableEq, Repr

/-- Function `order2_func`, returning the pair and the updated `swaps`. -/
def order2_func (z : Nat → Int) (l : List Nat) (a b swaps : Nat) : Nat × Nat × Nat :=
  if Less z l b a = true then (b, a, swaps + 1) else (a, b, swaps)

/-- Function `median_func`, returning the index and the updated `swaps`. -/
def median_func (z : Nat → Int) (l : List Nat) (a b c swaps : Nat) : Nat × Nat :=
  let r1 := order2_func z l a b swaps
  let r2 := order2_func z l r1.2.1 c r1.2.2
  let r3 := order2_func z l r1.1 r2.1 r2.2.2
  (r3.2.1, r3.2.2)

/-- Function `medianAdjacent_func`. -/
def medianAdjacent_func (z : Nat → Int) (l : List Nat) (a swaps : Nat) : Nat × Nat :=
  median_func z l (a - 1) a (a + 1) swaps

/-- Function `choosePivot_func(data, a, b)` (`shortestNinther = 50`, `maxSwaps = 12`). -/
def choosePivot_func (z : Nat → Int) (l : List Nat) (a b : Nat) : Nat × sortedHint :=
  let len := b - a
  let i := a + len / 4 * 1
  let j := a + len / 4 * 2
  let k := a + len / 4 * 3
  let r : Nat × Nat :=
    if len ≥ 8 then
      if len ≥ 50 then
        let ri := medianAdjacent_func z l i 0
        let rj := medianAdjacent_func z l j ri.2
        let rk := medianAdjacent_func z l k rj.2
        median_func z l ri.1 rj.1 rk.1 rk.2
      else median_func z l i j k 0
    else (j, 0)
  if r.2 = 0 then (r.1, .increasingHint)
  else if r.2 = 12 then (r.1, .decreasingHint)
  else (r.1, .unknownHint)

/-- The loop of `reverseRange_func`. -/
def reverseRangeLoop : Nat → Nat → Nat → List Nat → List Nat
  | 0, _, _, l => l
  | f + 1, i, j, l => if i < j then reverseRangeLoop f (i + 1) (j - 1) (swap l i j) else l

/-- Function `reverseRange_func(data, a, b)`. -/
def reverseRange_func (l : List Nat) (a b : Nat) : List Nat :=
  reverseRangeLoop (b - a) a (b - 1) l

/-- Function `pdqsort_func(data, a, b, limit)` (`maxInsertion = 12`).  One unit of the counter
is spent per loop iteration and per recursive call; `wasBalanced` and `wasPartitioned` are
the loop variables, `true` on entry of a call.  `b - a` units are enough. -/
def pdqsort_func (z : Nat → Int) :
    Nat → List Nat → Nat → Nat → Nat → Bool → Bool → List Nat
  | 0, l, a, b, _, _, _ => if b - a ≤ 12 then insertionSort_func z l a b else l
  | fuel + 1, l, a, b, limit, wasBalanced, wasPartitioned =>
    let length := b - a
    if length ≤ 12 then insertionSort_func z l a b
    else if limit = 0 then heapSort_func z l a b
    else
      let l := if wasBalanced then l else breakPatterns_func l a b
      let limit := if wasBalanced then limit else limit - 1
      let ph := choosePivot_func z l a b
      let l := if ph.2 = .decreasingHint then reverseRange_func l a b else l
      let pivot := if ph.2 = .decreasingHint then (b - 1) - (ph.1 - a) else ph.1
      let hint := if ph.2 = .decreasingHint then sortedHint.increasingHint else ph.2
      let pi : List Nat × Bool :=
        if wasBalanced ∧ wasPartitioned ∧ hint = .increasingHint then
          partialInsertionSort_func z l a b
        else (l, false)
      if pi.2 = true then pi.1
      else
        let l := pi.1
        if a > 0 ∧ Less z l (a - 1) pivot = false then
          let pe := partitionEqual_func z l a b pivot
          pdqsort_func z fuel pe.1 pe.2 b limit wasBalanced wasPartitioned
        else
          let pr := partition_func z l a b pivot
          let mid := pr.2.1
          let leftLen := mid - a
          let rightLen := b - mid
          let balanceThreshold := length / 8
          if leftLen < rightLen then
            let l := pdqsort_func z fuel pr.1 a mid limit true true
            pdqsort_func z fuel l (mid + 1) b limit (decide (leftLen ≥ balanceThreshold)) pr.2.2
          else
            let l := pdqsort_func z fuel pr.1 (mid + 1) b limit true true
            pdqsort_func z fuel l a mid limit (decide (rightLen ≥ balanceThreshold)) pr.2.2

/-- Function `sort.Slice(x, less)` for the `less` closure given by `z`. -/
def Slice (z : Nat → Int) (x : List Nat) : List Nat :=
  let length := x.length
  let limit := bitsLen length
  pdqsort_func z length x 0 length limit true true

/-! ## spikes.go: data model -/

/-- Type `Limit`. -/
structure Limit where
  Min : ℚ
  Max : ℚ
deriving DecidableEq

/-- Type `SpikeLineProperty`; a `nil` colour is `none`; `Extend` is a Go `int`, whose values
lie in `[-2^63, 2^63)`. -/
structure SpikeLineProperty where
  Width : ℚ := 0
  Color : Option RGBA := none
  LWidth : ℚ := 0
  LColor : Option RGBA := none
  Extend : Int := 0
  ExtendColor : Option RGBA := none
  ExtendWidth : ℚ := 0
deriving DecidableEq

/-- Type `SpikeLine`. -/
structure SpikeLine where
  Label : String := ""
  Spikes : List ℚ := []
  ZIndex : Int := 0
  Property : SpikeLineProperty := {}
deriving DecidableEq

/-- Type `SpikeLines`. -/
structure SpikeLines where
  Title : String := ""
  Lines : List SpikeLine := []
  XLimit : Option Limit := none
  XDim : ℚ := 0
  YDim : ℚ := 0
deriving DecidableEq

/-- Function `vg.Points`: lengths are kept in points. -/
def vgPoints (pt : ℚ) : ℚ := pt

/-- Function `DefaultSpikeProperty`. -/
def DefaultSpikeProperty : SpikeLineProperty :=
  { Width := vgPoints 1
    Color := some ⟨0, 0, 0, 255⟩
    LWidth := vgPoints 1
    LColor := some ⟨0, 0, 0, 255⟩
    Extend := 0
    ExtendColor := some ⟨160, 160, 160, 255⟩
    ExtendWidth := vgPoints 1 }

/-! ## The canvas and plot interfaces used by `SpikeLines.Plot` -/

/-- Type `vg.Point`. -/
structure Point where
  X : ℚ
  Y : ℚ
deriving DecidableEq

/-- Type `vg.PathComp`, restricted to the two components the package emits. -/
inductive PathComp where
  | Move (p : Point)
  | Line (p : Point)
deriving DecidableEq

/-- Type `vg.Path`. -/
abbrev Path := List PathComp

/-- Type `draw.LineStyle` (the package never sets dashes on a spike plot). -/
structure LineStyle where
  Color : Option RGBA
  Width : ℚ
deriving DecidableEq

/-- A stroke as the canvas receives it: the line style in force and the path. -/
structure Stroke where
  style : LineStyle
  path : Path
deriving DecidableEq

/-- The observable state of a `draw.Canvas`: the current line style and the strokes so far. -/
structure Canvas where
  style : LineStyle
  strokes : List Stroke

/-- Method `canvas.SetLineStyle`. -/
def Canvas.SetLineStyle (c : Canvas) (sty : LineStyle) : Canvas :=
  { c with style := sty }

/-- Method `canvas.Stroke`. -/
def Canvas.Stroke (c : Canvas) (p : Path) : Canvas :=
  { c with strokes := c.strokes ++ [⟨c.style, p⟩] }

/-- Type `plot.Axis`, the two bounds. -/
structure Axis where
  Min : ℚ
  Max : ℚ

/-- The part of `plot.Plot` read by `SpikeLines.Plot`: the axes and the two transforms
returned by `plt.Transforms(&canvas)`. -/
structure PlotT where
  X : Axis
  Y : Axis
  trX : ℚ → ℚ
  trY : ℚ → ℚ

/-- Type `plot.Tick`. -/
structure Tick where
  Value : ℚ
  Label : String
deriving DecidableEq

/-! ## spikes.go: `SpikeLines.Plot` and `SpikeLines.Ticks` -/

/-- Lines 81-103 of `SpikeLines.Plot`: the row's property merged over the defaults. -/
def mergedProperty (l : SpikeLine) : SpikeLineProperty :=
  let spikeProperty := DefaultSpikeProperty
  let spikeProperty :=
    if l.Property.Extend ≠ 0 then
      let sp := { spikeProperty with Extend := l.Property.Extend }
      let sp :=
        if l.Property.ExtendWidth ≠ 0 then { sp with ExtendWidth := l.Property.ExtendWidth }
        else sp
      if l.Property.ExtendColor ≠ none then { sp with ExtendColor := l.Property.ExtendColor }
      else sp
    else spikeProperty
  let spikeProperty :=
    if l.Property.Width ≠ 0 then { spikeProperty with Width := l.Property.Width }
    else spikeProperty
  let spikeProperty :=
    if l.Property.Color ≠ none then { spikeProperty with Color := l.Property.Color }
    else spikeProperty
  let spikeProperty :=
    if l.Property.LWidth ≠ 0 then { spikeProperty with LWidth := l.Property.LWidth }
    else spikeProperty
  if l.Property.LColor ≠ none then { spikeProperty with LColor := l.Property.LColor }
  else spikeProperty

/-- Go slice expression `a[lo:hi]` on a slice whose capacity is its length. -/
def sliceOf (a : List ℚ) (lo hi : Nat) : Option (List ℚ) :=
  if lo ≤ hi ∧ hi ≤ a.length then some ((a.take hi).drop lo) else none

/-- Lines 105-108 of `SpikeLines.Plot`: the spikes of a row that are drawn. -/
def clippedSpikes (spikes : List ℚ) (xMin xMax : ℚ) : Option (List ℚ) := do
  let beg ← SearchFloat64s spikes xMin
  let en ← SearchFloat64s spikes xMax
  sliceOf spikes beg en

/-- The four statements `var path; path.Move(p); path.Line(q); canvas.Stroke(path)`. -/
def strokeSegment (c : Canvas) (p q : Point) : Canvas :=
  c.Stroke [PathComp.Move p, PathComp.Line q]

/-- Go's `int` arithmetic on a 64-bit platform: the exact result `k` of an operation wrapped
into `[-2^63, 2^63)`. -/
def wrapInt (k : Int) : Int :=
  (k + 2 ^ 63) % 2 ^ 64 - 2 ^ 63

/-- The top of an extension bar, line 116: `yMin + dy*float64(spikeProperty.Extend+1) - dy/4`;
the sum `spikeProperty.Extend+1` is computed on `int` and wraps at `2^63`. -/
def extendTop (yMin dy : ℚ) (extend : Int) : ℚ :=
  yMin + dy * ((wrapInt (extend + 1) : Int) : ℚ) - dy / 4

/-- The baseline coordinate of line 111: `plt.Y.Min + dy*float64(len(s.Lines)-i-1)`. -/
def baselineY (plt : PlotT) (dy : ℚ) (n i : Nat) : ℚ :=
  plt.Y.Min + dy * (((n : Int) - (i : Int) - 1 : Int) : ℚ)

/-- The body of the drawing loop of `SpikeLines.Plot` (lines 79-154) for row index `i`. -/
def plotLine (s : SpikeLines) (plt : PlotT) (dy : ℚ) (canvas : Canvas) (i : Nat) :
    Option Canvas := do
  let l ← s.Lines[i]?
  let spikeProperty := mergedProperty l
  let spikes ← clippedSpikes l.Spikes plt.X.Min plt.X.Max
  let xMinPx := plt.trX plt.X.Min
  let xMaxPx := plt.trX plt.X.Max
  let yMin := baselineY plt dy s.Lines.length i
  let yMinPx := plt.trY yMin
  -- draw extend spikes if any
  let canvas :=
    if spikeProperty.Extend ≠ 0 then
      let yMax := extendTop yMin dy spikeProperty.Extend
      let yMaxPx := plt.trY yMax
      let canvas := canvas.SetLineStyle ⟨spikeProperty.ExtendColor, spikeProperty.ExtendWidth⟩
      spikes.foldl (fun cv v =>
        let xPixel := plt.trX v
        strokeSegment cv ⟨xPixel, yMinPx⟩ ⟨xPixel, yMaxPx⟩) canvas
    else canvas
  -- draw spikes
  let yMax := yMin + dy / 2
  let yMaxPx := plt.trY yMax
  let canvas := canvas.SetLineStyle ⟨spikeProperty.Color, spikeProperty.Width⟩
  let canvas := spikes.foldl (fun cv v =>
    let xPixel := plt.trX v
    strokeSegment cv ⟨xPixel, yMinPx⟩ ⟨xPixel, yMaxPx⟩) canvas
  -- draw horizontal line
  let canvas := canvas.SetLineStyle ⟨spikeProperty.LColor, spikeProperty.LWidth⟩
  pure (strokeSegment canvas ⟨xMinPx, yMinPx⟩ ⟨xMaxPx, yMinPx⟩)

/-- The `ZIndex` read by the `less` closure for row index `r`. -/
def zIndexOf (s : SpikeLines) (r : Nat) : Int :=
  match s.Lines[r]? with
  | some l => l.ZIndex
  | none => 0

/-- Lines 61-68 of `SpikeLines.Plot`: the identity order sorted by `sort.Slice`. -/
def drawingOrder (s : SpikeLines) : List Nat :=
  Slice (zIndexOf s) (List.range s.Lines.length)

/-- Method `SpikeLines.Plot`. -/
def SpikeLines.Plot (s : SpikeLines) (canvas : Canvas) (plt : PlotT) : Option Canvas :=
  let dy := (plt.Y.Max - plt.Y.Min) / (s.Lines.length : ℚ)
  (drawingOrder s).foldlM (plotLine s plt dy) canvas

/-- Method `SpikeLines.Ticks`. -/
def SpikeLines.Ticks (s : SpikeLines) (min max : ℚ) : List Tick :=
  let dy := (max - min) / (s.Lines.length : ℚ)
  s.Lines.enum.foldl (fun ticks il =>
    ticks ++ [{ Value := min + dy * (((s.Lines.length : Int) - (il.1 : Int) - 1 : Int) : ℚ)
                Label := il.2.Label }]) []

/-! ## Specification vocabulary -/

/-- Relation `Swaps a b l l2`: the list `l2` is reached from `l` by swaps of positions in
`[a, b)`. -/
inductive Swaps (a b : Nat) : List Nat → List Nat → Prop where
  | refl (l : List Nat) : Swaps a b l l
  | step (l l2 : List Nat) (i j : Nat) :
      a ≤ i → i < b → a ≤ j → j < b → Swaps a b (swap l i j) l2 → Swaps a b l l2

/-- The elements at positions `[a, b)` of `l` are pairwise related by `R`, earlier to later. -/
def SortedBy (R : Nat → Nat → Prop) (a b : Nat) (l : List Nat) : Prop :=
  ∀ i j, a ≤ i → i < j → j < b → R (l.getD i 0) (l.getD j 0)

/-- The positions `[a, b)` of `l` are in non-decreasing order of the key `z`. -/
def SortedOn (z : Nat → Int) (a b : Nat) (l : List Nat) : Prop :=
  SortedBy (fun r r2 => z r ≤ z r2) a b l

/-- The element just before the range `[a, b)` is not greater than any element of the range:
the fact that pdqsort relies on when `a > 0`. -/
def LowerBounded (z : Nat → Int) (a b : Nat) (l : List Nat) : Prop :=
  a = 0 ∨ ∀ k, a ≤ k → k < b → z (l.getD (a - 1) 0) ≤ z (l.getD k 0)

/-- Max-heap property of `data[first : first+hi]` at every node whose parent is at least `lo`. -/
def HeapFrom (z : Nat → Int) (first lo hi : Nat) (l : List Nat) : Prop :=
  ∀ c, 0 < c → c < hi → lo ≤ (c - 1) / 2 →
    z (l.getD (first + c) 0) ≤ z (l.getD (first + (c - 1) / 2) 0)

/-- The list `res` is `l` with the positions `[a, b)` rearranged into non-decreasing key order. -/
def SortsRange (z : Nat → Int) (a b : Nat) (l res : List Nat) : Prop :=
  Swaps a b l res ∧ SortedOn z a b res

/-- Row height `dy` of `SpikeLines.Plot`. -/
def rowHeight (s : SpikeLines) (plt : PlotT) : ℚ :=
  (plt.Y.Max - plt.Y.Min) / (s.Lines.length : ℚ)

/-- Row `i` of the raster (the default row outside the raster). -/
def rowOf (s : SpikeLines) (i : Nat) : SpikeLine :=
  s.Lines.getD i {}

/-- The clipped events of row `i` (empty when the clipping panics). -/
def clippedOf (s : SpikeLines) (plt : PlotT) (i : Nat) : List ℚ :=
  (clippedSpikes (rowOf s i).Spikes plt.X.Min plt.X.Max).getD []

/-- A stroke made of one straight segment from `p` to `q`. -/
def segment (sty : LineStyle) (p q : Point) : Stroke :=
  ⟨sty, [PathComp.Move p, PathComp.Line q]⟩

/-- Baseline coordinate of row `i` in the plot `plt`. -/
def rowY (s : SpikeLines) (plt : PlotT) (i : Nat) : ℚ :=
  baselineY plt (rowHeight s plt) s.Lines.length i

/-- The extension bars of row `i`: one per clipped event, none when `Extend` is zero. -/
def rowExtendBars (s : SpikeLines) (plt : PlotT) (i : Nat) : List Stroke :=
  if (mergedProperty (rowOf s i)).Extend ≠ 0 then
    (clippedOf s plt i).map (fun v =>
      segment ⟨(mergedProperty (rowOf s i)).ExtendColor, (mergedProperty (rowOf s i)).ExtendWidth⟩
        ⟨plt.trX v, plt.trY (rowY s plt i)⟩
        ⟨plt.trX v, plt.trY (extendTop (rowY s plt i) (rowHeight s plt)
          (mergedProperty (rowOf s i)).Extend)⟩)
  else []

/-- The spike ticks of row `i`: one per clipped event. -/
def rowSpikeTicks (s : SpikeLines) (plt : PlotT) (i : Nat) : List Stroke :=
  (clippedOf s plt i).map (fun v =>
    segment ⟨(mergedProperty (rowOf s i)).Color, (mergedProperty (rowOf s i)).Width⟩
      ⟨plt.trX v, plt.trY (rowY s plt i)⟩
      ⟨plt.trX v, plt.trY (rowY s plt i + rowHeight s plt / 2)⟩)

/-- The baseline of row `i`. -/
def rowBaseline (s : SpikeLines) (plt : PlotT) (i : Nat) : Stroke :=
  segment ⟨(mergedProperty (rowOf s i)).LColor, (mergedProperty (rowOf s i)).LWidth⟩
    ⟨plt.trX plt.X.Min, plt.trY (rowY s plt i)⟩
    ⟨plt.trX plt.X.Max, plt.trY (rowY s plt i)⟩

/-- All strokes of row `i`, in paint order. -/
def rowStrokes (s : SpikeLines) (plt : PlotT) (i : Nat) : List Stroke :=
  rowExtendBars s plt i ++ rowSpikeTicks s plt i ++ [rowBaseline s plt i]

/-- A stroke is a vertical segment: it moves to a point and draws to a point of equal `X`. -/
def Stroke.isVertical (st : Stroke) : Prop :=
  ∃ x y1 y2, st.path = [PathComp.Move ⟨x, y1⟩, PathComp.Line ⟨x, y2⟩]

/-- Rows with equal `ZIndex` are drawn in the order of their indices. -/
def TiesInIndexOrder (s : SpikeLines) : Prop :=
  ∀ p q, p < q → q < (drawingOrder s).length →
    zIndexOf s ((drawingOrder s).getD p 0) = zIndexOf s ((drawingOrder s).getD q 0) →
    (drawingOrder s).getD p 0 < (drawingOrder s).getD q 0

/-- The raster with the `ZIndex` of every row reset: what two rasters that differ only in
`ZIndex` have in common. -/
def eraseZIndex (s : SpikeLines) : SpikeLines :=
  { s with Lines := s.Lines.map (fun l => { l with ZIndex := 0 }) }

/-! ## Example inputs -/

/-- A blank canvas. -/
def blankCanvas : Canvas := ⟨⟨none, 0⟩, []⟩

/-- A plot with the identity transforms and the given extents. -/
def unitPlot (xMin xMax yMin yMax : ℚ) : PlotT :=
  ⟨⟨xMin, xMax⟩, ⟨yMin, yMax⟩, id, id⟩

/-- The raster of the clipping example: one row with events `0, 1, 2, 3, 4, 5`. -/
def rasterClip : SpikeLines :=
  { Lines := [{ Label := "a", Spikes := [0, 1, 2, 3, 4, 5] }] }

/-- Three rows, the middle one with an extension and a lower `ZIndex`; row `c` is unsorted. -/
def raster3 : SpikeLines :=
  { Lines := [{ Label := "a", Spikes := [1] },
              { Label := "b", Spikes := [1], ZIndex := -1, Property := { Extend := 1 } },
              { Label := "c", Spikes := [3, 1, 2] }] }

/-- The raster `raster3` with other `ZIndex` values. -/
def raster3z : SpikeLines :=
  { Lines := [{ Label := "a", Spikes := [1], ZIndex := 5 },
              { Label := "b", Spikes := [1], ZIndex := 7, Property := { Extend := 1 } },
              { Label := "c", Spikes := [3, 1, 2], ZIndex := 2 }] }

/-- Thirteen rows without events: rows `0..11` with `ZIndex` 0, then row `12` with
`ZIndex` -1 (the shape of `TestManySpikeLines`, which appends the row drawn first). -/
def raster13 : SpikeLines :=
  { Lines := List.replicate 12 { Label := "noise" } ++ [{ Label := "output", ZIndex := -1 }] }

/-! ## Non-finite floats, errors and the plot object of `gonum.org/v1/plot`

The spike raster engine above is read over `ℚ`: exact arithmetic on finite values.
`MakeSpikePlot` starts its window from `math.Inf`, and `plotter.CopyXYs` rejects NaN and
infinite coordinates, so these two see `F64`; the rounding of float64 comes further down. -/

/-- A `float64` where the code tells finite values from the infinities and NaN. -/
inductive F64 where
  | fin (q : ℚ)
  | posInf
  | negInf
  | nan
deriving DecidableEq

/-- Go's `<` on `float64`. -/
def F64.lt : F64 → F64 → Bool
  | .nan, _ => false
  | _, .nan => false
  | .negInf, .negInf => false
  | .negInf, _ => true
  | .fin _, .negInf => false
  | .fin a, .fin b => decide (a < b)
  | .fin _, .posInf => true
  | .posInf, _ => false

/-- The finite value carried by a `float64` (0 for the non-finite ones). -/
def F64.toRat : F64 → ℚ
  | .fin q => q
  | _ => 0

/-- Go `error` values: the two errors of `plotter.CheckFloats`, any other error, and an error
wrapped by `fmt.Errorf("<context>%w", err)`. -/
inductive Error where
  | ErrNaN
  | ErrInfinity
  | other (text : String)
  | wrap (context : String) (cause : Error)
deriving DecidableEq

/-- Type `plotter.XYs` after validation: finite points. -/
abbrev XYs := List (ℚ × ℚ)

/-- Function `plotter.CheckFloats`: the first NaN or infinity among the arguments. -/
def CheckFloats : List F64 → Option Error
  | [] => none
  | .nan :: _ => some .ErrNaN
  | .posInf :: _ => some .ErrInfinity
  | .negInf :: _ => some .ErrInfinity
  | .fin _ :: fs => CheckFloats fs

/-- Function `plotter.CopyXYs` on a non-nil `XYer`: copies the points, failing on the first
point with a NaN or infinite coordinate. -/
def CopyXYs : List (F64 × F64) → Except Error XYs
  | [] => .ok []
  | (x, y) :: rest =>
    match CheckFloats [x, y] with
    | some err => .error err
    | none =>
      match CopyXYs rest with
      | .error err => .error err
      | .ok cpy => .ok ((x.toRat, y.toRat) :: cpy)

/-- Type `draw.LineStyle` with its dash fields, as `plotter.Line` carries it. -/
structure DashLineStyle where
  Color : Option RGBA
  Width : ℚ
  Dashes : Option (List ℚ)
  DashOffs : ℚ
deriving DecidableEq

/-- Type `draw.GlyphStyle`. -/
structure GlyphStyle where
  Shape : Option GlyphDrawer
  Color : Option RGBA
  Radius : ℚ
deriving DecidableEq

/-- The plotters the package hands to `plot.Plot`: `*plotter.Line`, `*plotter.Scatter` and a
`SpikeLines` raster. -/
inductive Plotter where
  | Line (xys : XYs) (style : DashLineStyle)
  | Scatter (xys : XYs) (style : GlyphStyle)
  | Spikes (s : SpikeLines)
deriving DecidableEq

/-- Type `plot.Axis` as `plot.New` and the package set it: the two bounds, possibly infinite. -/
structure AxisF where
  Min : F64 := .posInf
  Max : F64 := .negInf
deriving DecidableEq

/-- The part of `plot.Plot` that the package writes: texts, axis bounds, tick marker, plotters
and legend entries.  The auto-ranging that `plot.Plot.Add` does for plotters with a
`DataRange` method is not modelled; `SpikeLines` has no such method. -/
structure PlotObj where
  Title : String := ""
  XLabel : String := ""
  YLabel : String := ""
  X : AxisF := {}
  Y : AxisF := {}
  YTickMarker : Option SpikeLines := none
  plotters : List Plotter := []
  legend : List (String × List Plotter) := []
deriving DecidableEq

/-- Function `plot.New`. -/
def plotNew : PlotObj := {}

/-- Method `plot.Plot.Add`. -/
def PlotObj.Add (p : PlotObj) (ps : List Plotter) : PlotObj :=
  { p with plotters := p.plotters ++ ps }

/-- Method `plot.Legend.Add` on the legend of the plot. -/
def PlotObj.LegendAdd (p : PlotObj) (name : String) (thumbs : List Plotter) : PlotObj :=
  { p with legend := p.legend ++ [(name, thumbs)] }

/-! ## lines.go: `Line` and `Add` -/

/-- Type `Line`; a nil colour, glyph or dash slice is `none`, `Points` is a non-nil `XYer`. -/
structure Line where
  Label : String := ""
  Points : List (F64 × F64) := []
  Width : ℚ := 0
  Color : Option RGBA := none
  Dashes : Option (List ℚ) := none
  DashOffs : ℚ := 0
  Glyph : Option GlyphDrawer := none
  GlyphColor : Option RGBA := none
  GlyphRadius : ℚ := 0
deriving DecidableEq

/-- Lines 108-122 of `Add`: the defaults of the line fields when one of them is set. -/
def lineFieldDefaults (line : Line) : Option Line := do
  let line := if line.Color = none then { line with Color := some (rgb 20 20 20) } else line
  let line := if line.Width = 0 then { line with Width := vgPoints 1 } else line
  if line.DashOffs ≠ 0 then
    if line.Dashes = none then do
      let d ← DashesTable.Id Dashes 0
      pure { line with Dashes := some d }
    else pure line
  else pure line

/-- Lines 123-137 of `Add`: the defaults of the glyph fields when one of them is set. -/
def glyphFieldDefaults (line : Line) : Option Line := do
  let line ←
    if line.Glyph = none then do
      let g ← GlyphTable.Id Glyphs 0
      pure { line with Glyph := some g }
    else pure line
  if line.GlyphColor = none then
    let line := { line with GlyphColor := line.Color }
    let line :=
      if line.GlyphColor = none then { line with GlyphColor := some (rgb 20 20 20) } else line
    let line :=
      if line.GlyphRadius = 0 then { line with GlyphRadius := line.Width + vgPoints 1 }
      else line
    pure line
  else pure line

/-- Lines 107-141 of `Add`: the line with its style fields defaulted. -/
def styledLine (line : Line) : Option Line := do
  let hasLineProperty :=
    decide (line.Color ≠ none ∨ line.Width ≠ 0 ∨ line.Dashes ≠ none ∨ line.DashOffs ≠ 0)
  let line ← if hasLineProperty then lineFieldDefaults line else pure line
  let hasGlyphProperty :=
    decide (line.Glyph ≠ none ∨ line.GlyphColor ≠ none ∨ line.GlyphRadius ≠ 0)
  let line ← if hasGlyphProperty then glyphFieldDefaults line else pure line
  let hasProperty := hasLineProperty || hasGlyphProperty
  if !hasProperty then
    pure { line with Color := some (rgb 20 20 20), Width := vgPoints 1 }
  else pure line

/-- Function `Add`: the returned error (`none` is `nil`) and the plot; the outer `none` is a
panic. -/
def Add (plt : PlotObj) (line : Line) : Option (Option Error × PlotObj) := do
  let line ← styledLine line
  match CopyXYs line.Points with
  | .error err => pure (some err, plt)
  | .ok xys =>
    let l : Option Plotter :=
      if line.Width ≠ 0 then
        some (Plotter.Line xys ⟨line.Color, line.Width, line.Dashes, line.DashOffs⟩)
      else none
    let s : Option Plotter :=
      if line.GlyphRadius ≠ 0 then
        some (Plotter.Scatter xys ⟨line.Glyph, line.GlyphColor, line.GlyphRadius⟩)
      else none
    let plt :=
      match l, s with
      | some lp, some sp => plt.Add [lp, sp]
      | some lp, none => plt.Add [lp]
      | none, some sp => plt.Add [sp]
      | none, none => plt
    let plt :=
      if line.Label ≠ "" then
        match l, s with
        | some lp, some sp => plt.LegendAdd line.Label [lp, sp]
        | some lp, none => plt.LegendAdd line.Label [lp]
        | none, some sp => plt.LegendAdd line.Label [sp]
        | none, none => plt
      else plt
    pure (none, plt)

/-! ## spikes.go: `MakeSpikePlot` -/

/-- Constant `vg.Inch`, in points. -/
def vgInch : ℚ := 72

/-- Constant `vg.Centimeter`: `vg.Inch / 2.54`. -/
def vgCentimeter : ℚ := vgInch / (254 / 100)

/-- Lines 184-189 of `MakeSpikePlot`: one event `v` against the running `xMin`, `xMax`. -/
def windowStep (st : F64 × F64) (v : ℚ) : F64 × F64 :=
  let xMin := if F64.lt (.fin v) st.1 = true then F64.fin v else st.1
  let xMax := if F64.lt st.2 (.fin v) = true then F64.fin v else st.2
  (xMin, xMax)

/-- Lines 181-191 of `MakeSpikePlot`: the window computed from all events. -/
def autoWindow (spikeLines : SpikeLines) : F64 × F64 :=
  spikeLines.Lines.foldl (fun st l => l.Spikes.foldl windowStep st) (F64.posInf, F64.negInf)

/-- Lines 177-199 of `MakeSpikePlot`: the plot that is saved. -/
def spikePlotObj (spikeLines : SpikeLines) : PlotObj :=
  let p := plotNew
  let p := { p with Title := spikeLines.Title }
  let p := { p with XLabel := "Time (s)" }
  let p :=
    match spikeLines.XLimit with
    | none =>
      let w := autoWindow spikeLines
      { p with X := ⟨w.1, w.2⟩ }
    | some lim => { p with X := ⟨F64.fin lim.Min, F64.fin lim.Max⟩ }
  let p := { p with YTickMarker := some spikeLines }
  p.Add [Plotter.Spikes spikeLines]

/-- One call `p.Save(xDim, yDim, fileName)`. -/
structure SaveCall where
  plot : PlotObj
  xDim : ℚ
  yDim : ℚ
  fileName : String
deriving DecidableEq

/-- Lines 207-213 of `MakeSpikePlot`: the saving loop; `save` is the outcome of `p.Save`
(`none` is `nil`), `calls` the calls made so far. -/
def saveAll (save : PlotObj → ℚ → ℚ → String → Option Error) (p : PlotObj) (xDim yDim : ℚ) :
    List String → List SaveCall → Option Error × List SaveCall
  | [], calls => (none, calls)
  | fileName :: rest, calls =>
    match save p xDim yDim fileName with
    | some err => (some (Error.wrap "spike plot: " err), calls ++ [⟨p, xDim, yDim, fileName⟩])
    | none => saveAll save p xDim yDim rest (calls ++ [⟨p, xDim, yDim, fileName⟩])

/-- Lines 200-203 of `MakeSpikePlot`: the width of the saved plot. -/
def spikeXDim (spikeLines : SpikeLines) : ℚ :=
  if spikeLines.XDim = 0 then 15 * vgCentimeter else spikeLines.XDim

/-- Lines 200-206 of `MakeSpikePlot`: the height of the saved plot. -/
def spikeYDim (spikeLines : SpikeLines) : ℚ :=
  if spikeLines.YDim = 0 then 15 * vgCentimeter else spikeLines.YDim

/-- Function `MakeSpikePlot`: the returned error and the calls of `p.Save` it made. -/
def MakeSpikePlot (save : PlotObj → ℚ → ℚ → String → Option Error) (spikeLines : SpikeLines)
    (fileNames : List String) : Option Error × List SaveCall :=
  if fileNames.length = 0 then (none, [])
  else
    let p := spikePlotObj spikeLines
    let xDim := spikeXDim spikeLines
    let yDim := spikeYDim spikeLines
    saveAll save p xDim yDim fileNames []

/-! ## Example inputs for lines.go and `MakeSpikePlot` -/

/-- A line with nothing but a glyph colour, on two valid points. -/
def lineGlyphColorOnly : Line :=
  { Points := [(F64.fin 0, F64.fin 1), (F64.fin 1, F64.fin 2)],
    GlyphColor := some ⟨255, 0, 0, 255⟩ }

/-- A line with a colour and a glyph (the shape of `TestLinePlot1`). -/
def lineColorGlyph : Line :=
  { Label := "line 1", Points := [(F64.fin 0, F64.fin 1), (F64.fin 1, F64.fin 2)],
    Color := some (rgb 238 46 47), Glyph := some GlyphDrawer.BoxGlyph }

/-- One row with a single event and `Extend = -1`. -/
def rasterNegExtend : SpikeLines :=
  { Lines := [{ Label := "a", Spikes := [1], Property := { Extend := -1 } }] }

/-- A `Save` that fails on the path `bad.png` only. -/
def saveExceptBad : PlotObj → ℚ → ℚ → String → Option Error :=
  fun _ _ _ fileName => if fileName = "bad.png" then some (Error.other "denied") else none

/-- The path names for which `p.Save` succeeds in `MakeSpikePlot`. -/
def saveSucceeds (save : PlotObj → ℚ → ℚ → String → Option Error) (spikeLines : SpikeLines)
    (fileName : String) : Bool :=
  (save (spikePlotObj spikeLines) (spikeXDim spikeLines) (spikeYDim spikeLines) fileName).isNone

/-- All event timestamps of a raster, row after row. -/
def allSpikes (spikeLines : SpikeLines) : List ℚ :=
  spikeLines.Lines.flatMap (fun l => l.Spikes)

/-- The test `line.Color != nil || line.Width != 0 || line.Dashes != nil || line.DashOffs != 0`
of `Add`. -/
def Line.hasLineProperty (line : Line) : Prop :=
  line.Color ≠ none ∨ line.Width ≠ 0 ∨ line.Dashes ≠ none ∨ line.DashOffs ≠ 0

/-- The test `line.Glyph != nil || line.GlyphColor != nil || line.GlyphRadius != 0` of `Add`. -/
def Line.hasGlyphProperty (line : Line) : Prop :=
  line.Glyph ≠ none ∨ line.GlyphColor ≠ none ∨ line.GlyphRadius ≠ 0

instance Line.decHasLineProperty (line : Line) : Decidable line.hasLineProperty :=
  inferInstanceAs (Decidable
    (line.Color ≠ none ∨ line.Width ≠ 0 ∨ line.Dashes ≠ none ∨ line.DashOffs ≠ 0))

instance Line.decHasGlyphProperty (line : Line) : Decidable line.hasGlyphProperty :=
  inferInstanceAs (Decidable
    (line.Glyph ≠ none ∨ line.GlyphColor ≠ none ∨ line.GlyphRadius ≠ 0))

/-- The plotters that `Add` hands to `plt.Add` for a styled line and its copied points
(lines 147-175): the connecting line when the width is non-zero, then the markers when the
glyph radius is non-zero. -/
def addedPlotters (sl : Line) (xys : XYs) : List Plotter :=
  (if sl.Width ≠ 0 then
      [Plotter.Line xys ⟨sl.Color, sl.Width, sl.Dashes, sl.DashOffs⟩]
    else []) ++
  (if sl.GlyphRadius ≠ 0 then
      [Plotter.Scatter xys ⟨sl.Glyph, sl.GlyphColor, sl.GlyphRadius⟩]
    else [])

/-- A plotter is a connecting line (`*plotter.Line`). -/
def Plotter.isLine : Plotter → Bool
  | .Line _ _ => true
  | _ => false

/-- A plotter is a marker series (`*plotter.Scatter`). -/
def Plotter.isScatter : Plotter → Bool
  | .Scatter _ _ => true
  | _ => false

/-- Two sorted rows with events `1, 2` and `2, 3`, without `XLimit`: the automatic window is
`[1, 3]`. -/
def rasterSorted2 : SpikeLines :=
  { Lines := [{ Label := "a", Spikes := [1, 2] }, { Label := "b", Spikes := [2, 3] }] }

/-! ## float64 arithmetic

The definitions above read the arithmetic of `SpikeLines.Plot` and `SpikeLines.Ticks` over the
exact rationals.  The definitions below round every operation as IEEE 754 binary64 does (round
to nearest, ties to even, gradual underflow, overflow to the infinities), each operation on its
own (no fused multiply-add).  The sign of a zero is not kept: the only divisors in the code are
`float64(len(s.Lines))`, `4` and `2`, none of which is a negative zero. -/

/-- The power `2^e` of two as a rational. -/
def pow2 (e : Int) : ℚ :=
  if 0 ≤ e then ((2 ^ e.toNat : Nat) : ℚ) else 1 / ((2 ^ (-e).toNat : Nat) : ℚ)

/-- Rounding to the nearest integer, a tie going to the even one. -/
def roundHalfEven (q : ℚ) : Int :=
  if q - (⌊q⌋ : ℚ) < 1 / 2 then ⌊q⌋
  else if 1 / 2 < q - (⌊q⌋ : ℚ) then ⌊q⌋ + 1
  else if ⌊q⌋ % 2 = 0 then ⌊q⌋
  else ⌊q⌋ + 1

/-- The loop `for n >= 2 { n /= 2; k++ }` that counts the bits of `n` after the first. -/
def log2Loop : Nat → Nat → Nat
  | 0, _ => 0
  | fuel + 1, n => if 2 ≤ n then log2Loop fuel (n / 2) + 1 else 0

/-- The binary exponent of a positive natural `n`: the `k` with `2^k ≤ n < 2^(k+1)`. -/
def natLog2 (n : Nat) : Nat :=
  log2Loop n n

/-- The binary exponent of a positive rational `q`: the `e` with `2^e ≤ q < 2^(e+1)`. -/
def floorLog2 (q : ℚ) : Int :=
  if pow2 ((natLog2 q.num.natAbs : Int) - (natLog2 q.den : Int)) ≤ q then
    (natLog2 q.num.natAbs : Int) - (natLog2 q.den : Int)
  else (natLog2 q.num.natAbs : Int) - (natLog2 q.den : Int) - 1

/-- The unit in the last place of binary64 at `q ≠ 0`: `2^(e-52)` with `e` the binary exponent
of `q`, not below the least normal exponent `-1022`. -/
def f64Ulp (q : ℚ) : ℚ :=
  pow2 (max (floorLog2 |q|) (-1022) - 52)

/-- The binary64 number nearest to `q`, ties to even, the exponent not bounded above. -/
def f64Round (q : ℚ) : ℚ :=
  if q = 0 then 0 else (roundHalfEven (q / f64Ulp q) : ℚ) * f64Ulp q

/-- The `float64` that an operation with the exact result `q` returns. -/
def F64.ofRat (q : ℚ) : F64 :=
  if pow2 1024 ≤ f64Round q then .posInf
  else if f64Round q ≤ -pow2 1024 then .negInf
  else .fin (f64Round q)

/-- Go's unary `-` on `float64`. -/
def F64.neg : F64 → F64
  | .fin q => .fin (-q)
  | .posInf => .negInf
  | .negInf => .posInf
  | .nan => .nan

/-- Go's `+` on `float64`. -/
def F64.add : F64 → F64 → F64
  | .nan, _ => .nan
  | _, .nan => .nan
  | .posInf, .negInf => .nan
  | .negInf, .posInf => .nan
  | .posInf, _ => .posInf
  | _, .posInf => .posInf
  | .negInf, _ => .negInf
  | _, .negInf => .negInf
  | .fin a, .fin b => F64.ofRat (a + b)

/-- Go's binary `-` on `float64`. -/
def F64.sub (a b : F64) : F64 :=
  F64.add a (F64.neg b)

/-- The product of an infinity, positive when `pos`, with the float `b`. -/
def F64.mulInf (pos : Bool) : F64 → F64
  | .nan => .nan
  | .posInf => if pos then .posInf else .negInf
  | .negInf => if pos then .negInf else .posInf
  | .fin b =>
    if b = 0 then .nan
    else if decide (0 < b) = pos then .posInf
    else .negInf

/-- Go's `*` on `float64`. -/
def F64.mul : F64 → F64 → F64
  | .nan, _ => .nan
  | _, .nan => .nan
  | .fin a, .fin b => F64.ofRat (a * b)
  | .posInf, b => F64.mulInf true b
  | .negInf, b => F64.mulInf false b
  | a, .posInf => F64.mulInf true a
  | a, .negInf => F64.mulInf false a

/-- Go's `/` on `float64`; a zero divisor counts as `+0`. -/
def F64.div : F64 → F64 → F64
  | .nan, _ => .nan
  | _, .nan => .nan
  | .fin _, .posInf => .fin 0
  | .fin _, .negInf => .fin 0
  | .fin a, .fin b =>
    if b = 0 then
      if a = 0 then .nan else if 0 < a then .posInf else .negInf
    else F64.ofRat (a / b)
  | .posInf, .fin b => if 0 ≤ b then .posInf else .negInf
  | .negInf, .fin b => if 0 ≤ b then .negInf else .posInf
  | _, _ => .nan

/-- Go's conversion `float64(k)` of an `int`. -/
def F64.ofInt (k : Int) : F64 :=
  F64.ofRat (k : ℚ)

/-- A `float64` is neither an infinity nor NaN. -/
def F64.isFinite : F64 → Bool
  | .fin _ => true
  | _ => false

/-- Go's `<=` on `float64`. -/
def F64.le : F64 → F64 → Bool
  | .nan, _ => false
  | _, .nan => false
  | .negInf, _ => true
  | .fin _, .negInf => false
  | .fin a, .fin b => decide (a ≤ b)
  | .fin _, .posInf => true
  | .posInf, .posInf => true
  | .posInf, _ => false

/-! ## `SpikeLines.Ticks` and `SpikeLines.Plot` with the arithmetic of float64

The vertical coordinates are the only values that the two methods compute; the event times and
the bounds of the time window are only compared, which float64 does exactly, so the time axis
stays over `ℚ`. -/

/-- Type `plot.Tick` with its `float64` value. -/
structure TickF64 where
  Value : F64
  Label : String
deriving DecidableEq

/-- Method `SpikeLines.Ticks`, every operation rounded to float64. -/
def SpikeLines.TicksF64 (s : SpikeLines) (min max : F64) : List TickF64 :=
  let dy := F64.div (F64.sub max min) (F64.ofInt (s.Lines.length : Int))
  s.Lines.enum.foldl (fun ticks il =>
    ticks ++ [{ Value := F64.add min
                  (F64.mul dy (F64.ofInt ((s.Lines.length : Int) - (il.1 : Int) - 1)))
                Label := il.2.Label }]) []

/-- The part of `plot.Plot` read by `SpikeLines.Plot`, with the `Y` axis and its transform over
`float64`. -/
structure PlotF64T where
  X : Axis
  Y : AxisF
  trX : ℚ → ℚ
  trY : F64 → ℚ

/-- The top of an extension bar, line 116, every operation rounded to float64:
`yMin + dy*float64(spikeProperty.Extend+1) - dy/4`. -/
def extendTopF64 (yMin dy : F64) (extend : Int) : F64 :=
  F64.sub (F64.add yMin (F64.mul dy (F64.ofInt (wrapInt (extend + 1))))) (F64.div dy (.fin 4))

/-- The baseline coordinate of line 111, every operation rounded to float64:
`plt.Y.Min + dy*float64(len(s.Lines)-i-1)`. -/
def baselineYF64 (plt : PlotF64T) (dy : F64) (n i : Nat) : F64 :=
  F64.add plt.Y.Min (F64.mul dy (F64.ofInt ((n : Int) - (i : Int) - 1)))

/-- The body of the drawing loop of `SpikeLines.Plot` (lines 79-154) for row index `i`, every
operation rounded to float64. -/
def plotLineF64 (s : SpikeLines) (plt : PlotF64T) (dy : F64) (canvas : Canvas) (i : Nat) :
    Option Canvas := do
  let l ← s.Lines[i]?
  let spikeProperty := mergedProperty l
  let spikes ← clippedSpikes l.Spikes plt.X.Min plt.X.Max
  let xMinPx := plt.trX plt.X.Min
  let xMaxPx := plt.trX plt.X.Max
  let yMin := baselineYF64 plt dy s.Lines.length i
  let yMinPx := plt.trY yMin
  -- draw extend spikes if any
  let canvas :=
    if spikeProperty.Extend ≠ 0 then
      let yMax := extendTopF64 yMin dy spikeProperty.Extend
      let yMaxPx := plt.trY yMax
      let canvas := canvas.SetLineStyle ⟨spikeProperty.ExtendColor, spikeProperty.ExtendWidth⟩
      spikes.foldl (fun cv v =>
        let xPixel := plt.trX v
        strokeSegment cv ⟨xPixel, yMinPx⟩ ⟨xPixel, yMaxPx⟩) canvas
    else canvas
  -- draw spikes
  let yMax := F64.add yMin (F64.div dy (.fin 2))
  let yMaxPx := plt.trY yMax
  let canvas := canvas.SetLineStyle ⟨spikeProperty.Color, spikeProperty.Width⟩
  let canvas := spikes.foldl (fun cv v =>
    let xPixel := plt.trX v
    strokeSegment cv ⟨xPixel, yMinPx⟩ ⟨xPixel, yMaxPx⟩) canvas
  -- draw horizontal line
  let canvas := canvas.SetLineStyle ⟨spikeProperty.LColor, spikeProperty.LWidth⟩
  pure (strokeSegment canvas ⟨xMinPx, yMinPx⟩ ⟨xMaxPx, yMinPx⟩)

/-- Method `SpikeLines.Plot`, every operation rounded to float64. -/
def SpikeLines.PlotF64 (s : SpikeLines) (canvas : Canvas) (plt : PlotF64T) : Option Canvas :=
  let dy := F64.div (F64.sub plt.Y.Max plt.Y.Min) (F64.ofInt (s.Lines.length : Int))
  (drawingOrder s).foldlM (plotLineF64 s plt dy) canvas

/-! ## Specification vocabulary for float64 -/

/-- The row height `dy` of `SpikeLines.Ticks` on `n` rows, as float64 computes it. -/
def tickStepF64 (n : Nat) (min max : F64) : F64 :=
  F64.div (F64.sub max min) (F64.ofInt (n : Int))

/-- The value of tick `i` of `SpikeLines.Ticks` on `n` rows, as float64 computes it. -/
def tickValueF64 (n : Nat) (min max : F64) (i : Nat) : F64 :=
  F64.add min (F64.mul (tickStepF64 n min max) (F64.ofInt ((n : Int) - (i : Int) - 1)))

/-- The plot with exact arithmetic that has the bounds and the transforms of `plt`. -/
def PlotF64T.exact (plt : PlotF64T) : PlotT :=
  ⟨plt.X, ⟨plt.Y.Min.toRat, plt.Y.Max.toRat⟩, plt.trX, fun y => plt.trY (.fin y)⟩

/-- Row height `dy` of `SpikeLines.Plot` in float64. -/
def rowHeightF64 (s : SpikeLines) (plt : PlotF64T) : F64 :=
  F64.div (F64.sub plt.Y.Max plt.Y.Min) (F64.ofInt (s.Lines.length : Int))

/-- Baseline coordinate of row `i` in float64. -/
def rowYF64 (s : SpikeLines) (plt : PlotF64T) (i : Nat) : F64 :=
  baselineYF64 plt (rowHeightF64 s plt) s.Lines.length i

/-- The top of the extension bars of row `i` in float64. -/
def rowTopF64 (s : SpikeLines) (plt : PlotF64T) (i : Nat) : F64 :=
  extendTopF64 (rowYF64 s plt i) (rowHeightF64 s plt) (mergedProperty (rowOf s i)).Extend

/-- The extension bars of row `i` in float64: one per clipped event, none when `Extend` is
zero. -/
def rowExtendBarsF64 (s : SpikeLines) (plt : PlotF64T) (i : Nat) : List Stroke :=
  if (mergedProperty (rowOf s i)).Extend ≠ 0 then
    (clippedOf s plt.exact i).map (fun v =>
      segment ⟨(mergedProperty (rowOf s i)).ExtendColor, (mergedProperty (rowOf s i)).ExtendWidth⟩
        ⟨plt.trX v, plt.trY (rowYF64 s plt i)⟩
        ⟨plt.trX v, plt.trY (rowTopF64 s plt i)⟩)
  else []

/-- The spike ticks of row `i` in float64: one per clipped event. -/
def rowSpikeTicksF64 (s : SpikeLines) (plt : PlotF64T) (i : Nat) : List Stroke :=
  (clippedOf s plt.exact i).map (fun v =>
    segment ⟨(mergedProperty (rowOf s i)).Color, (mergedProperty (rowOf s i)).Width⟩
      ⟨plt.trX v, plt.trY (rowYF64 s plt i)⟩
      ⟨plt.trX v, plt.trY (F64.add (rowYF64 s plt i) (F64.div (rowHeightF64 s plt) (.fin 2)))⟩)

/-- The baseline of row `i` in float64. -/
def rowBaselineF64 (s : SpikeLines) (plt : PlotF64T) (i : Nat) : Stroke :=
  segment ⟨(mergedProperty (rowOf s i)).LColor, (mergedProperty (rowOf s i)).LWidth⟩
    ⟨plt.trX plt.X.Min, plt.trY (rowYF64 s plt i)⟩
    ⟨plt.trX plt.X.Max, plt.trY (rowYF64 s plt i)⟩

/-- All strokes of row `i` in float64, in paint order. -/
def rowStrokesF64 (s : SpikeLines) (plt : PlotF64T) (i : Nat) : List Stroke :=
  rowExtendBarsF64 s plt i ++ rowSpikeTicksF64 s plt i ++ [rowBaselineF64 s plt i]

/-- The extent `[a, b]` is well-conditioned for `n` rows in float64: it is not small against
the magnitude of its bounds times the number of rows, `n * (|a| + |b|) ≤ 2^43 * (b - a)`, and
it is far from the underflow and overflow thresholds. -/
def WellConditioned (n : Nat) (a b : ℚ) : Prop :=
  (n : ℚ) * (|a| + |b|) * 1024 ≤ (b - a) * pow2 53 ∧ pow2 (-900) ≤ b - a ∧
    |a| + |b| ≤ pow2 900

instance WellConditioned.decide (n : Nat) (a b : ℚ) : Decidable (WellConditioned n a b) :=
  inferInstanceAs (Decidable
    ((n : ℚ) * (|a| + |b|) * 1024 ≤ (b - a) * pow2 53 ∧ pow2 (-900) ≤ b - a ∧
      |a| + |b| ≤ pow2 900))

/-! ## Example inputs for the float64 statements -/

/-- A float64 plot with the identity on the time axis, the given extents, and the transform
of the `Y` axis that returns the finite value. -/
def unitPlotF64 (xMin xMax yMin yMax : ℚ) : PlotF64T :=
  ⟨⟨xMin, xMax⟩, ⟨.fin yMin, .fin yMax⟩, id, F64.toRat⟩

/-- One row with a single event and `Extend = math.MaxInt64`. -/
def rasterMaxExtend : SpikeLines :=
  { Lines := [{ Label := "a", Spikes := [1], Property := { Extend := 9223372036854775807 } }] }

/-- One unsorted row with the events `0, 9, 1, 9`. -/
def rasterUnsorted : SpikeLines :=
  { Lines := [{ Label := "a", Spikes := [0, 9, 1, 9] }] }

/-- Four rows with one event each, row 1 with `Extend = 1`. -/
def raster4 : SpikeLines :=
  { Lines := [{ Label := "a", Spikes := [1] },
              { Label := "b", Spikes := [1], Property := { Extend := 1 } },
              { Label := "c", Spikes := [1] },
              { Label := "d", Spikes := [1] }] }

/-! ## Style tables: when `Id` succeeds -/

theorem tmod_neg_range (i n : Int) (hi : i < 0) (hn : 0 < n) :
    -n < Int.tmod i n ∧ Int.tmod i n ≤ 0 := by
  have h1 : Int.tmod i n = -(Int.tmod (-i) n) := by
    have := Int.tmod_def i n
    have h2 := Int.tmod_def (-i) n
    rw [Int.neg_tdiv] at h2
    rw [this, h2]; ring
  have h3 := Int.tmod_lt_of_pos (-i) hn
  have h4 := Int.tmod_nonneg n (by omega : 0 ≤ -i)
  omega

theorem index_isSome_iff {α : Type} (t : List α) (k : Int) :
    (index t k).isSome = true ↔ 0 ≤ k ∧ k < (t.length : Int) := by
  unfold index
  split
  · rename_i h
    simp only [Option.isSome_none, Bool.false_eq_true, false_iff]
    omega
  · rename_i h
    rw [Option.isSome_iff_exists]
    constructor
    · rintro ⟨a, ha⟩
      obtain ⟨h2, _⟩ := List.getElem?_eq_some_iff.mp ha
      omega
    · rintro ⟨_, h2⟩
      have h3 : k.toNat < t.length := by omega
      exact ⟨t[k.toNat], List.getElem?_eq_getElem h3⟩

/-- Method `ColorTable.Id` succeeds exactly when the table is not empty and `i` is not a negative
multiple of its length (the bodies of `GlyphTable.Id` and `DashesTable.Id` are the same). -/
theorem ColorTable_Id_isSome_iff (t : ColorTable) (i : Int) :
    (ColorTable.Id t i).isSome = true ↔
      t ≠ [] ∧ ¬ (i < 0 ∧ Int.tmod i (t.length : Int) = 0) := by
  unfold ColorTable.Id
  simp only
  by_cases ht : t = []
  · subst ht; simp
  · have hn : (0 : Int) < (t.length : Int) := by
      have : 0 < t.length := List.length_pos.mpr ht
      exact_mod_cast this
    rw [if_neg (by omega)]
    by_cases hi : i < 0
    · rw [if_pos hi, index_isSome_iff]
      have := tmod_neg_range i _ hi hn
      constructor
      · intro h; exact ⟨ht, fun h2 => by omega⟩
      · intro h
        have : Int.tmod i (t.length : Int) ≠ 0 := fun h0 => h.2 ⟨hi, h0⟩
        omega
    · rw [if_neg hi, index_isSome_iff]
      have h1 := Int.tmod_lt_of_pos i hn
      have h2 := Int.tmod_nonneg (t.length : Int) (by omega : 0 ≤ i)
      constructor
      · intro _; exact ⟨ht, fun h => hi h.1⟩
      · intro _; exact ⟨h2, h1⟩

/-! ## Binary search: results -/

theorem searchLoop_some (f : Nat → Option Bool) (p : Nat → Bool) (n : Nat)
    (hf : ∀ h, h < n → f h = some (p h)) :
    ∀ fuel i j, j ≤ n → j - i ≤ fuel →
      ∃ r, searchLoop f fuel i j = some r ∧ i ≤ r ∧ (i ≤ j → r ≤ j) := by
  intro fuel
  induction fuel with
  | zero =>
    intro i j _ hfu
    have : ¬ i < j := by omega
    exact ⟨i, by simp [searchLoop, this], le_refl _, fun h => h⟩
  | succ fuel ih =>
    intro i j hj hfu
    by_cases hij : i < j
    · have hh : (i + j) / 2 < n := by omega
      simp only [searchLoop, hij, if_true, hf _ hh]
      cases hp : p ((i + j) / 2)
      · obtain ⟨r, hr, h1, h2⟩ := ih ((i + j) / 2 + 1) j hj (by omega)
        exact ⟨r, hr, by omega, fun _ => h2 (by omega)⟩
      · obtain ⟨r, hr, h1, h2⟩ := ih i ((i + j) / 2) (by omega) (by omega)
        exact ⟨r, hr, h1, fun _ => by have := h2 (by omega); omega⟩
    · exact ⟨i, by simp [searchLoop, hij], le_refl _, fun h => h⟩

theorem searchLoop_mono (f g : Nat → Option Bool) (p q : Nat → Bool) (n : Nat)
    (hf : ∀ h, h < n → f h = some (p h)) (hg : ∀ h, h < n → g h = some (q h))
    (hqp : ∀ h, h < n → q h = true → p h = true) :
    ∀ fuel i j, j ≤ n → j - i ≤ fuel →
      ∀ r1 r2, searchLoop f fuel i j = some r1 → searchLoop g fuel i j = some r2 → r1 ≤ r2 := by
  intro fuel
  induction fuel with
  | zero =>
    intro i j _ hfu r1 r2 h1 h2
    have : ¬ i < j := by omega
    simp [searchLoop, this] at h1 h2
    omega
  | succ fuel ih =>
    intro i j hj hfu r1 r2 h1 h2
    by_cases hij : i < j
    · have hh : (i + j) / 2 < n := by omega
      simp only [searchLoop, hij, if_true, hf _ hh, hg _ hh] at h1 h2
      cases hp : p ((i + j) / 2) <;> cases hq : q ((i + j) / 2)
      · rw [hp] at h1; rw [hq] at h2
        exact ih _ _ hj (by omega) r1 r2 h1 h2
      · have := hqp _ hh hq
        rw [hp] at this; exact absurd this (by simp)
      · rw [hp] at h1; rw [hq] at h2
        obtain ⟨r, hr, _, hb⟩ := searchLoop_some f p n hf fuel i ((i + j) / 2) (by omega) (by omega)
        obtain ⟨r', hr', hb', _⟩ := searchLoop_some g q n hg fuel ((i + j) / 2 + 1) j hj (by omega)
        simp only at h1 h2
        rw [hr] at h1; rw [hr'] at h2
        cases h1; cases h2
        have := hb (by omega)
        omega
      · rw [hp] at h1; rw [hq] at h2
        exact ih _ _ (by omega) (by omega) r1 r2 h1 h2
    · simp [searchLoop, hij] at h1 h2
      omega

theorem searchLoop_spec (f : Nat → Option Bool) (p : Nat → Bool) (n : Nat)
    (hf : ∀ h, h < n → f h = some (p h))
    (hmono : ∀ h h2, h ≤ h2 → h2 < n → p h = true → p h2 = true) :
    ∀ fuel i j r, j ≤ n → j - i ≤ fuel → i ≤ j →
      (∀ h, h < i → p h = false) → (∀ h, j ≤ h → h < n → p h = true) →
      searchLoop f fuel i j = some r →
      (∀ h, h < r → p h = false) ∧ (∀ h, r ≤ h → h < n → p h = true) := by
  intro fuel
  induction fuel with
  | zero =>
    intro i j r _ hfu hij hlo hhi h
    have hn : ¬ i < j := by omega
    simp [searchLoop, hn] at h
    subst h
    exact ⟨hlo, fun h h1 h2 => hhi h (by omega) h2⟩
  | succ fuel ih =>
    intro i j r hj hfu hij hlo hhi h
    by_cases hlt : i < j
    · have hh : (i + j) / 2 < n := by omega
      simp only [searchLoop, hlt, if_true, hf _ hh] at h
      cases hp : p ((i + j) / 2)
      · rw [hp] at h
        refine ih _ _ r hj (by omega) (by omega) ?_ hhi h
        intro k hk
        cases hk2 : p k
        · rfl
        · have := hmono k ((i + j) / 2) (by omega) hh hk2
          rw [hp] at this; exact absurd this (by simp)
      · rw [hp] at h
        refine ih _ _ r (by omega) (by omega) (by omega) hlo ?_ h
        intro k hk hkn
        exact hmono _ k hk hkn hp
    · simp [searchLoop, hlt] at h
      subst h
      exact ⟨hlo, fun h h1 h2 => hhi h (by omega) h2⟩

theorem SearchFloat64s_eval (a : List ℚ) (x : ℚ) (h : Nat) (hh : h < a.length) :
    (fun i => (a[i]?).map (fun v => decide (v ≥ x))) h
      = some ((fun i => decide (a.getD i 0 ≥ x)) h) := by
  simp [List.getElem?_eq_getElem hh, List.getD_eq_getElem _ _ hh]

/-- Both searches of the clipping succeed and are ordered, for any event sequence. -/
theorem search_bounds (a : List ℚ) (xMin xMax : ℚ) (hle : xMin ≤ xMax) :
    ∃ beg en, SearchFloat64s a xMin = some beg ∧ SearchFloat64s a xMax = some en ∧
      beg ≤ en ∧ en ≤ a.length := by
  obtain ⟨r1, h1, _, _⟩ := searchLoop_some _ _ a.length (SearchFloat64s_eval a xMin)
    a.length 0 a.length (le_refl _) (by omega)
  obtain ⟨r2, h2, _, hb⟩ := searchLoop_some _ _ a.length (SearchFloat64s_eval a xMax)
    a.length 0 a.length (le_refl _) (by omega)
  refine ⟨r1, r2, h1, h2, ?_, hb (by omega)⟩
  refine searchLoop_mono _ _ _ _ a.length (SearchFloat64s_eval a xMin)
    (SearchFloat64s_eval a xMax) ?_ a.length 0 a.length (le_refl _) (by omega) r1 r2 h1 h2
  intro h _ hq
  simp only [decide_eq_true_eq] at hq ⊢
  exact le_trans hle hq

theorem clippedSpikes_some (a : List ℚ) (xMin xMax : ℚ) (hle : xMin ≤ xMax) :
    ∃ beg en, SearchFloat64s a xMin = some beg ∧ SearchFloat64s a xMax = some en ∧
      beg ≤ en ∧ en ≤ a.length ∧ clippedSpikes a xMin xMax = some ((a.take en).drop beg) := by
  obtain ⟨beg, en, h1, h2, h3, h4⟩ := search_bounds a xMin xMax hle
  refine ⟨beg, en, h1, h2, h3, h4, ?_⟩
  simp [clippedSpikes, h1, h2, sliceOf, h3, h4]

theorem take_eq_filter (p : ℚ → Bool) :
    ∀ (L : List ℚ) (k : Nat), k ≤ L.length →
      (∀ h, h < k → p (L.getD h 0) = true) →
      (∀ h, k ≤ h → h < L.length → p (L.getD h 0) = false) →
      L.take k = L.filter p := by
  intro L
  induction L with
  | nil => intro k _ _ _; simp
  | cons x xs ih =>
    intro k hk h1 h2
    cases k with
    | zero =>
      have hx : p x = false := by simpa using h2 0 (le_refl _) (by simp)
      have := ih 0 (Nat.zero_le _) (by intro h hh; omega)
        (by intro h _ hh; simpa using h2 (h + 1) (by omega) (by simpa using hh))
      simp only [List.take_zero] at this ⊢
      rw [List.filter_cons_of_neg (by simp [hx])]
      exact this
    | succ k =>
      have hx : p x = true := by simpa using h1 0 (by omega)
      have := ih k (by simpa using hk)
        (by intro h hh; simpa using h1 (h + 1) (by omega))
        (by intro h hh1 hh; simpa using h2 (h + 1) (by omega) (by simpa using hh))
      rw [List.take_succ_cons, List.filter_cons_of_pos hx, this]

theorem drop_eq_filter (q : ℚ → Bool) :
    ∀ (L : List ℚ) (k : Nat), k ≤ L.length →
      (∀ h, h < k → q (L.getD h 0) = false) →
      (∀ h, k ≤ h → h < L.length → q (L.getD h 0) = true) →
      L.drop k = L.filter q := by
  intro L
  induction L with
  | nil => intro k _ _ _; simp
  | cons x xs ih =>
    intro k hk h1 h2
    cases k with
    | zero =>
      have hall : ∀ e ∈ x :: xs, q e = true := by
        intro e he
        obtain ⟨n, hn, rfl⟩ := List.getElem_of_mem he
        have := h2 n (Nat.zero_le _) hn
        rwa [List.getD_eq_getElem _ _ hn] at this
      rw [List.drop_zero, List.filter_eq_self.mpr hall]
    | succ k =>
      have hx : q x = false := by simpa using h1 0 (by omega)
      have := ih k (by simpa using hk)
        (by intro h hh; simpa using h1 (h + 1) (by omega))
        (by intro h hh1 hh; simpa using h2 (h + 1) (by omega) (by simpa using hh))
      rw [List.drop_succ_cons, List.filter_cons_of_neg (by simp [hx]), this]

theorem sorted_getD_le (a : List ℚ) (hs : a.Sorted (· ≤ ·)) (h h2 : Nat) (hle : h ≤ h2)
    (hn : h2 < a.length) : a.getD h 0 ≤ a.getD h2 0 := by
  rw [List.getD_eq_getElem _ _ hn, List.getD_eq_getElem _ _ (by omega : h < a.length)]
  rcases Nat.eq_or_lt_of_le hle with heq | hlt
  · subst heq; exact le_refl _
  · exact (List.pairwise_iff_getElem.mp hs) h h2 (by omega) hn hlt

theorem search_sorted (a : List ℚ) (hs : a.Sorted (· ≤ ·)) (x : ℚ) (r : Nat)
    (hr : SearchFloat64s a x = some r) :
    (∀ h, h < r → a.getD h 0 < x) ∧ (∀ h, r ≤ h → h < a.length → x ≤ a.getD h 0) := by
  have := searchLoop_spec _ _ a.length (SearchFloat64s_eval a x)
    (by
      intro h h2 hle hn hp
      simp only [decide_eq_true_eq, ge_iff_le] at hp ⊢
      exact le_trans hp (sorted_getD_le a hs h h2 hle hn))
    a.length 0 a.length r (le_refl _) (by omega) (Nat.zero_le _)
    (by intro h hh; omega) (by intro h h1 h2; omega) hr
  constructor
  · intro h hh
    have := this.1 h hh
    simpa using this
  · intro h h1 h2
    have := this.2 h h1 h2
    simpa using this

/-- Clipping of a sorted row: the slice is the sub-list of events in `[xMin, xMax)`. -/
theorem clippedSpikes_sorted (a : List ℚ) (hs : a.Sorted (· ≤ ·)) (xMin xMax : ℚ)
    (hle : xMin ≤ xMax) :
    clippedSpikes a xMin xMax = some (a.filter (fun e => decide (xMin ≤ e ∧ e < xMax))) := by
  obtain ⟨beg, en, h1, h2, h3, h4, h5⟩ := clippedSpikes_some a xMin xMax hle
  rw [h5]
  congr 1
  obtain ⟨b1, b2⟩ := search_sorted a hs xMin beg h1
  obtain ⟨e1, e2⟩ := search_sorted a hs xMax en h2
  have ht : a.take en = a.filter (fun e => decide (e < xMax)) := by
    apply take_eq_filter _ a en h4
    · intro h hh; simpa using e1 h hh
    · intro h hh1 hh2; simpa using e2 h hh1 hh2
  have hgd : ∀ h, h < en → (a.take en).getD h 0 = a.getD h 0 := by
    intro h hh
    rw [List.getD_eq_getElem _ _ (by simp; omega), List.getD_eq_getElem _ _ (by omega)]
    simp
  have hd : (a.take en).drop beg = (a.take en).filter (fun e => decide (xMin ≤ e)) := by
    apply drop_eq_filter _ (a.take en) beg (by simp; omega)
    · intro h hh
      rw [hgd h (by omega)]
      simpa using b1 h hh
    · intro h hh1 hh2
      have hlt : h < en := by
        have := hh2
        simp only [List.length_take] at this
        omega
      rw [hgd h hlt]
      simpa using b2 h hh1 (by omega)
  rw [hd, ht, List.filter_filter]
  congr 1
  funext e
  simp [Bool.and_comm]

/-! ## `sort.Slice`: swaps and range permutations -/

@[simp] theorem swap_length (l : List Nat) (i j : Nat) : (swap l i j).length = l.length := by
  unfold swap
  split <;> simp

theorem swap_getD (l : List Nat) (i j k : Nat) (hi : i < l.length) (hj : j < l.length) :
    (swap l i j).getD k 0
      = if k = j then l.getD i 0 else if k = i then l.getD j 0 else l.getD k 0 := by
  unfold swap
  rw [if_pos ⟨hi, hj⟩]
  simp only [List.getD_eq_getElem?_getD, List.getElem?_set, List.length_set]
  by_cases h1 : j = k
  · subst h1; simp [hj]
  · by_cases h2 : i = k
    · subst h2; simp [h1, hi, Ne.symm h1]
    · simp [h1, h2, Ne.symm h1, Ne.symm h2]

theorem getElem_cons_set_perm :
    ∀ (xs : List Nat) (j : Nat) (x : Nat), j < xs.length →
      (xs.getD j 0 :: xs.set j x).Perm (x :: xs) := by
  intro xs
  induction xs with
  | nil => intro j x h; simp at h
  | cons w ws ih =>
    intro j x h
    cases j with
    | zero => simpa using List.Perm.swap x w ws
    | succ j =>
      have hj : j < ws.length := by simpa using h
      have h1 := ih j x hj
      simp only [List.getD_cons_succ, List.set_cons_succ]
      exact (List.Perm.swap w (ws.getD j 0) (ws.set j x)).trans
        ((h1.cons w).trans (List.Perm.swap x w ws))

theorem swap_perm_lt :
    ∀ (l : List Nat) (i j : Nat), i < j → j < l.length →
      ((l.set i (l.getD j 0)).set j (l.getD i 0)).Perm l := by
  intro l
  induction l with
  | nil => intro i j _ h; simp at h
  | cons x xs ih =>
    intro i j hij hj
    cases j with
    | zero => omega
    | succ j =>
      have hj2 : j < xs.length := by simpa using hj
      cases i with
      | zero =>
        simpa using getElem_cons_set_perm xs j x hj2
      | succ i =>
        simpa using ih i j (by omega) hj2

theorem swap_perm (l : List Nat) (i j : Nat) : (swap l i j).Perm l := by
  unfold swap
  split
  · rename_i h
    rcases Nat.lt_trichotomy i j with hlt | heq | hgt
    · exact swap_perm_lt l i j hlt h.2
    · subst heq
      have : (l.set i (l.getD i 0)).set i (l.getD i 0) = l := by
        apply List.ext_getElem (by simp)
        intro n h1 h2
        simp only [List.getElem_set]
        split
        · rename_i h3; subst h3; rw [List.getD_eq_getElem _ _ h.1]
        · rfl
      rw [this]
    · rw [List.set_comm _ _ _ (Nat.ne_of_lt hgt).symm]
      exact swap_perm_lt l j i hgt h.1
  · exact List.Perm.refl _

theorem Less_iff (z : Nat → Int) (l : List Nat) (i j : Nat) :
    Less z l i j = true ↔ z (l.getD i 0) < z (l.getD j 0) := by
  simp [Less]

theorem Less_false_iff (z : Nat → Int) (l : List Nat) (i j : Nat) :
    Less z l i j = false ↔ z (l.getD j 0) ≤ z (l.getD i 0) := by
  simp [Less]

theorem Swaps.one (a b : Nat) (l : List Nat) (i j : Nat)
    (h1 : a ≤ i) (h2 : i < b) (h3 : a ≤ j) (h4 : j < b) : Swaps a b l (swap l i j) :=
  Swaps.step l _ i j h1 h2 h3 h4 (Swaps.refl _)

theorem Swaps.trans {a b : Nat} {l1 l2 l3 : List Nat}
    (h : Swaps a b l1 l2) (h2 : Swaps a b l2 l3) : Swaps a b l1 l3 := by
  induction h with
  | refl l => exact h2
  | step l l2 i j h1 h3 h4 h5 _ ih => exact Swaps.step l _ i j h1 h3 h4 h5 (ih h2)

theorem Swaps.mono {a b a2 b2 : Nat} {l1 l2 : List Nat} (ha : a2 ≤ a) (hb : b ≤ b2)
    (h : Swaps a b l1 l2) : Swaps a2 b2 l1 l2 := by
  induction h with
  | refl l => exact Swaps.refl l
  | step l l2 i j h1 h3 h4 h5 _ ih =>
    exact Swaps.step l _ i j (by omega) (by omega) (by omega) (by omega) ih

theorem Swaps.length {a b : Nat} {l1 l2 : List Nat} (h : Swaps a b l1 l2) :
    l2.length = l1.length := by
  induction h with
  | refl l => rfl
  | step l l2 i j _ _ _ _ _ ih => simpa using ih

theorem Swaps.perm {a b : Nat} {l1 l2 : List Nat} (h : Swaps a b l1 l2) : l2.Perm l1 := by
  induction h with
  | refl l => exact List.Perm.refl l
  | step l l2 i j _ _ _ _ _ ih => exact ih.trans (swap_perm l i j)

theorem swap_getD_outside (l : List Nat) (i j k : Nat) (hi : k ≠ i) (hj : k ≠ j) :
    (swap l i j).getD k 0 = l.getD k 0 := by
  by_cases h : i < l.length ∧ j < l.length
  · rw [swap_getD l i j k h.1 h.2, if_neg hj, if_neg hi]
  · unfold swap; rw [if_neg h]

theorem Swaps.frame {a b : Nat} {l1 l2 : List Nat} (h : Swaps a b l1 l2) (k : Nat)
    (hk : k < a ∨ b ≤ k) : l2.getD k 0 = l1.getD k 0 := by
  induction h with
  | refl l => rfl
  | step l l2 i j h1 h2 h3 h4 _ ih =>
    rw [ih, swap_getD_outside l i j k (by omega) (by omega)]

theorem Swaps.pres {a b : Nat} {l1 l2 : List Nat} (h : Swaps a b l1 l2) (P : Nat → Prop)
    (hP : ∀ k, a ≤ k → k < b → P (l1.getD k 0)) :
    ∀ k, a ≤ k → k < b → P (l2.getD k 0) := by
  induction h with
  | refl l => exact hP
  | step l l2 i j h1 h2 h3 h4 _ ih =>
    apply ih
    intro k hk1 hk2
    by_cases h : i < l.length ∧ j < l.length
    · rw [swap_getD l i j k h.1 h.2]
      split
      · exact hP i h1 h2
      · split
        · exact hP j h3 h4
        · exact hP k hk1 hk2
    · unfold swap; rw [if_neg h]; exact hP k hk1 hk2

/-! ## Loop combinators: invariants -/

theorem forUp_inv {σ : Type} (body : Nat → σ → σ) (Inv : Nat → σ → Prop) :
    ∀ (c i : Nat) (s : σ), Inv i s →
      (∀ k s, i ≤ k → k < i + c → Inv k s → Inv (k + 1) (body k s)) →
      Inv (i + c) (forUp body c i s) := by
  intro c
  induction c with
  | zero => intro i s h _; simpa [forUp] using h
  | succ c ih =>
    intro i s h hb
    have h1 := hb i s (le_refl _) (by omega) h
    have := ih (i + 1) (body i s) h1 (fun k s hk1 hk2 hk => hb k s (by omega) (by omega) hk)
    simp only [forUp]
    rwa [show i + (c + 1) = i + 1 + c by omega]

theorem forDown_inv {σ : Type} (body : Nat → σ → σ) (Inv : Nat → σ → Prop) :
    ∀ (top : Nat) (s : σ), Inv (top + 1) s →
      (∀ k s, k ≤ top → Inv (k + 1) s → Inv k (body k s)) →
      Inv 0 (forDown body top s) := by
  intro top
  induction top with
  | zero => intro s h hb; exact hb 0 s (le_refl _) h
  | succ t ih =>
    intro s h hb
    simp only [forDown]
    exact ih _ (hb (t + 1) s (le_refl _) h) (fun k s hk hi => hb k s (by omega) hi)

theorem scanUp_spec (p : Nat → Bool) (hi : Nat) :
    ∀ (fuel i : Nat), hi - i ≤ fuel →
      i ≤ scanUp p hi fuel i ∧ (i ≤ hi → scanUp p hi fuel i ≤ hi) ∧
      (∀ k, i ≤ k → k < scanUp p hi fuel i → p k = true) ∧
      (scanUp p hi fuel i < hi → p (scanUp p hi fuel i) = false) := by
  intro fuel
  induction fuel with
  | zero =>
    intro i h
    simp only [scanUp]
    exact ⟨le_refl _, fun h => h, fun k h1 h2 => by omega, fun h2 => by omega⟩
  | succ f ih =>
    intro i h
    simp only [scanUp]
    split
    · rename_i hc
      obtain ⟨h1, h2, h3, h4⟩ := ih (i + 1) (by omega)
      refine ⟨by omega, fun _ => h2 (by omega), ?_, h4⟩
      intro k hk1 hk2
      rcases Nat.eq_or_lt_of_le hk1 with heq | hlt
      · subst heq; exact hc.2
      · exact h3 k (by omega) hk2
    · rename_i hc
      refine ⟨le_refl _, fun h => h, fun k h1 h2 => by omega, ?_⟩
      intro hlt
      cases hp : p i
      · rfl
      · exact absurd ⟨hlt, hp⟩ hc

theorem scanDown_spec (p : Nat → Bool) (i : Nat) (hi1 : 1 ≤ i) :
    ∀ (fuel j : Nat), j + 1 - i ≤ fuel →
      scanDown p i fuel j ≤ j ∧ (i ≤ j + 1 → i ≤ scanDown p i fuel j + 1) ∧
      (∀ k, scanDown p i fuel j < k → k ≤ j → p k = true) ∧
      (i ≤ scanDown p i fuel j → p (scanDown p i fuel j) = false) := by
  intro fuel
  induction fuel with
  | zero =>
    intro j h
    simp only [scanDown]
    exact ⟨le_refl _, fun h => h, fun k h1 h2 => by omega, fun h2 => by omega⟩
  | succ f ih =>
    intro j h
    simp only [scanDown]
    split
    · rename_i hc
      obtain ⟨h1, h2, h3, h4⟩ := ih (j - 1) (by omega)
      refine ⟨by omega, fun _ => h2 (by omega), ?_, h4⟩
      intro k hk1 hk2
      rcases Nat.eq_or_lt_of_le hk2 with heq | hlt
      · subst heq; exact hc.2
      · exact h3 k hk1 (by omega)
    · rename_i hc
      refine ⟨le_refl _, fun h => h, fun k h1 h2 => by omega, ?_⟩
      intro hle
      cases hp : p j
      · rfl
      · exact absurd ⟨hle, hp⟩ hc

/-! ## `insertionSort_func` -/

theorem insertionShift_swaps (z : Nat → Int) (a : Nat) :
    ∀ (j : Nat) (l : List Nat), Swaps a (j + 1) l (insertionShift z a j l) := by
  intro j
  induction j with
  | zero => intro l; exact Swaps.refl _
  | succ j ih =>
    intro l
    simp only [insertionShift]
    split
    · rename_i hc
      exact Swaps.step l _ (j + 1) j (by omega) (by omega) (by omega) (by omega)
        (Swaps.mono (le_refl _) (by omega) (ih _))
    · exact Swaps.refl _

theorem insertionShift_sorted (R : Nat → Nat → Prop)
    (htrans : ∀ x y w, R x y → R y w → R x w) (z : Nat → Int) (a : Nat) :
    ∀ (j : Nat) (l : List Nat) (top : Nat), a ≤ j → j ≤ top → top < l.length →
      (∀ x, a ≤ x → x < j →
        (z (l.getD j 0) < z (l.getD x 0) → R (l.getD j 0) (l.getD x 0)) ∧
        (¬ z (l.getD j 0) < z (l.getD x 0) → R (l.getD x 0) (l.getD j 0))) →
      SortedBy R a j l → SortedBy R (j + 1) (top + 1) l →
      (∀ x y, a ≤ x → x < j → j < y → y ≤ top → R (l.getD x 0) (l.getD y 0)) →
      (∀ y, j < y → y ≤ top → R (l.getD j 0) (l.getD y 0)) →
      SortedBy R a (top + 1) (insertionShift z a j l) := by
  intro j
  induction j with
  | zero =>
    intro l top ha _ _ _ _ H2 _ H4
    simp only [insertionShift]
    intro i y hi hiy hy
    rcases Nat.eq_zero_or_pos i with h0 | hpos
    · subst h0; exact H4 y hiy (by omega)
    · exact H2 i y (by omega) hiy hy
  | succ j ih =>
    intro l top ha hjt htop Hc H1 H2 H3 H4
    have hj1 : j + 1 < l.length := by omega
    have hj0 : j < l.length := by omega
    simp only [insertionShift]
    split
    · rename_i hc
      obtain ⟨haj, hless⟩ := hc
      rw [Less_iff] at hless
      have hg : ∀ k, (swap l (j + 1) j).getD k 0
          = if k = j then l.getD (j + 1) 0 else if k = j + 1 then l.getD j 0 else l.getD k 0 :=
        fun k => swap_getD l (j + 1) j k hj1 hj0
      apply ih (swap l (j + 1) j) top (by omega) (by omega) (by simpa using htop)
      · intro x hx1 hx2
        rw [hg j, hg x]
        split_ifs <;> first | omega | exact Hc x hx1 (by omega)
      · intro i y hi hiy hy
        rw [hg i, hg y]
        split_ifs <;> first | omega | exact H1 i y hi hiy (by omega)
      · intro i y hi hiy hy
        rw [hg i, hg y]
        split_ifs <;> first
          | omega
          | exact H3 j y (by omega) (by omega) (by omega) (by omega)
          | exact H2 i y (by omega) hiy hy
      · intro x y hx1 hx2 hy1 hy2
        rw [hg x, hg y]
        split_ifs <;> first
          | omega
          | exact H1 x j hx1 hx2 (by omega)
          | exact H3 x y hx1 (by omega) (by omega) hy2
      · intro y hy1 hy2
        rw [hg j, hg y]
        split_ifs <;> first
          | omega
          | exact (Hc j (by omega) (by omega)).1 hless
          | exact H4 y (by omega) hy2
    · rename_i hc
      intro i y hi hiy hy
      by_cases hyj : y ≤ j
      · exact H1 i y hi hiy (by omega)
      · by_cases hy1 : y = j + 1
        · subst hy1
          have hnl : ¬ z (l.getD (j + 1) 0) < z (l.getD j 0) := by
            intro hlt
            exact hc ⟨by omega, (Less_iff z l (j + 1) j).mpr hlt⟩
          have hju := (Hc j (by omega) (by omega)).2 hnl
          rcases Nat.eq_or_lt_of_le (Nat.lt_succ_iff.mp hiy) with heq | hlt
          · subst heq; exact hju
          · exact htrans _ _ _ (H1 i j hi hlt (by omega)) hju
        · by_cases hi1 : i ≤ j
          · exact H3 i y hi (by omega) (by omega) (by omega)
          · by_cases hi2 : i = j + 1
            · subst hi2; exact H4 y (by omega) (by omega)
            · exact H2 i y (by omega) hiy hy

theorem insertionSort_spec (R : Nat → Nat → Prop)
    (htrans : ∀ x y w, R x y → R y w → R x w) (z : Nat → Int) (l : List Nat) (a b : Nat)
    (hb : b ≤ l.length)
    (hcompat : ∀ x y, a ≤ x → x < y → y < b →
      (z (l.getD y 0) < z (l.getD x 0) → R (l.getD y 0) (l.getD x 0)) ∧
      (¬ z (l.getD y 0) < z (l.getD x 0) → R (l.getD x 0) (l.getD y 0))) :
    Swaps a b l (insertionSort_func z l a b) ∧ SortedBy R a b (insertionSort_func z l a b) := by
  unfold insertionSort_func
  by_cases hab : a + 1 ≤ b
  · have key := forUp_inv (fun i l => insertionShift z a i l)
      (fun i l2 => Swaps a i l l2 ∧ SortedBy R a i l2) (b - (a + 1)) (a + 1) l
      ⟨Swaps.refl _, fun i j h1 h2 h3 => by omega⟩
      (by
        intro k s hk1 hk2 ⟨hs, hsort⟩
        have hlen := hs.length
        refine ⟨(Swaps.mono (le_refl _) (by omega) hs).trans (insertionShift_swaps z a k s), ?_⟩
        apply insertionShift_sorted R htrans z a k s k (by omega) (le_refl _) (by omega)
        · intro x hx1 hx2
          rw [hs.frame k (by omega)]
          exact hs.pres (fun u =>
            (z (l.getD k 0) < z u → R (l.getD k 0) u) ∧
            (¬ z (l.getD k 0) < z u → R u (l.getD k 0)))
            (fun x hx1 hx2 => hcompat x k hx1 hx2 (by omega)) x hx1 hx2
        · exact hsort
        · intro i j h1 h2 h3; omega
        · intro x y _ _ h1 h2; omega
        · intro y h1 h2; omega)
    rw [show a + 1 + (b - (a + 1)) = b by omega] at key
    exact key
  · rw [show b - (a + 1) = 0 by omega]
    simp only [forUp]
    exact ⟨Swaps.refl _, fun i j h1 h2 h3 => by omega⟩

theorem insertionSort_sorted (z : Nat → Int) (l : List Nat) (a b : Nat) (hb : b ≤ l.length) :
    Swaps a b l (insertionSort_func z l a b) ∧ SortedOn z a b (insertionSort_func z l a b) := by
  apply insertionSort_spec (fun r r2 => z r ≤ z r2) (fun x y w h1 h2 => le_trans h1 h2) z l a b hb
  intro x y _ _ _
  exact ⟨fun h => le_of_lt h, fun h => not_lt.mp h⟩

/-! ## `partition_func` and `partitionEqual_func` -/

theorem partitionLoop_spec (z : Nat → Int) (a b : Nat) :
    ∀ (fuel : Nat) (l : List Nat) (i j : Nat), j + 1 - i ≤ fuel → b ≤ l.length →
      a + 1 ≤ i → i ≤ j + 1 → j < b →
      (∀ k, a + 1 ≤ k → k < i → z (l.getD k 0) < z (l.getD a 0)) →
      (∀ k, j < k → k < b → z (l.getD a 0) ≤ z (l.getD k 0)) →
      Swaps (a + 1) b l (partitionLoop z a fuel l i j).1 ∧
      a ≤ (partitionLoop z a fuel l i j).2 ∧ (partitionLoop z a fuel l i j).2 < b ∧
      (∀ k, a + 1 ≤ k → k ≤ (partitionLoop z a fuel l i j).2 →
        z ((partitionLoop z a fuel l i j).1.getD k 0) < z (l.getD a 0)) ∧
      (∀ k, (partitionLoop z a fuel l i j).2 < k → k < b →
        z (l.getD a 0) ≤ z ((partitionLoop z a fuel l i j).1.getD k 0)) := by
  intro fuel
  induction fuel with
  | zero =>
    intro l i j hf hb hi hij hj H1 H2
    simp only [partitionLoop]
    exact ⟨Swaps.refl _, by omega, hj, fun k h1 h2 => H1 k h1 (by omega), H2⟩
  | succ f ih =>
    intro l i j hf hb hi hij hj H1 H2
    simp only [partitionLoop]
    have hs1 := scanUp_spec (fun k => Less z l k a) (j + 1) (j + 1 - i) i (le_refl _)
    generalize scanUp (fun k => Less z l k a) (j + 1) (j + 1 - i) i = i1 at hs1 ⊢
    obtain ⟨u1, u2, u3, u4⟩ := hs1
    have hs2 := scanDown_spec (fun k => !Less z l k a) i1 (by omega) (j + 1 - i1) j (le_refl _)
    generalize scanDown (fun k => !Less z l k a) i1 (j + 1 - i1) j = j1 at hs2 ⊢
    obtain ⟨d1, d2, d3, d4⟩ := hs2
    simp only [Less_iff, Less_false_iff, Bool.not_eq_true', Bool.not_eq_false'] at u3 u4 d3 d4
    have u2 := u2 hij
    have d2 := d2 u2
    have HL : ∀ k, a + 1 ≤ k → k < i1 → z (l.getD k 0) < z (l.getD a 0) := by
      intro k h1 h2
      by_cases h : k < i
      · exact H1 k h1 h
      · exact u3 k (by omega) h2
    have HR : ∀ k, j1 < k → k < b → z (l.getD a 0) ≤ z (l.getD k 0) := by
      intro k h1 h2
      by_cases h : j < k
      · exact H2 k h h2
      · exact d3 k h1 (by omega)
    split
    · exact ⟨Swaps.refl _, by omega, by omega, fun k h1 h2 => HL k h1 (by omega), HR⟩
    · rename_i hc
      have hle : i1 ≤ j1 := by omega
      have e1 := u4 (by omega)
      have e2 := d4 hle
      have hne : i1 ≠ j1 := by
        intro h; subst h; omega
      have hi1 : i1 < l.length := by omega
      have hj1 : j1 < l.length := by omega
      have hg : ∀ k, (swap l i1 j1).getD k 0
          = if k = j1 then l.getD i1 0 else if k = i1 then l.getD j1 0 else l.getD k 0 :=
        fun k => swap_getD l i1 j1 k hi1 hj1
      have ha : (swap l i1 j1).getD a 0 = l.getD a 0 := by
        rw [hg a]; split_ifs <;> omega
      have := ih (swap l i1 j1) (i1 + 1) (j1 - 1) (by omega) (by simpa using hb) (by omega)
        (by omega) (by omega)
        (by
          intro k h1 h2
          rw [ha, hg k]
          split_ifs <;> first | omega | exact e2 | exact HL k h1 (by omega))
        (by
          intro k h1 h2
          rw [ha, hg k]
          split_ifs <;> first | omega | exact e1 | exact HR k (by omega) h2)
      rw [ha] at this
      obtain ⟨r1, r2, r3, r4, r5⟩ := this
      exact ⟨Swaps.step l _ i1 j1 (by omega) (by omega) (by omega) (by omega) r1,
        r2, r3, r4, r5⟩

theorem partition_final_swap (z : Nat → Int) (l : List Nat) (a b j : Nat)
    (hb : b ≤ l.length) (h1 : a ≤ j) (h2 : j < b)
    (HL : ∀ k, a + 1 ≤ k → k ≤ j → z (l.getD k 0) < z (l.getD a 0))
    (HR : ∀ k, j < k → k < b → z (l.getD a 0) ≤ z (l.getD k 0)) :
    (∀ k, a ≤ k → k < j → z ((swap l j a).getD k 0) < z ((swap l j a).getD j 0)) ∧
    (∀ k, j < k → k < b → z ((swap l j a).getD j 0) ≤ z ((swap l j a).getD k 0)) := by
  have hg : ∀ k, (swap l j a).getD k 0
      = if k = a then l.getD j 0 else if k = j then l.getD a 0 else l.getD k 0 :=
    fun k => swap_getD l j a k (by omega) (by omega)
  by_cases hja : j = a
  · subst hja
    constructor
    · intro k h3 h4; omega
    · intro k h3 h4
      rw [hg k, hg j, if_pos rfl, if_neg (by omega), if_neg (by omega)]
      exact HR k h3 h4
  · constructor
    · intro k h3 h4
      rw [hg k, hg j, if_neg hja, if_pos rfl]
      split_ifs <;> first
        | omega
        | exact HL j (by omega) (le_refl _)
        | exact HL k (by omega) (by omega)
    · intro k h3 h4
      rw [hg k, hg j, if_neg hja, if_pos rfl]
      split_ifs <;> first | omega | exact HR k h3 h4

/-- Partition result: `data[k] < p` left of `newpivot`, `data[newpivot] = p`, `p ≤ data[k]`
right of it. -/
theorem partition_spec (z : Nat → Int) (l : List Nat) (a b pivot : Nat)
    (hb : b ≤ l.length) (hp1 : a ≤ pivot) (hp2 : pivot < b)
    (l2 : List Nat) (mid : Nat) (ap : Bool) (hres : partition_func z l a b pivot = (l2, mid, ap)) :
    Swaps a b l l2 ∧ a ≤ mid ∧ mid < b ∧
    (∀ k, a ≤ k → k < mid → z (l2.getD k 0) < z (l2.getD mid 0)) ∧
    (∀ k, mid < k → k < b → z (l2.getD mid 0) ≤ z (l2.getD k 0)) := by
  simp only [partition_func] at hres
  have hs0 : Swaps a b l (swap l a pivot) := Swaps.one a b l a pivot (le_refl _) (by omega) hp1 hp2
  generalize swap l a pivot = l0 at hs0 hres
  have hb0 : b ≤ l0.length := by rw [hs0.length]; exact hb
  have hs1 := scanUp_spec (fun k => Less z l0 k a) (b - 1 + 1) (b - 1 + 1 - (a + 1)) (a + 1)
    (le_refl _)
  generalize scanUp (fun k => Less z l0 k a) (b - 1 + 1) (b - 1 + 1 - (a + 1)) (a + 1) = i1
    at hs1 hres
  obtain ⟨u1, u2, u3, u4⟩ := hs1
  have hs2 := scanDown_spec (fun k => !Less z l0 k a) i1 (by omega) (b - 1 + 1 - i1) (b - 1)
    (le_refl _)
  generalize scanDown (fun k => !Less z l0 k a) i1 (b - 1 + 1 - i1) (b - 1) = j1 at hs2 hres
  obtain ⟨d1, d2, d3, d4⟩ := hs2
  simp only [Less_iff, Less_false_iff, Bool.not_eq_true', Bool.not_eq_false'] at u3 u4 d3 d4
  have u2 := u2 (by omega)
  have d2 := d2 (by omega)
  split at hres
  · rename_i hc
    simp only [Prod.mk.injEq] at hres
    obtain ⟨rfl, rfl, _⟩ := hres
    obtain ⟨f1, f2⟩ := partition_final_swap z l0 a b j1 hb0 (by omega) (by omega)
      (fun k h1 h2 => u3 k h1 (by omega)) (fun k h1 h2 => d3 k h1 (by omega))
    exact ⟨hs0.trans (Swaps.one a b l0 j1 a (by omega) (by omega) (le_refl _) (by omega)),
      by omega, by omega, f1, f2⟩
  · rename_i hc
    have hle : i1 ≤ j1 := by omega
    have e1 := u4 (by omega)
    have e2 := d4 hle
    have hne : i1 ≠ j1 := by
      intro h; subst h; omega
    have hi1 : i1 < l0.length := by omega
    have hj1 : j1 < l0.length := by omega
    have hg : ∀ k, (swap l0 i1 j1).getD k 0
        = if k = j1 then l0.getD i1 0 else if k = i1 then l0.getD j1 0 else l0.getD k 0 :=
      fun k => swap_getD l0 i1 j1 k hi1 hj1
    have ha : (swap l0 i1 j1).getD a 0 = l0.getD a 0 := by
      rw [hg a]; split_ifs <;> omega
    have hsw : Swaps a b l0 (swap l0 i1 j1) :=
      Swaps.one a b l0 i1 j1 (by omega) (by omega) (by omega) (by omega)
    have := partitionLoop_spec z a b (j1 - i1) (swap l0 i1 j1) (i1 + 1) (j1 - 1) (by omega)
      (by simpa using hb0) (by omega) (by omega) (by omega)
      (by
        intro k h1 h2
        rw [ha, hg k]
        split_ifs <;> first | omega | exact e2 | exact u3 k (by omega) (by omega))
      (by
        intro k h1 h2
        rw [ha, hg k]
        split_ifs <;> first | omega | exact e1 | exact d3 k (by omega) (by omega))
    rw [ha] at this
    generalize partitionLoop z a (j1 - i1) (swap l0 i1 j1) (i1 + 1) (j1 - 1) = r at this hres
    obtain ⟨r1, r2, r3, r4, r5⟩ := this
    simp only [Prod.mk.injEq] at hres
    obtain ⟨rfl, rfl, _⟩ := hres
    have hfa : r.1.getD a 0 = l0.getD a 0 := by
      rw [r1.frame a (by omega), ha]
    have hlen : r.1.length = l0.length := by rw [r1.length]; simp
    obtain ⟨f1, f2⟩ := partition_final_swap z r.1 a b r.2 (by omega) r2 r3
      (fun k h1 h2 => by rw [hfa]; exact r4 k h1 h2) (fun k h1 h2 => by rw [hfa]; exact r5 k h1 h2)
    exact ⟨hs0.trans (hsw.trans ((Swaps.mono (by omega) (le_refl _) r1).trans
      (Swaps.one a b r.1 r.2 a r2 r3 (le_refl _) (by omega)))), r2, r3, f1, f2⟩

theorem partitionEqualLoop_spec (z : Nat → Int) (a b : Nat) :
    ∀ (fuel : Nat) (l : List Nat) (i j : Nat), j + 1 - i ≤ fuel → b ≤ l.length →
      a + 1 ≤ i → i ≤ j + 1 → j < b →
      (∀ k, a + 1 ≤ k → k < i → z (l.getD k 0) ≤ z (l.getD a 0)) →
      (∀ k, j < k → k < b → z (l.getD a 0) < z (l.getD k 0)) →
      Swaps (a + 1) b l (partitionEqualLoop z a fuel l i j).1 ∧
      a + 1 ≤ (partitionEqualLoop z a fuel l i j).2 ∧ (partitionEqualLoop z a fuel l i j).2 ≤ b ∧
      (∀ k, a + 1 ≤ k → k < (partitionEqualLoop z a fuel l i j).2 →
        z ((partitionEqualLoop z a fuel l i j).1.getD k 0) ≤ z (l.getD a 0)) ∧
      (∀ k, (partitionEqualLoop z a fuel l i j).2 ≤ k → k < b →
        z (l.getD a 0) < z ((partitionEqualLoop z a fuel l i j).1.getD k 0)) := by
  intro fuel
  induction fuel with
  | zero =>
    intro l i j hf hb hi hij hj H1 H2
    simp only [partitionEqualLoop]
    exact ⟨Swaps.refl _, hi, by omega, H1, fun k h1 h2 => H2 k (by omega) h2⟩
  | succ f ih =>
    intro l i j hf hb hi hij hj H1 H2
    simp only [partitionEqualLoop]
    have hs1 := scanUp_spec (fun k => !Less z l a k) (j + 1) (j + 1 - i) i (le_refl _)
    generalize scanUp (fun k => !Less z l a k) (j + 1) (j + 1 - i) i = i1 at hs1 ⊢
    obtain ⟨u1, u2, u3, u4⟩ := hs1
    have hs2 := scanDown_spec (fun k => Less z l a k) i1 (by omega) (j + 1 - i1) j (le_refl _)
    generalize scanDown (fun k => Less z l a k) i1 (j + 1 - i1) j = j1 at hs2 ⊢
    obtain ⟨d1, d2, d3, d4⟩ := hs2
    simp only [Less_iff, Less_false_iff, Bool.not_eq_true', Bool.not_eq_false'] at u3 u4 d3 d4
    have u2 := u2 hij
    have d2 := d2 u2
    have HL : ∀ k, a + 1 ≤ k → k < i1 → z (l.getD k 0) ≤ z (l.getD a 0) := by
      intro k h1 h2
      by_cases h : k < i
      · exact H1 k h1 h
      · exact u3 k (by omega) h2
    have HR : ∀ k, j1 < k → k < b → z (l.getD a 0) < z (l.getD k 0) := by
      intro k h1 h2
      by_cases h : j < k
      · exact H2 k h h2
      · exact d3 k h1 (by omega)
    split
    · exact ⟨Swaps.refl _, by omega, by omega, HL, fun k h1 h2 => HR k (by omega) h2⟩
    · rename_i hc
      have hle : i1 ≤ j1 := by omega
      have e1 := u4 (by omega)
      have e2 := d4 hle
      have hne : i1 ≠ j1 := by
        intro h; subst h; omega
      have hi1 : i1 < l.length := by omega
      have hj1 : j1 < l.length := by omega
      have hg : ∀ k, (swap l i1 j1).getD k 0
          = if k = j1 then l.getD i1 0 else if k = i1 then l.getD j1 0 else l.getD k 0 :=
        fun k => swap_getD l i1 j1 k hi1 hj1
      have ha : (swap l i1 j1).getD a 0 = l.getD a 0 := by
        rw [hg a]; split_ifs <;> omega
      have := ih (swap l i1 j1) (i1 + 1) (j1 - 1) (by omega) (by simpa using hb) (by omega)
        (by omega) (by omega)
        (by
          intro k h1 h2
          rw [ha, hg k]
          split_ifs <;> first | omega | exact e2 | exact HL k h1 (by omega))
        (by
          intro k h1 h2
          rw [ha, hg k]
          split_ifs <;> first | omega | exact e1 | exact HR k (by omega) h2)
      rw [ha] at this
      obtain ⟨r1, r2, r3, r4, r5⟩ := this
      exact ⟨Swaps.step l _ i1 j1 (by omega) (by omega) (by omega) (by omega) r1,
        r2, r3, r4, r5⟩

/-- Result of `partitionEqual_func`: keys `≤ p` before `newpivot`, keys `> p` from it on. -/
theorem partitionEqual_spec (z : Nat → Int) (l : List Nat) (a b pivot : Nat)
    (hb : b ≤ l.length) (hp1 : a ≤ pivot) (hp2 : pivot < b) :
    Swaps a b l (partitionEqual_func z l a b pivot).1 ∧
    a < (partitionEqual_func z l a b pivot).2 ∧ (partitionEqual_func z l a b pivot).2 ≤ b ∧
    (∀ k, a ≤ k → k < (partitionEqual_func z l a b pivot).2 →
      z ((partitionEqual_func z l a b pivot).1.getD k 0) ≤ z (l.getD pivot 0)) ∧
    (∀ k, (partitionEqual_func z l a b pivot).2 ≤ k → k < b →
      z (l.getD pivot 0) < z ((partitionEqual_func z l a b pivot).1.getD k 0)) := by
  simp only [partitionEqual_func]
  have hs0 : Swaps a b l (swap l a pivot) := Swaps.one a b l a pivot (le_refl _) (by omega) hp1 hp2
  have hpa : (swap l a pivot).getD a 0 = l.getD pivot 0 := by
    rw [swap_getD l a pivot a (by omega) (by omega)]
    by_cases h : a = pivot
    · rw [if_pos h, h]
    · rw [if_neg h, if_pos rfl]
  generalize swap l a pivot = l0 at hs0 hpa ⊢
  have hb0 : b ≤ l0.length := by rw [hs0.length]; exact hb
  have := partitionEqualLoop_spec z a b (b - a) l0 (a + 1) (b - 1) (by omega) hb0 (le_refl _)
    (by omega) (by omega) (fun k h1 h2 => by omega) (fun k h1 h2 => by omega)
  rw [hpa] at this
  generalize partitionEqualLoop z a (b - a) l0 (a + 1) (b - 1) = r at this ⊢
  obtain ⟨r1, r2, r3, r4, r5⟩ := this
  refine ⟨hs0.trans (Swaps.mono (by omega) (le_refl _) r1), by omega, r3, ?_, r5⟩
  intro k h1 h2
  rcases Nat.eq_or_lt_of_le h1 with heq | hlt
  · subst heq
    rw [r1.frame a (by omega), hpa]
  · exact r4 k (by omega) h2

/-! ## `reverseRange_func`, `breakPatterns_func`, `choosePivot_func` -/

theorem reverseRangeLoop_swaps (a b : Nat) :
    ∀ (f i j : Nat) (l : List Nat), a ≤ i → j < b → Swaps a b l (reverseRangeLoop f i j l) := by
  intro f
  induction f with
  | zero => intro i j l _ _; exact Swaps.refl _
  | succ f ih =>
    intro i j l hi hj
    simp only [reverseRangeLoop]
    split
    · exact Swaps.step l _ i j hi (by omega) (by omega) hj (ih _ _ _ (by omega) (by omega))
    · exact Swaps.refl _

theorem reverseRange_swaps (l : List Nat) (a b : Nat) (hab : a < b) :
    Swaps a b l (reverseRange_func l a b) :=
  reverseRangeLoop_swaps a b (b - a) a (b - 1) l (le_refl _) (by omega)

theorem nextPowerOfTwo_le (n : Nat) (hn : 0 < n) : nextPowerOfTwo n ≤ 2 * n := by
  unfold nextPowerOfTwo bitsLen
  rw [if_neg (by omega), Nat.one_shiftLeft, pow_succ]
  have := @Nat.log2_self_le n (by omega)
  omega

theorem breakPatterns_swaps (l : List Nat) (a b : Nat) :
    Swaps a b l (breakPatterns_func l a b) := by
  unfold breakPatterns_func
  simp only
  split
  · rename_i hlen
    have hm := nextPowerOfTwo_le (b - a) (by omega)
    have := forUp_inv (fun i (st : Nat × List Nat) =>
        ((xorshiftNext st.1),
          swap st.2 (a + (b - a) / 4 * 2 - 1 - 1 + i)
            (a + if xorshiftNext st.1 &&& (nextPowerOfTwo (b - a) - 1) ≥ b - a then
              (xorshiftNext st.1 &&& (nextPowerOfTwo (b - a) - 1)) - (b - a)
              else xorshiftNext st.1 &&& (nextPowerOfTwo (b - a) - 1))))
      (fun _ st => Swaps a b l st.2) 3 0 (b - a, l) (Swaps.refl _)
      (by
        intro k st hk1 hk2 hinv
        refine hinv.trans (Swaps.one a b _ _ _ (by omega) (by omega) (by omega) ?_)
        have hand : xorshiftNext st.1 &&& (nextPowerOfTwo (b - a) - 1)
            ≤ nextPowerOfTwo (b - a) - 1 := Nat.and_le_right
        split <;> omega)
    exact this
  · exact Swaps.refl _

theorem order2_mem (z : Nat → Int) (l : List Nat) (x y s : Nat) :
    ((order2_func z l x y s).1 = x ∧ (order2_func z l x y s).2.1 = y) ∨
    ((order2_func z l x y s).1 = y ∧ (order2_func z l x y s).2.1 = x) := by
  unfold order2_func
  split
  · right; exact ⟨rfl, rfl⟩
  · left; exact ⟨rfl, rfl⟩

theorem median_mem (z : Nat → Int) (l : List Nat) (x y w s : Nat) :
    (median_func z l x y w s).1 = x ∨ (median_func z l x y w s).1 = y ∨
      (median_func z l x y w s).1 = w := by
  simp only [median_func]
  rcases order2_mem z l x y s with ⟨h1, h2⟩ | ⟨h1, h2⟩ <;>
  rcases order2_mem z l (order2_func z l x y s).2.1 w (order2_func z l x y s).2.2
    with ⟨h3, h4⟩ | ⟨h3, h4⟩ <;>
  rcases order2_mem z l (order2_func z l x y s).1
    (order2_func z l (order2_func z l x y s).2.1 w (order2_func z l x y s).2.2).1
    (order2_func z l (order2_func z l x y s).2.1 w (order2_func z l x y s).2.2).2.2
    with ⟨h5, h6⟩ | ⟨h5, h6⟩ <;>
  simp_all

theorem choosePivot_bounds (z : Nat → Int) (l : List Nat) (a b : Nat) (hlen : 8 ≤ b - a) :
    a ≤ (choosePivot_func z l a b).1 ∧ (choosePivot_func z l a b).1 < b := by
  have hfst : ∀ (r : Nat × Nat),
      (if r.2 = 0 then (r.1, sortedHint.increasingHint)
        else if r.2 = 12 then (r.1, sortedHint.decreasingHint)
        else (r.1, sortedHint.unknownHint)).1 = r.1 := by
    intro r; split_ifs <;> rfl
  simp only [choosePivot_func, hfst, if_pos hlen]
  split
  · rename_i h50
    have m1 := median_mem z l (a + (b - a) / 4 * 1 - 1) (a + (b - a) / 4 * 1)
      (a + (b - a) / 4 * 1 + 1) 0
    generalize hr1 : medianAdjacent_func z l (a + (b - a) / 4 * 1) 0 = r1
    have e1 : median_func z l (a + (b - a) / 4 * 1 - 1) (a + (b - a) / 4 * 1)
      (a + (b - a) / 4 * 1 + 1) 0 = r1 := hr1
    rw [e1] at m1
    have m2 := median_mem z l (a + (b - a) / 4 * 2 - 1) (a + (b - a) / 4 * 2)
      (a + (b - a) / 4 * 2 + 1) r1.2
    generalize hr2 : medianAdjacent_func z l (a + (b - a) / 4 * 2) r1.2 = r2
    have e2 : median_func z l (a + (b - a) / 4 * 2 - 1) (a + (b - a) / 4 * 2)
      (a + (b - a) / 4 * 2 + 1) r1.2 = r2 := hr2
    rw [e2] at m2
    have m3 := median_mem z l (a + (b - a) / 4 * 3 - 1) (a + (b - a) / 4 * 3)
      (a + (b - a) / 4 * 3 + 1) r2.2
    generalize hr3 : medianAdjacent_func z l (a + (b - a) / 4 * 3) r2.2 = r3
    have e3 : median_func z l (a + (b - a) / 4 * 3 - 1) (a + (b - a) / 4 * 3)
      (a + (b - a) / 4 * 3 + 1) r2.2 = r3 := hr3
    rw [e3] at m3
    have m4 := median_mem z l r1.1 r2.1 r3.1 r3.2
    omega
  · have m := median_mem z l (a + (b - a) / 4 * 1) (a + (b - a) / 4 * 2)
      (a + (b - a) / 4 * 3) 0
    omega

/-! ## `partialInsertionSort_func` -/

theorem LowerBounded.swaps {z : Nat → Int} {a b : Nat} {l l2 : List Nat}
    (h : LowerBounded z a b l) (hs : Swaps a b l l2) : LowerBounded z a b l2 := by
  rcases h with h0 | h
  · exact Or.inl h0
  · by_cases ha : a = 0
    · exact Or.inl ha
    · right
      rw [hs.frame (a - 1) (by omega)]
      exact hs.pres (fun u => z (l.getD (a - 1) 0) ≤ z u) h

theorem shiftLeft_eq (z : Nat → Int) (a b : Nat) :
    ∀ (j : Nat) (l : List Nat), a ≤ j → j < b → LowerBounded z a b l →
      shiftLeft z j l = insertionShift z a j l := by
  intro j
  induction j with
  | zero => intro l _ _ _; rfl
  | succ j ih =>
    intro l haj hjb hpre
    simp only [shiftLeft, insertionShift]
    cases hless : Less z l (j + 1) j
    · simp
    · have hlt : a < j + 1 := by
        rcases Nat.eq_or_lt_of_le haj with heq | hlt
        · exfalso
          rcases hpre with h0 | h
          · omega
          · have := h a (le_refl _) (by omega)
            rw [Less_iff] at hless
            rw [heq] at this
            simp only [Nat.add_sub_cancel] at this
            omega
        · exact hlt
      simp only [hlt, true_and, if_true]
      simp only [Bool.true_eq_false, if_false]
      exact ih _ (by omega) (by omega)
        (hpre.swaps (Swaps.one a b l (j + 1) j (by omega) (by omega) (by omega) (by omega)))

theorem shiftRight_swaps (z : Nat → Int) (i b : Nat) :
    ∀ (f j : Nat) (l : List Nat), i + 1 ≤ j → Swaps i b l (shiftRight z b f j l) := by
  intro f
  induction f with
  | zero => intro j l _; exact Swaps.refl _
  | succ f ih =>
    intro j l hj
    simp only [shiftRight]
    split
    · split
      · exact Swaps.refl _
      · exact Swaps.step l _ j (j - 1) (by omega) (by omega) (by omega) (by omega)
          (ih _ _ (by omega))
    · exact Swaps.refl _

theorem SortedOn.extend (z : Nat → Int) (a : Nat) (l : List Nat) (i : Nat)
    (hs : SortedOn z a i l) :
    ∀ (m : Nat), i ≤ m → (∀ k, i ≤ k → k < m → z (l.getD (k - 1) 0) ≤ z (l.getD k 0)) →
      SortedOn z a m l := by
  intro m hm
  induction m, hm using Nat.le_induction with
  | base => intro _; exact hs
  | succ m hm ih =>
    intro hadj
    have ihm := ih (fun k h1 h2 => hadj k h1 (by omega))
    intro x y hx hxy hy
    by_cases hym : y < m
    · exact ihm x y hx hxy hym
    · have hy2 : y = m := by omega
      subst hy2
      have hstep := hadj y hm (by omega)
      rcases Nat.eq_or_lt_of_le (Nat.le_sub_one_of_lt hxy) with heq | hlt
      · rw [← heq] at hstep; exact hstep
      · exact le_trans (ihm x (y - 1) hx hlt (by omega)) hstep

theorem SortedOn.of_frame (z : Nat → Int) (a b : Nat) (l l2 : List Nat)
    (hs : SortedOn z a b l) (hf : ∀ k, a ≤ k → k < b → l2.getD k 0 = l.getD k 0) :
    SortedOn z a b l2 := by
  intro x y hx hxy hy
  rw [hf x hx (by omega), hf y (by omega) hy]
  exact hs x y hx hxy hy

theorem partialInsertionLoop_spec (z : Nat → Int) (a b : Nat) :
    ∀ (steps i : Nat) (l : List Nat), a + 1 ≤ i → i ≤ b → b ≤ l.length →
      LowerBounded z a b l → SortedOn z a i l →
      Swaps a b l (partialInsertionLoop z a b steps i l).1 ∧
      ((partialInsertionLoop z a b steps i l).2 = true →
        SortedOn z a b (partialInsertionLoop z a b steps i l).1) := by
  intro steps
  induction steps with
  | zero =>
    intro i l _ _ _ _ _
    simp only [partialInsertionLoop]
    exact ⟨Swaps.refl _, fun h => by simp at h⟩
  | succ steps ih =>
    intro i l hai hib hb hpre hsort
    simp only [partialInsertionLoop]
    have hs1 := scanUp_spec (fun k => !Less z l k (k - 1)) b (b - i) i (le_refl _)
    generalize scanUp (fun k => !Less z l k (k - 1)) b (b - i) i = i1 at hs1 ⊢
    obtain ⟨u1, u2, u3, u4⟩ := hs1
    simp only [Less_iff, Less_false_iff, Bool.not_eq_true', Bool.not_eq_false'] at u3 u4
    have u2 := u2 hib
    have hsort1 : SortedOn z a i1 l := SortedOn.extend z a l i hsort i1 u1 u3
    split
    · rename_i heq
      subst heq
      exact ⟨Swaps.refl _, fun _ => hsort1⟩
    · rename_i hne
      split
      · exact ⟨Swaps.refl _, fun h => by simp at h⟩
      · have hi1 : i1 < b := by omega
        have hgl : ∀ k, (swap l i1 (i1 - 1)).getD k 0
            = if k = i1 - 1 then l.getD i1 0 else if k = i1 then l.getD (i1 - 1) 0
              else l.getD k 0 :=
          fun k => swap_getD l i1 (i1 - 1) k (by omega) (by omega)
        have hsw1 : Swaps a b l (swap l i1 (i1 - 1)) :=
          Swaps.one a b l i1 (i1 - 1) (by omega) hi1 (by omega) (by omega)
        have hpre1 := hpre.swaps hsw1
        generalize hl1 : swap l i1 (i1 - 1) = l1 at hsw1 hpre1 hgl ⊢
        have hlen1 : l1.length = l.length := hsw1.length
        -- shift the smaller one to the left
        have hleft : ∃ l2, (if i1 - a ≥ 2 then shiftLeft z (i1 - 1) l1 else l1) = l2 ∧
            Swaps a i1 l1 l2 ∧ SortedOn z a i1 l2 := by
          split
          · rename_i h2
            rw [shiftLeft_eq z a b (i1 - 1) l1 (by omega) (by omega) hpre1]
            refine ⟨_, rfl, ?_, ?_⟩
            · have := insertionShift_swaps z a (i1 - 1) l1
              rwa [show i1 - 1 + 1 = i1 by omega] at this
            · have := insertionShift_sorted (fun r r2 => z r ≤ z r2)
                (fun x y w h1 h2 => le_trans h1 h2) z a (i1 - 1) l1 (i1 - 1) (by omega)
                (le_refl _) (by omega)
                (fun x _ _ => ⟨fun h => le_of_lt h, fun h => not_lt.mp h⟩)
                (by
                  intro x y hx hxy hy
                  rw [hgl x, hgl y]
                  split_ifs <;> first | omega | exact hsort1 x y hx hxy (by omega))
                (fun x y h1 h2 h3 => by omega) (fun x y _ _ h1 h2 => by omega)
                (fun y h1 h2 => by omega)
              rwa [show i1 - 1 + 1 = i1 by omega] at this
          · rename_i h2
            exact ⟨l1, rfl, Swaps.refl _, fun x y hx hxy hy => by omega⟩
        obtain ⟨l2, hl2, hsw2, hsort2⟩ := hleft
        rw [hl2]
        have hlen2 : l2.length = l1.length := hsw2.length
        have hright : ∃ l3, (if b - i1 ≥ 2 then shiftRight z b (b - (i1 + 1)) (i1 + 1) l2
            else l2) = l3 ∧ Swaps i1 b l2 l3 := by
          split
          · exact ⟨_, rfl, shiftRight_swaps z i1 b _ _ l2 (le_refl _)⟩
          · exact ⟨l2, rfl, Swaps.refl _⟩
        obtain ⟨l3, hl3, hsw3⟩ := hright
        rw [hl3]
        have hsw13 : Swaps a b l1 l3 :=
          (Swaps.mono (le_refl _) (by omega) hsw2).trans (Swaps.mono (by omega) (le_refl _) hsw3)
        have hsort3 : SortedOn z a i1 l3 :=
          SortedOn.of_frame z a i1 l2 l3 hsort2 (fun k h1 h2 => hsw3.frame k (Or.inl h2))
        have := ih i1 l3 (by omega) (by omega) (by rw [hsw13.length, hlen1]; exact hb)
          (hpre1.swaps hsw13) hsort3
        exact ⟨hsw1.trans (hsw13.trans this.1), this.2⟩

theorem partialInsertionSort_spec (z : Nat → Int) (l : List Nat) (a b : Nat) (hab : a < b)
    (hb : b ≤ l.length) (hpre : LowerBounded z a b l) :
    Swaps a b l (partialInsertionSort_func z l a b).1 ∧
    ((partialInsertionSort_func z l a b).2 = true →
      SortedOn z a b (partialInsertionSort_func z l a b).1) :=
  partialInsertionLoop_spec z a b 5 (a + 1) l (le_refl _) (by omega) hb hpre
    (fun x y hx hxy hy => by omega)

/-! ## `heapSort_func` -/

theorem siftDownLoop_spec (z : Nat → Int) (lo hi first : Nat) :
    ∀ (fuel root : Nat) (l : List Nat), hi ≤ fuel + root → first + hi ≤ l.length → lo ≤ root →
      (∀ c, 0 < c → c < hi → lo ≤ (c - 1) / 2 → (c - 1) / 2 ≠ root →
        z (l.getD (first + c) 0) ≤ z (l.getD (first + (c - 1) / 2) 0)) →
      (root = lo ∨ (0 < root ∧ lo ≤ (root - 1) / 2 ∧
        ∀ c, 0 < c → c < hi → (c - 1) / 2 = root →
          z (l.getD (first + c) 0) ≤ z (l.getD (first + (root - 1) / 2) 0))) →
      Swaps (first + lo) (first + hi) l (siftDownLoop z hi first fuel root l) ∧
      HeapFrom z first lo hi (siftDownLoop z hi first fuel root l) := by
  intro fuel
  induction fuel with
  | zero =>
    intro root l hf _ _ I1 _
    simp only [siftDownLoop]
    exact ⟨Swaps.refl _, fun c h1 h2 h3 => I1 c h1 h2 h3 (by omega)⟩
  | succ fuel ih =>
    intro root l hf hlen hlo I1 I2
    simp only [siftDownLoop]
    split
    · rename_i hge
      exact ⟨Swaps.refl _, fun c h1 h2 h3 => I1 c h1 h2 h3 (by omega)⟩
    · rename_i hlt
      have hchild : ∃ child, (if 2 * root + 1 + 1 < hi ∧
            Less z l (first + (2 * root + 1)) (first + (2 * root + 1) + 1) = true
            then 2 * root + 1 + 1 else 2 * root + 1) = child ∧
          child < hi ∧ (child - 1) / 2 = root ∧ 0 < child ∧
          (∀ c, 0 < c → c < hi → (c - 1) / 2 = root →
            z (l.getD (first + c) 0) ≤ z (l.getD (first + child) 0)) := by
        split
        · rename_i hc
          obtain ⟨hc1, hc2⟩ := hc
          rw [Less_iff] at hc2
          refine ⟨_, rfl, hc1, by omega, by omega, ?_⟩
          intro c h1 h2 h3
          have : c = 2 * root + 1 ∨ c = 2 * root + 1 + 1 := by omega
          rcases this with h | h
          · subst h; exact le_of_lt hc2
          · subst h; exact le_refl _
        · rename_i hc
          refine ⟨_, rfl, by omega, by omega, by omega, ?_⟩
          intro c h1 h2 h3
          have : c = 2 * root + 1 ∨ c = 2 * root + 1 + 1 := by omega
          rcases this with h | h
          · subst h; exact le_refl _
          · subst h
            have : ¬ Less z l (first + (2 * root + 1)) (first + (2 * root + 1) + 1) = true :=
              fun hl => hc ⟨h2, hl⟩
            rw [Less_iff] at this
            exact not_lt.mp this
      obtain ⟨child, hce, hc1, hc2, hc3, hc4⟩ := hchild
      rw [hce]
      split
      · rename_i hnl
        rw [Less_false_iff] at hnl
        refine ⟨Swaps.refl _, ?_⟩
        intro c h1 h2 h3
        by_cases hp : (c - 1) / 2 = root
        · rw [hp]; exact le_trans (hc4 c h1 h2 hp) hnl
        · exact I1 c h1 h2 h3 hp
      · rename_i hl
        have hl : z (l.getD (first + root) 0) < z (l.getD (first + child) 0) := by
          rw [← Less_iff]
          cases h : Less z l (first + root) (first + child)
          · exact absurd h hl
          · rfl
        have hg : ∀ k, (swap l (first + root) (first + child)).getD k 0
            = if k = first + child then l.getD (first + root) 0
              else if k = first + root then l.getD (first + child) 0 else l.getD k 0 :=
          fun k => swap_getD l (first + root) (first + child) k (by omega) (by omega)
        have := ih child (swap l (first + root) (first + child)) (by omega)
          (by simpa using hlen) (by omega)
          (by
            intro c h1 h2 h3 h4
            rw [hg (first + c), hg (first + (c - 1) / 2)]
            by_cases hp : (c - 1) / 2 = root
            · split_ifs <;> first
                | omega
                | exact le_of_lt hl
                | exact hc4 c h1 h2 hp
            · split_ifs <;> first
                | omega
                | exact I1 c h1 h2 h3 hp
                | (rcases I2 with h0 | ⟨_, _, h5⟩
                   · omega
                   · have e : (c - 1) / 2 = (root - 1) / 2 := by
                       have : c = root := by omega
                       rw [this]
                     rw [e]; exact h5 child hc3 hc1 hc2))
          (Or.inr ⟨hc3, by omega, by
            intro c h1 h2 h3
            have h6 := I1 c h1 h2 (by omega) (by omega)
            rw [h3] at h6
            rw [hg (first + c), hg (first + (child - 1) / 2)]
            split_ifs <;> omega⟩)
        exact ⟨Swaps.step l _ (first + root) (first + child) (by omega) (by omega) (by omega)
          (by omega) this.1, this.2⟩

theorem siftDown_spec (z : Nat → Int) (l : List Nat) (lo hi first : Nat)
    (hlen : first + hi ≤ l.length) (hheap : HeapFrom z first (lo + 1) hi l) :
    Swaps (first + lo) (first + hi) l (siftDown_func z l lo hi first) ∧
    HeapFrom z first lo hi (siftDown_func z l lo hi first) :=
  siftDownLoop_spec z lo hi first hi lo l (by omega) hlen (le_refl _)
    (fun c h1 h2 h3 h4 => hheap c h1 h2 (by omega)) (Or.inl rfl)

theorem heap_root_max (z : Nat → Int) (first m : Nat) (l : List Nat)
    (hheap : HeapFrom z first 0 m l) :
    ∀ c, c < m → z (l.getD (first + c) 0) ≤ z (l.getD (first + 0) 0) := by
  intro c
  induction c using Nat.strong_induction_on with
  | _ c ih =>
    intro hc
    rcases Nat.eq_zero_or_pos c with h0 | hpos
    · subst h0; exact le_refl _
    · exact le_trans (hheap c hpos hc (Nat.zero_le _)) (ih ((c - 1) / 2) (by omega) (by omega))

theorem heapSort_spec (z : Nat → Int) (l : List Nat) (a b : Nat) (hab : a ≤ b)
    (hb : b ≤ l.length) :
    Swaps a b l (heapSort_func z l a b) ∧ SortedOn z a b (heapSort_func z l a b) := by
  simp only [heapSort_func]
  have hbuild := forDown_inv (fun i l => siftDown_func z l i (b - a) a)
    (fun k l2 => Swaps a b l l2 ∧ HeapFrom z a k (b - a) l2) ((b - a - 1) / 2) l
    ⟨Swaps.refl _, fun c h1 h2 h3 => by omega⟩
    (by
      intro k s hk ⟨hs, hh⟩
      have := siftDown_spec z s k (b - a) a (by rw [hs.length]; omega) hh
      exact ⟨hs.trans (Swaps.mono (by omega) (by omega) this.1), this.2⟩)
  generalize forDown (fun i l => siftDown_func z l i (b - a) a) ((b - a - 1) / 2) l = l1
    at hbuild ⊢
  obtain ⟨hs1, hh1⟩ := hbuild
  split
  · exact ⟨hs1, fun x y hx hxy hy => by omega⟩
  · rename_i hne
    have hpop := forDown_inv
      (fun i l => siftDown_func z (swap l a (a + i)) 0 i a)
      (fun k l2 => Swaps a b l l2 ∧ HeapFrom z a 0 k l2 ∧ SortedOn z (a + k) b l2 ∧
        ∀ x y, x < k → k ≤ y → y < b - a → z (l2.getD (a + x) 0) ≤ z (l2.getD (a + y) 0))
      (b - a - 1) l1
      ⟨hs1, by rwa [show b - a - 1 + 1 = b - a by omega],
        fun x y hx hxy hy => by omega, fun x y h1 h2 h3 => by omega⟩
      (by
        intro k s hk ⟨hs, hh, hsort, hps⟩
        have hlen : s.length = l.length := hs.length
        have hmax := heap_root_max z a (k + 1) s hh
        have hg : ∀ i, (swap s a (a + k)).getD i 0
            = if i = a + k then s.getD a 0 else if i = a then s.getD (a + k) 0
              else s.getD i 0 :=
          fun i => swap_getD s a (a + k) i (by omega) (by omega)
        have hsw : Swaps a b s (swap s a (a + k)) :=
          Swaps.one a b s a (a + k) (le_refl _) (by omega) (by omega) (by omega)
        beta_reduce
        generalize swap s a (a + k) = s1 at hg hsw ⊢
        have hlen1 : s1.length = s.length := hsw.length
        have hh1 : HeapFrom z a (0 + 1) k s1 := by
          intro c h1 h2 h3
          rw [hg (a + c), hg (a + (c - 1) / 2)]
          split_ifs <;> first | omega | exact hh c h1 (by omega) (Nat.zero_le _)
        have hsd := siftDown_spec z s1 0 k a (by omega) hh1
        generalize siftDown_func z s1 0 k a = s2 at hsd ⊢
        obtain ⟨hsw2, hh2⟩ := hsd
        simp only [Nat.add_zero] at hsw2
        refine ⟨hs.trans (hsw.trans (Swaps.mono (le_refl _) (by omega) hsw2)), hh2, ?_, ?_⟩
        · intro x y hx hxy hy
          rw [hsw2.frame x (by omega), hsw2.frame y (by omega), hg x, hg y]
          have e1 := hps 0 (y - a) (by omega) (by omega) (by omega)
          rw [Nat.add_zero, show a + (y - a) = y by omega] at e1
          split_ifs <;> first
            | omega
            | exact e1
            | exact hsort x y (by omega) hxy hy
        · intro x y hx hky hy
          rw [hsw2.frame (a + y) (by omega)]
          have hP := hsw2.pres (fun u => z u ≤ z (s1.getD (a + y) 0))
            (by
              intro i hi1 hi2
              show z (s1.getD i 0) ≤ z (s1.getD (a + y) 0)
              rw [hg i, hg (a + y)]
              by_cases hyk : y = k
              · subst hyk
                have h1 := hmax (i - a) (by omega)
                have h2 := hmax y (by omega)
                rw [Nat.add_zero] at h1 h2
                rw [show a + (i - a) = i by omega] at h1
                split_ifs <;> omega
              · have h1 := hps (i - a) y (by omega) (by omega) hy
                have h2 := hps k y (by omega) (by omega) hy
                rw [show a + (i - a) = i by omega] at h1
                split_ifs <;> omega)
          exact hP (a + x) (by omega) (by omega))
    generalize forDown (fun i l => siftDown_func z (swap l a (a + i)) 0 i a) (b - a - 1) l1
      = l2 at hpop ⊢
    obtain ⟨hs2, _, hsort, _⟩ := hpop
    rw [Nat.add_zero] at hsort
    exact ⟨hs2, hsort⟩

/-! ## `pdqsort_func` and `sort.Slice` -/

theorem LowerBounded.shrink {z : Nat → Int} {a b b2 : Nat} {l : List Nat}
    (h : LowerBounded z a b l) (hb : b2 ≤ b) : LowerBounded z a b2 l := by
  rcases h with h0 | h
  · exact Or.inl h0
  · exact Or.inr (fun k h1 h2 => h k h1 (by omega))

theorem LowerBounded.of_agree {z : Nat → Int} {a b : Nat} {l l2 : List Nat}
    (h : LowerBounded z a b l) (hf : ∀ k, k < b → l2.getD k 0 = l.getD k 0) :
    LowerBounded z a b l2 := by
  rcases h with h0 | h
  · exact Or.inl h0
  · by_cases ha : a = 0
    · exact Or.inl ha
    · right
      intro k h1 h2
      rw [hf (a - 1) (by omega), hf k h2]
      exact h k h1 h2

theorem SortedOn.join (z : Nat → Int) (a mid b : Nat) (res : List Nat)
    (h1 : SortedOn z a mid res) (h2 : SortedOn z (mid + 1) b res)
    (h3 : ∀ k, a ≤ k → k < mid → z (res.getD k 0) ≤ z (res.getD mid 0))
    (h4 : ∀ k, mid < k → k < b → z (res.getD mid 0) ≤ z (res.getD k 0)) :
    SortedOn z a b res := by
  intro x y hx hxy hy
  by_cases hym : y < mid
  · exact h1 x y hx hxy hym
  · by_cases hye : y = mid
    · subst hye; exact h3 x hx hxy
    · by_cases hxm : x < mid
      · exact le_trans (h3 x hx hxm) (h4 y (by omega) hy)
      · by_cases hxe : x = mid
        · subst hxe; exact h4 y (by omega) hy
        · exact h2 x y (by omega) hxy hy

theorem pdqsort_spec (z : Nat → Int) :
    ∀ (fuel : Nat) (l : List Nat) (a b limit : Nat) (wb wp : Bool),
      a ≤ b → b ≤ l.length → b - a ≤ fuel → LowerBounded z a b l →
      SortsRange z a b l (pdqsort_func z fuel l a b limit wb wp) := by
  intro fuel
  induction fuel with
  | zero =>
    intro l a b limit wb wp hab hb hf _
    rw [pdqsort_func, if_pos (by omega)]
    exact insertionSort_sorted z l a b hb
  | succ fuel ih =>
    intro l a b limit wb wp hab hb hf hpre
    rw [pdqsort_func]
    split
    · exact insertionSort_sorted z l a b hb
    rename_i hlen
    split
    · exact heapSort_spec z l a b hab hb
    rename_i hlim
    lift_lets
    extract_lets l1 limit1 ph l2 pivot hint pi l3 pe pr mid leftLen rightLen balanceThreshold l5 l6
    have h1 : Swaps a b l l1 := by
      show Swaps a b l (if wb = true then l else breakPatterns_func l a b)
      split
      · exact Swaps.refl _
      · exact breakPatterns_swaps l a b
    have hph : a ≤ ph.1 ∧ ph.1 < b := choosePivot_bounds z l1 a b (by omega)
    have h2 : Swaps a b l1 l2 := by
      show Swaps a b l1 (if ph.2 = sortedHint.decreasingHint then reverseRange_func l1 a b
        else l1)
      split
      · exact reverseRange_swaps l1 a b (by omega)
      · exact Swaps.refl _
    have hpiv : a ≤ pivot ∧ pivot < b := by
      show a ≤ (if ph.2 = sortedHint.decreasingHint then b - 1 - (ph.1 - a) else ph.1) ∧
        (if ph.2 = sortedHint.decreasingHint then b - 1 - (ph.1 - a) else ph.1) < b
      split <;> omega
    have h12 := h1.trans h2
    have hpre2 : LowerBounded z a b l2 := hpre.swaps h12
    have hlen2 : l2.length = l.length := h12.length
    have h3 : Swaps a b l2 pi.1 ∧ (pi.2 = true → SortedOn z a b pi.1) := by
      show Swaps a b l2 (if wb = true ∧ wp = true ∧ hint = sortedHint.increasingHint then
          partialInsertionSort_func z l2 a b else (l2, false)).1 ∧
        ((if wb = true ∧ wp = true ∧ hint = sortedHint.increasingHint then
          partialInsertionSort_func z l2 a b else (l2, false)).2 = true →
        SortedOn z a b (if wb = true ∧ wp = true ∧ hint = sortedHint.increasingHint then
          partialInsertionSort_func z l2 a b else (l2, false)).1)
      split
      · exact partialInsertionSort_spec z l2 a b (by omega) (by omega) hpre2
      · exact ⟨Swaps.refl _, fun h => by simp at h⟩
    split
    · rename_i hdone
      exact (show Swaps a b l pi.1 ∧ SortedOn z a b pi.1 from ⟨h12.trans h3.1, h3.2 hdone⟩)
    have h13 : Swaps a b l l3 := h12.trans h3.1
    have hpre3 : LowerBounded z a b l3 := hpre.swaps h13
    have hlen3 : l3.length = l.length := h13.length
    split
    · rename_i hc
      obtain ⟨ha0, hnl⟩ := hc
      rw [Less_false_iff] at hnl
      obtain ⟨e1, e2, e3, e4, e5⟩ := partitionEqual_spec z l3 a b pivot (by omega) hpiv.1 hpiv.2
      change Swaps a b l3 pe.1 at e1
      change a < pe.2 at e2
      change pe.2 ≤ b at e3
      change ∀ k, a ≤ k → k < pe.2 → z (pe.1.getD k 0) ≤ z (l3.getD pivot 0) at e4
      change ∀ k, pe.2 ≤ k → k < b → z (l3.getD pivot 0) < z (pe.1.getD k 0) at e5
      have hlo : ∀ k, a ≤ k → k < b → z (l3.getD pivot 0) ≤ z (l3.getD k 0) := by
        intro k hk1 hk2
        rcases hpre3 with h0 | h
        · omega
        · exact le_trans hnl (h k hk1 hk2)
      have hlo2 := e1.pres (fun u => z (l3.getD pivot 0) ≤ z u) hlo
      have hlene : pe.1.length = l3.length := e1.length
      obtain ⟨r1, r2⟩ := ih pe.1 pe.2 b limit1 wb wp e3 (by omega) (by omega)
        (Or.inr (fun k hk1 hk2 =>
          le_trans (e4 (pe.2 - 1) (by omega) (by omega)) (le_of_lt (e5 k hk1 hk2))))
      show Swaps _ _ _ _ ∧ SortedOn _ _ _ _
      refine ⟨h13.trans (e1.trans (Swaps.mono (by omega) (le_refl _) r1)), ?_⟩
      have hgt := r1.pres (fun u => z (l3.getD pivot 0) < z u) e5
      intro x y hx hxy hy
      by_cases hxm : x < pe.2
      · rw [r1.frame x (Or.inl hxm)]
        by_cases hym : y < pe.2
        · rw [r1.frame y (Or.inl hym)]
          exact le_trans (e4 x hx hxm) (hlo2 y (by omega) hy)
        · exact le_trans (e4 x hx hxm) (le_of_lt (hgt y (by omega) hy))
      · exact r2 x y (by omega) hxy hy
    · obtain ⟨q1, q2, q3, q4, q5⟩ := partition_spec z l3 a b pivot (by omega) hpiv.1 hpiv.2
        pr.1 mid pr.2.2 rfl
      have hlenp : pr.1.length = l3.length := q1.length
      have hprep : LowerBounded z a b pr.1 := hpre3.swaps q1
      split
      · obtain ⟨s1, t1⟩ := ih pr.1 a mid limit1 true true q2 (by omega) (by omega)
          (hprep.shrink (by omega))
        change Swaps a mid pr.1 l5 at s1
        change SortedOn z a mid l5 at t1
        have hmid5 : l5.getD mid 0 = pr.1.getD mid 0 := s1.frame mid (Or.inr (le_refl _))
        obtain ⟨s2, t2⟩ := ih l5 (mid + 1) b limit1 (decide (leftLen ≥ balanceThreshold)) pr.2.2
          (by omega) (by rw [s1.length]; omega) (by omega)
          (Or.inr (fun k hk1 hk2 => by
            rw [Nat.add_sub_cancel, hmid5, s1.frame k (Or.inr (by omega))]
            exact q5 k (by omega) hk2))
        generalize pdqsort_func z fuel l5 (mid + 1) b limit1 (decide (leftLen ≥ balanceThreshold))
          pr.2.2 = res at s2 t2 ⊢
        have hmidr : res.getD mid 0 = pr.1.getD mid 0 := by
          rw [s2.frame mid (Or.inl (by omega)), hmid5]
        show Swaps _ _ _ _ ∧ SortedOn _ _ _ _
        refine ⟨h13.trans (q1.trans ((Swaps.mono (le_refl _) (by omega) s1).trans
          (Swaps.mono (by omega) (le_refl _) s2))), ?_⟩
        apply SortedOn.join z a mid b res
        · exact SortedOn.of_frame z a mid l5 res t1
            (fun k hk1 hk2 => s2.frame k (Or.inl (by omega)))
        · exact t2
        · intro k hk1 hk2
          rw [hmidr, s2.frame k (Or.inl (by omega))]
          exact le_of_lt (s1.pres (fun u => z u < z (pr.1.getD mid 0)) q4 k hk1 hk2)
        · intro k hk1 hk2
          rw [hmidr]
          exact s2.pres (fun u => z (pr.1.getD mid 0) ≤ z u)
            (fun k hk1 hk2 => by
              rw [s1.frame k (Or.inr (by omega))]
              exact q5 k (by omega) hk2) k (by omega) hk2
      · obtain ⟨s1, t1⟩ := ih pr.1 (mid + 1) b limit1 true true (by omega) (by omega) (by omega)
          (Or.inr (fun k hk1 hk2 => by
            rw [Nat.add_sub_cancel]
            exact q5 k (by omega) hk2))
        change Swaps (mid + 1) b pr.1 l6 at s1
        change SortedOn z (mid + 1) b l6 at t1
        have hmid5 : l6.getD mid 0 = pr.1.getD mid 0 := s1.frame mid (Or.inl (by omega))
        obtain ⟨s2, t2⟩ := ih l6 a mid limit1 (decide (rightLen ≥ balanceThreshold)) pr.2.2
          q2 (by rw [s1.length]; omega) (by omega)
          ((hprep.shrink (by omega : mid ≤ b)).of_agree
            (fun k hk => s1.frame k (Or.inl (by omega))))
        generalize pdqsort_func z fuel l6 a mid limit1 (decide (rightLen ≥ balanceThreshold))
          pr.2.2 = res at s2 t2 ⊢
        have hmidr : res.getD mid 0 = pr.1.getD mid 0 := by
          rw [s2.frame mid (Or.inr (le_refl _)), hmid5]
        show Swaps _ _ _ _ ∧ SortedOn _ _ _ _
        refine ⟨h13.trans (q1.trans ((Swaps.mono (by omega) (le_refl _) s1).trans
          (Swaps.mono (le_refl _) (by omega) s2))), ?_⟩
        apply SortedOn.join z a mid b res
        · exact t2
        · exact SortedOn.of_frame z (mid + 1) b l6 res t1
            (fun k hk1 hk2 => s2.frame k (Or.inr (by omega)))
        · intro k hk1 hk2
          rw [hmidr]
          exact le_of_lt (s2.pres (fun u => z u < z (pr.1.getD mid 0))
            (fun k hk1 hk2 => by
              rw [s1.frame k (Or.inl (by omega))]
              exact q4 k hk1 hk2) k hk1 hk2)
        · intro k hk1 hk2
          rw [hmidr, s2.frame k (Or.inr (by omega))]
          exact s1.pres (fun u => z (pr.1.getD mid 0) ≤ z u)
            (fun k hk1 hk2 => q5 k (by omega) hk2) k (by omega) hk2

/-- Function `sort.Slice` permutes the slice and leaves it in non-decreasing key order. -/
theorem Slice_spec (z : Nat → Int) (x : List Nat) :
    (Slice z x).Perm x ∧ (Slice z x).length = x.length ∧ SortedOn z 0 x.length (Slice z x) := by
  obtain ⟨h1, h2⟩ := pdqsort_spec z x.length x 0 x.length (bitsLen x.length) true true
    (Nat.zero_le _) (le_refl _) (by omega) (Or.inl rfl)
  exact ⟨h1.perm, h1.length, h2⟩

/-! ## `SpikeLines.Plot`: the strokes it emits -/

theorem foldl_strokeSegment (p q : ℚ → Point) :
    ∀ (sp : List ℚ) (c : Canvas),
      sp.foldl (fun cv v => strokeSegment cv (p v) (q v)) c
        = ⟨c.style, c.strokes ++ sp.map (fun v => segment c.style (p v) (q v))⟩ := by
  intro sp
  induction sp with
  | nil => intro c; simp
  | cons v vs ih =>
    intro c
    rw [List.foldl_cons, ih]
    simp [strokeSegment, Canvas.Stroke, segment]

theorem rowOf_eq (s : SpikeLines) (i : Nat) (l : SpikeLine) (hl : s.Lines[i]? = some l) :
    rowOf s i = l := by
  simp [rowOf, List.getD_eq_getElem?_getD, hl]

theorem plotLine_eq (s : SpikeLines) (plt : PlotT) (c : Canvas) (i : Nat) (l : SpikeLine)
    (sp : List ℚ) (hl : s.Lines[i]? = some l)
    (hc : clippedSpikes l.Spikes plt.X.Min plt.X.Max = some sp) :
    plotLine s plt (rowHeight s plt) c i
      = some ⟨⟨(mergedProperty l).LColor, (mergedProperty l).LWidth⟩,
          c.strokes ++ rowStrokes s plt i⟩ := by
  have hrow := rowOf_eq s i l hl
  have hclip : clippedOf s plt i = sp := by simp [clippedOf, hrow, hc]
  simp only [plotLine, hl, hc, Option.bind_eq_bind, Option.some_bind, Option.pure_def,
    foldl_strokeSegment]
  simp only [rowStrokes, rowExtendBars, rowSpikeTicks, rowBaseline, hrow, hclip, rowY]
  by_cases he : (mergedProperty l).Extend ≠ 0
  · simp only [if_pos he, foldl_strokeSegment, Canvas.SetLineStyle, strokeSegment,
      Canvas.Stroke, segment, List.append_assoc]
  · simp only [if_neg he, foldl_strokeSegment, Canvas.SetLineStyle, strokeSegment,
      Canvas.Stroke, segment, List.append_assoc, List.nil_append]

theorem plot_fold (s : SpikeLines) (plt : PlotT) (hx : plt.X.Min ≤ plt.X.Max) :
    ∀ (order : List Nat), (∀ i ∈ order, i < s.Lines.length) → ∀ (c : Canvas),
      ∃ c2, order.foldlM (plotLine s plt (rowHeight s plt)) c = some c2 ∧
        c2.strokes = c.strokes ++ order.flatMap (rowStrokes s plt) := by
  intro order
  induction order with
  | nil => intro _ c; exact ⟨c, rfl, by simp⟩
  | cons i rest ih =>
    intro hmem c
    have hi : i < s.Lines.length := hmem i (List.mem_cons_self _ _)
    have hl : s.Lines[i]? = some s.Lines[i] := List.getElem?_eq_getElem hi
    obtain ⟨beg, en, _, _, _, _, hc⟩ := clippedSpikes_some s.Lines[i].Spikes _ _ hx
    obtain ⟨c2, h1, h2⟩ := ih (fun j hj => hmem j (List.mem_cons_of_mem _ hj))
      ⟨⟨(mergedProperty s.Lines[i]).LColor, (mergedProperty s.Lines[i]).LWidth⟩,
        c.strokes ++ rowStrokes s plt i⟩
    refine ⟨c2, ?_, ?_⟩
    · rw [List.foldlM_cons, plotLine_eq s plt c i _ _ hl hc]
      exact h1
    · rw [h2]
      simp [List.flatMap_cons, List.append_assoc]

theorem drawingOrder_perm (s : SpikeLines) :
    (drawingOrder s).Perm (List.range s.Lines.length) :=
  (Slice_spec (zIndexOf s) (List.range s.Lines.length)).1

theorem drawingOrder_length (s : SpikeLines) : (drawingOrder s).length = s.Lines.length := by
  simpa using (drawingOrder_perm s).length_eq

theorem drawingOrder_lt (s : SpikeLines) : ∀ i ∈ drawingOrder s, i < s.Lines.length := by
  intro i hi
  have := (drawingOrder_perm s).mem_iff.mp hi
  simpa using this

/-- The strokes of a plot: the rows' strokes, row after row in drawing order. -/
theorem Plot_strokes (s : SpikeLines) (canvas : Canvas) (plt : PlotT)
    (hx : plt.X.Min ≤ plt.X.Max) :
    ∃ c2, s.Plot canvas plt = some c2 ∧
      c2.strokes = canvas.strokes ++ (drawingOrder s).flatMap (rowStrokes s plt) :=
  plot_fold s plt hx (drawingOrder s) (drawingOrder_lt s) canvas

theorem mergedProperty_Extend (l : SpikeLine) :
    (mergedProperty l).Extend = l.Property.Extend := by
  unfold mergedProperty
  by_cases h : l.Property.Extend = 0
  · simp only [h, ne_eq, not_true_eq_false, if_false]
    split_ifs <;> rfl
  · simp only [ne_eq, h, not_false_eq_true, if_true]
    split_ifs <;> rfl

theorem mergedProperty_congr (l l2 : SpikeLine) (h : l.Property = l2.Property) :
    mergedProperty l = mergedProperty l2 := by
  unfold mergedProperty
  rw [h]

theorem foldl_append_singleton (f : Nat × SpikeLine → Tick) :
    ∀ (L : List (Nat × SpikeLine)) (init : List Tick),
      L.foldl (fun ticks il => ticks ++ [f il]) init = init ++ L.map f := by
  intro L
  induction L with
  | nil => intro init; simp
  | cons x xs ih => intro init; simp [ih]

theorem Ticks_eq_map (s : SpikeLines) (min max : ℚ) :
    s.Ticks min max = s.Lines.enum.map (fun il =>
      { Value := min + ((max - min) / (s.Lines.length : ℚ))
          * ((s.Lines.length : ℚ) - (il.1 : ℚ) - 1)
        Label := il.2.Label }) := by
  unfold SpikeLines.Ticks
  simp only [foldl_append_singleton, List.nil_append]
  apply List.map_congr_left
  intro il _
  congr 2
  push_cast
  ring

theorem rowY_eq (s : SpikeLines) (plt : PlotT) (i : Nat) :
    rowY s plt i = plt.Y.Min + ((plt.Y.Max - plt.Y.Min) / (s.Lines.length : ℚ))
      * ((s.Lines.length : ℚ) - (i : ℚ) - 1) := by
  unfold rowY baselineY rowHeight
  push_cast
  ring

theorem Ticks_getElem (s : SpikeLines) (plt : PlotT) (i : Nat) (hi : i < s.Lines.length) :
    (s.Ticks plt.Y.Min plt.Y.Max)[i]? = some ⟨rowY s plt i, s.Lines[i].Label⟩ := by
  rw [Ticks_eq_map, List.getElem?_map, List.getElem?_enum, List.getElem?_eq_getElem hi, rowY_eq]
  rfl

/-! ## The claims -/

/-- C1: for a row whose events are sorted ascending and a window `[X.Min, X.Max]` with
`X.Min ≤ X.Max`, the events that `SpikeLines.Plot` draws for the row are exactly, in order,
the events `e` of the row with `X.Min ≤ e < X.Max`: the clipped slice is that sub-list, the
loop body succeeds and appends the row's strokes, and the spike ticks are one per such event. -/
theorem C1_clipping_half_open (s : SpikeLines) (plt : PlotT) (canvas : Canvas) (i : Nat)
    (l : SpikeLine) (hl : s.Lines[i]? = some l) (hs : l.Spikes.Sorted (· ≤ ·))
    (hx : plt.X.Min ≤ plt.X.Max) :
    clippedSpikes l.Spikes plt.X.Min plt.X.Max
      = some (l.Spikes.filter (fun e => decide (plt.X.Min ≤ e ∧ e < plt.X.Max))) ∧
    (∃ c2, plotLine s plt (rowHeight s plt) canvas i = some c2 ∧
      c2.strokes = canvas.strokes ++ rowStrokes s plt i) ∧
    rowSpikeTicks s plt i
      = (l.Spikes.filter (fun e => decide (plt.X.Min ≤ e ∧ e < plt.X.Max))).map (fun v =>
          segment ⟨(mergedProperty l).Color, (mergedProperty l).Width⟩
            ⟨plt.trX v, plt.trY (rowY s plt i)⟩
            ⟨plt.trX v, plt.trY (rowY s plt i + rowHeight s plt / 2)⟩) := by
  have hc := clippedSpikes_sorted l.Spikes hs plt.X.Min plt.X.Max hx
  refine ⟨hc, ⟨_, plotLine_eq s plt canvas i l _ hl hc, rfl⟩, ?_⟩
  simp [rowSpikeTicks, clippedOf, rowOf_eq s i l hl, hc]

/-- Witness of C1: events `[0,1,2,3,4,5]` with window `[2,4]` give exactly `[2,3]`. -/
theorem C1_clipping_half_open_witness :
    clippedSpikes [0, 1, 2, 3, 4, 5] 2 4 = some [2, 3] :=
  (C1_clipping_half_open rasterClip (unitPlot 2 4 0 1) blankCanvas 0
    { Label := "a", Spikes := [0, 1, 2, 3, 4, 5] } rfl (by decide) (by decide)).1.trans
    (by decide)

/-- C2: the drawing order computed by `SpikeLines.Plot` is a permutation of the row indices
`0..n-1` in non-decreasing `ZIndex`; a row with a lower `ZIndex` comes before any row with a
higher one. -/
theorem C2_drawing_order_sorted_permutation (s : SpikeLines) :
    (drawingOrder s).Perm (List.range s.Lines.length) ∧
    (drawingOrder s).Pairwise (fun r r2 => zIndexOf s r ≤ zIndexOf s r2) ∧
    ∀ p q, p < (drawingOrder s).length → q < (drawingOrder s).length →
      zIndexOf s ((drawingOrder s).getD p 0) < zIndexOf s ((drawingOrder s).getD q 0) →
      p < q := by
  obtain ⟨h1, h2, h3⟩ := Slice_spec (zIndexOf s) (List.range s.Lines.length)
  have hlen : (drawingOrder s).length = (List.range s.Lines.length).length := h2
  have hsorted : ∀ p q, p < q → q < (drawingOrder s).length →
      zIndexOf s ((drawingOrder s).getD p 0) ≤ zIndexOf s ((drawingOrder s).getD q 0) :=
    fun p q hpq hq => h3 p q (Nat.zero_le _) hpq (by rw [← hlen]; exact hq)
  refine ⟨h1, ?_, ?_⟩
  · rw [List.pairwise_iff_getElem]
    intro p q hp hq hpq
    have := hsorted p q hpq hq
    rwa [List.getD_eq_getElem _ _ hp, List.getD_eq_getElem _ _ hq] at this
  · intro p q hp hq hlt
    by_contra hnot
    rcases Nat.eq_or_lt_of_le (Nat.le_of_not_lt hnot) with heq | hqp
    · rw [heq] at hlt; exact lt_irrefl _ hlt
    · exact absurd (hsorted q p hqp hp) (not_le.mpr hlt)

theorem Slice_small (z : Nat → Int) (x : List Nat) (h : x.length ≤ 12) :
    Slice z x = insertionSort_func z x 0 x.length := by
  unfold Slice
  cases hn : x.length with
  | zero => simp [pdqsort_func]
  | succ n =>
    rw [pdqsort_func, if_pos (by omega)]

/-- C3, as the code has it: on a raster of at most 12 rows (where `sort.Slice` runs its
insertion sort) two rows with equal `ZIndex` are drawn in the order of their indices. -/
theorem C3_ties_stable_up_to_12_rows (s : SpikeLines) (h : s.Lines.length ≤ 12) :
    TiesInIndexOrder s := by
  have hperm := drawingOrder_perm s
  have hlen := drawingOrder_length s
  have hnodup : (drawingOrder s).Nodup := hperm.nodup_iff.mpr (List.nodup_range _)
  have hsort := (insertionSort_spec
    (fun r r2 => zIndexOf s r < zIndexOf s r2 ∨ (zIndexOf s r = zIndexOf s r2 ∧ r ≤ r2))
    (by
      intro x y w h1 h2
      rcases h1 with h1 | ⟨h1, h1b⟩ <;> rcases h2 with h2 | ⟨h2, h2b⟩
      · exact Or.inl (lt_trans h1 h2)
      · exact Or.inl (by omega)
      · exact Or.inl (by omega)
      · exact Or.inr ⟨by omega, by omega⟩)
    (zIndexOf s) (List.range s.Lines.length) 0 s.Lines.length (by simp)
    (by
      intro x y _ hxy hy
      have e1 : (List.range s.Lines.length).getD x 0 = x := by
        rw [List.getD_eq_getElem _ _ (by simp; omega)]; simp
      have e2 : (List.range s.Lines.length).getD y 0 = y := by
        rw [List.getD_eq_getElem _ _ (by simp; omega)]; simp
      rw [e1, e2]
      constructor
      · intro hlt; exact Or.inl hlt
      · intro hnlt
        rcases lt_or_eq_of_le (not_lt.mp hnlt) with h1 | h1
        · exact Or.inl h1
        · exact Or.inr ⟨h1, by omega⟩)).2
  have hd : drawingOrder s = insertionSort_func (zIndexOf s) (List.range s.Lines.length) 0
      s.Lines.length := by
    have := Slice_small (zIndexOf s) (List.range s.Lines.length) (by simpa using h)
    simpa [drawingOrder] using this
  rw [← hd] at hsort
  intro p q hpq hq hz
  rcases hsort p q (Nat.zero_le _) hpq (by omega) with h1 | ⟨_, h2⟩
  · omega
  · have hne : (drawingOrder s).getD p 0 ≠ (drawingOrder s).getD q 0 := by
      rw [List.getD_eq_getElem _ _ (by omega), List.getD_eq_getElem _ _ hq]
      intro heq
      have := (hnodup.getElem_inj_iff).mp heq
      omega
    omega

/-- Witness of C3: the three-row raster `raster3`. -/
theorem C3_ties_stable_up_to_12_rows_witness :
    raster3.Lines.length ≤ 12 ∧ TiesInIndexOrder raster3 :=
  ⟨by decide, C3_ties_stable_up_to_12_rows raster3 (by decide)⟩

set_option maxRecDepth 20000 in
/-- Counterexample to C3 as stated: on the 13-row raster `raster13` (rows `0..11` with `ZIndex`
0, row `12` with `ZIndex` -1) `sort.Slice` yields the order
`12, 6, 2, 3, 4, 5, 0, 7, 8, 9, 10, 11, 1`: row 6 is drawn before row 0 although both have
`ZIndex` 0. -/
theorem C3_counterexample :
    drawingOrder raster13 = [12, 6, 2, 3, 4, 5, 0, 7, 8, 9, 10, 11, 1] ∧
    ¬ TiesInIndexOrder raster13 := by
  have hd : drawingOrder raster13 = [12, 6, 2, 3, 4, 5, 0, 7, 8, 9, 10, 11, 1] := by decide
  refine ⟨hd, ?_⟩
  intro h
  have := h 1 6 (by decide) (by rw [hd]; decide) (by rw [hd]; decide)
  rw [hd] at this
  revert this
  decide

/-- C4, at the failing input: on the non-empty tables `DarkColors`, `Glyphs` and `Dashes`
(8 entries each) `Id(-8)` computes the index `-8 % 8 + 8 = 8` and panics. -/
theorem C4_Id_panics_on_negative_multiple :
    ColorTable.Id DarkColors (-8) = none ∧ GlyphTable.Id Glyphs (-8) = none ∧
    DashesTable.Id Dashes (-8) = none := by
  decide

/-- C10, at the failing input: `DarkColors.Id(-8)` panics while `DarkColors.Id(-8 + 8)` returns
the first colour, so the two lookups do not agree. -/
theorem C10_periodicity_fails_at_negative_multiple :
    ColorTable.Id DarkColors (-8) = none ∧
    ColorTable.Id DarkColors (-8 + 8) = some (rgb 32 32 32) := by
  decide

/-- C5: `SpikeLines.Ticks(min, max)` returns exactly `n` ticks in row-index order; the tick of
row `i` carries the label of row `i` and the value `min + ((max - min)/n) * (n - i - 1)`. -/
theorem C5_ticks_per_row (s : SpikeLines) (min max : ℚ) :
    (s.Ticks min max).length = s.Lines.length ∧
    s.Ticks min max = s.Lines.enum.map (fun il =>
      { Value := min + ((max - min) / (s.Lines.length : ℚ))
          * ((s.Lines.length : ℚ) - (il.1 : ℚ) - 1)
        Label := il.2.Label }) := by
  have h := Ticks_eq_map s min max
  refine ⟨?_, h⟩
  rw [h]
  simp

theorem rowVerticals_isVertical (s : SpikeLines) (plt : PlotT) (i : Nat) :
    ∀ st ∈ rowExtendBars s plt i ++ rowSpikeTicks s plt i, st.isVertical := by
  intro st hst
  rcases List.mem_append.mp hst with h | h
  · unfold rowExtendBars at h
    split at h
    · obtain ⟨v, _, rfl⟩ := List.mem_map.mp h
      exact ⟨_, _, _, rfl⟩
    · simp at h
  · unfold rowSpikeTicks at h
    obtain ⟨v, _, rfl⟩ := List.mem_map.mp h
    exact ⟨_, _, _, rfl⟩

/-- C6: `SpikeLines.Plot` succeeds and its strokes are, row after row in drawing order (a
permutation of the rows), the row's vertical strokes followed by one baseline: a segment from
`X.Min` to `X.Max` at the `y` of the `i`-th tick of `Ticks(Y.Min, Y.Max)`; with vertical
extent `[0, n]` that `y` is `n - i - 1`. -/
theorem C6_one_baseline_per_row_at_tick (s : SpikeLines) (canvas : Canvas) (plt : PlotT)
    (hx : plt.X.Min ≤ plt.X.Max) :
    ∃ c2, s.Plot canvas plt = some c2 ∧
      c2.strokes = canvas.strokes ++ (drawingOrder s).flatMap (fun i =>
        (rowExtendBars s plt i ++ rowSpikeTicks s plt i) ++ [rowBaseline s plt i]) ∧
      (drawingOrder s).Perm (List.range s.Lines.length) ∧
      (∀ i, ∀ st ∈ rowExtendBars s plt i ++ rowSpikeTicks s plt i, st.isVertical) ∧
      (∀ i, i < s.Lines.length → ∃ t, (s.Ticks plt.Y.Min plt.Y.Max)[i]? = some t ∧
        (rowBaseline s plt i).path
          = [PathComp.Move ⟨plt.trX plt.X.Min, plt.trY t.Value⟩,
             PathComp.Line ⟨plt.trX plt.X.Max, plt.trY t.Value⟩]) ∧
      (plt.Y.Min = 0 → plt.Y.Max = (s.Lines.length : ℚ) →
        ∀ i, i < s.Lines.length → rowY s plt i = (s.Lines.length : ℚ) - (i : ℚ) - 1) := by
  obtain ⟨c2, h1, h2⟩ := Plot_strokes s canvas plt hx
  refine ⟨c2, h1, h2, drawingOrder_perm s, rowVerticals_isVertical s plt, ?_, ?_⟩
  · intro i hi
    exact ⟨_, Ticks_getElem s plt i hi, rfl⟩
  · intro h0 hn i hi
    have hne : (s.Lines.length : ℚ) ≠ 0 := by
      have : 0 < s.Lines.length := by omega
      exact_mod_cast this.ne'
    rw [rowY_eq, h0, hn, sub_zero, div_self hne]
    ring

/-- Witness of C6: the three-row raster `raster3` on the extent `[0,4] × [0,3]`. -/
theorem C6_one_baseline_per_row_at_tick_witness :
    (unitPlot 0 4 0 3).X.Min ≤ (unitPlot 0 4 0 3).X.Max ∧
    rowY raster3 (unitPlot 0 4 0 3) 0 = 2 ∧ rowY raster3 (unitPlot 0 4 0 3) 2 = 0 := by
  obtain ⟨_, _, _, _, _, _, h⟩ :=
    C6_one_baseline_per_row_at_tick raster3 blankCanvas (unitPlot 0 4 0 3) (by decide)
  have e0 := h rfl rfl 0 (by decide)
  have e2 := h rfl rfl 2 (by decide)
  refine ⟨by decide, ?_, ?_⟩
  · rw [e0]; norm_num [raster3]
  · rw [e2]; norm_num [raster3]

theorem eraseZIndex_rows (s s2 : SpikeLines) (h : eraseZIndex s = eraseZIndex s2) :
    s.Lines.length = s2.Lines.length ∧
    ∀ i, (rowOf s i).Spikes = (rowOf s2 i).Spikes ∧
      (rowOf s i).Property = (rowOf s2 i).Property := by
  have hmap : s.Lines.map (fun l => { l with ZIndex := 0 })
      = s2.Lines.map (fun l => { l with ZIndex := 0 }) := congrArg SpikeLines.Lines h
  have hlen : s.Lines.length = s2.Lines.length := by
    simpa using congrArg List.length hmap
  refine ⟨hlen, ?_⟩
  intro i
  unfold rowOf
  by_cases hi : i < s.Lines.length
  · have hi2 : i < s2.Lines.length := by omega
    have := congrArg (fun L => L[i]?) hmap
    simp only [List.getElem?_map, List.getElem?_eq_getElem hi, List.getElem?_eq_getElem hi2,
      Option.map_some', Option.some.injEq, SpikeLine.mk.injEq, true_and] at this
    rw [List.getD_eq_getElem _ _ hi, List.getD_eq_getElem _ _ hi2]
    exact ⟨this.2.1, this.2.2⟩
  · rw [List.getD_eq_default _ _ (by omega), List.getD_eq_default _ _ (by omega)]
    exact ⟨rfl, rfl⟩

theorem rowStrokes_eraseZIndex (s s2 : SpikeLines) (plt : PlotT)
    (h : eraseZIndex s = eraseZIndex s2) (i : Nat) :
    rowStrokes s plt i = rowStrokes s2 plt i := by
  obtain ⟨hlen, hrows⟩ := eraseZIndex_rows s s2 h
  obtain ⟨hsp, hpr⟩ := hrows i
  have hm := mergedProperty_congr _ _ hpr
  simp only [rowStrokes, rowExtendBars, rowSpikeTicks, rowBaseline, rowY, rowHeight, clippedOf,
    hm, hsp, hlen]

/-- C7: two rasters that differ only in the `ZIndex` of their rows give, on the same canvas
and plot extent, the same strokes with the same multiplicities, possibly in another order. -/
theorem C7_zindex_changes_paint_order_only (s s2 : SpikeLines) (canvas : Canvas) (plt : PlotT)
    (hsame : eraseZIndex s = eraseZIndex s2) (hx : plt.X.Min ≤ plt.X.Max) :
    ∃ c1 c2, s.Plot canvas plt = some c1 ∧ s2.Plot canvas plt = some c2 ∧
      c1.strokes.Perm c2.strokes := by
  obtain ⟨c1, h1, e1⟩ := Plot_strokes s canvas plt hx
  obtain ⟨c2, h2, e2⟩ := Plot_strokes s2 canvas plt hx
  refine ⟨c1, c2, h1, h2, ?_⟩
  rw [e1, e2]
  apply List.Perm.append_left
  have hlen := (eraseZIndex_rows s s2 hsame).1
  have hf : rowStrokes s plt = rowStrokes s2 plt :=
    funext (rowStrokes_eraseZIndex s s2 plt hsame)
  rw [hf]
  have p1 := drawingOrder_perm s
  have p2 := drawingOrder_perm s2
  rw [hlen] at p1
  exact (p1.trans p2.symm).flatMap_right _

/-- Witness of C7: `raster3` and `raster3z`, which differ only in `ZIndex`. -/
theorem C7_zindex_changes_paint_order_only_witness :
    eraseZIndex raster3 = eraseZIndex raster3z ∧
    ∃ c1 c2, raster3.Plot blankCanvas (unitPlot 0 4 0 3) = some c1 ∧
      raster3z.Plot blankCanvas (unitPlot 0 4 0 3) = some c2 ∧ c1.strokes.Perm c2.strokes :=
  ⟨rfl, C7_zindex_changes_paint_order_only raster3 raster3z blankCanvas (unitPlot 0 4 0 3) rfl
    (by decide)⟩

theorem wrapInt_eq (k : Int) (h1 : -9223372036854775808 ≤ k) (h2 : k < 9223372036854775808) :
    wrapInt k = k := by
  unfold wrapInt
  omega

/-- C8, with the bound that Go's `int` puts on `Extend`: `SpikeLines.Plot` succeeds and its
strokes are the rows' bars, ticks and baseline in drawing order; for every row with
`Extend = k`, `0 < k < math.MaxInt64`, the bars are one per clipped event `t`, at `x = t`, from
the baseline `y` up to `y + dy*(k+1) - dy/4`, and the loop body draws them before the spike
ticks and the baseline; with `k = 1`, `y = 0`, `dy = 1` the top is `1.75`. -/
theorem C8_extension_bar_geometry (s : SpikeLines) (plt : PlotT) (canvas : Canvas)
    (hx : plt.X.Min ≤ plt.X.Max) :
    (∃ c2, s.Plot canvas plt = some c2 ∧
      c2.strokes = canvas.strokes ++ (drawingOrder s).flatMap (fun i =>
        rowExtendBars s plt i ++ rowSpikeTicks s plt i ++ [rowBaseline s plt i])) ∧
    (∀ i l, s.Lines[i]? = some l → 0 < l.Property.Extend →
      l.Property.Extend < 9223372036854775807 →
      ∃ sp, clippedSpikes l.Spikes plt.X.Min plt.X.Max = some sp ∧
        rowExtendBars s plt i = sp.map (fun t =>
          segment ⟨(mergedProperty l).ExtendColor, (mergedProperty l).ExtendWidth⟩
            ⟨plt.trX t, plt.trY (rowY s plt i)⟩
            ⟨plt.trX t, plt.trY (rowY s plt i
              + rowHeight s plt * ((l.Property.Extend : ℚ) + 1) - rowHeight s plt / 4)⟩) ∧
        (plt.Y.Min < plt.Y.Max → rowY s plt i
          < rowY s plt i + rowHeight s plt * ((l.Property.Extend : ℚ) + 1)
            - rowHeight s plt / 4) ∧
        ∀ c, ∃ c2, plotLine s plt (rowHeight s plt) c i = some c2 ∧
          c2.strokes = c.strokes ++ sp.map (fun t =>
            segment ⟨(mergedProperty l).ExtendColor, (mergedProperty l).ExtendWidth⟩
              ⟨plt.trX t, plt.trY (rowY s plt i)⟩
              ⟨plt.trX t, plt.trY (rowY s plt i
                + rowHeight s plt * ((l.Property.Extend : ℚ) + 1) - rowHeight s plt / 4)⟩)
            ++ rowSpikeTicks s plt i ++ [rowBaseline s plt i]) ∧
    extendTop 0 1 1 = 7 / 4 := by
  refine ⟨Plot_strokes s canvas plt hx, ?_, ?_⟩
  · intro i l hl hk hmax
    obtain ⟨beg, en, _, _, _, _, hc⟩ := clippedSpikes_some l.Spikes _ _ hx
    have hrow := rowOf_eq s i l hl
    have hclip : clippedOf s plt i = (l.Spikes.take en).drop beg := by
      simp [clippedOf, hrow, hc]
    have hext : l.Property.Extend ≠ 0 := by omega
    have hw : wrapInt (l.Property.Extend + 1) = l.Property.Extend + 1 :=
      wrapInt_eq _ (by omega) (by omega)
    have hbars : rowExtendBars s plt i = ((l.Spikes.take en).drop beg).map (fun t =>
        segment ⟨(mergedProperty l).ExtendColor, (mergedProperty l).ExtendWidth⟩
          ⟨plt.trX t, plt.trY (rowY s plt i)⟩
          ⟨plt.trX t, plt.trY (rowY s plt i
            + rowHeight s plt * ((l.Property.Extend : ℚ) + 1) - rowHeight s plt / 4)⟩) := by
      simp only [rowExtendBars, hrow, hclip, extendTop, mergedProperty_Extend, if_pos hext, hw,
        Int.cast_add, Int.cast_one]
    refine ⟨_, hc, hbars, ?_, ?_⟩
    · intro hy
      have hi : i < s.Lines.length := by
        by_contra hcon
        rw [List.getElem?_eq_none (by omega)] at hl
        exact Option.noConfusion hl
      have hn : (0 : ℚ) < (s.Lines.length : ℚ) := by exact_mod_cast (by omega : 0 < s.Lines.length)
      have hd : 0 < rowHeight s plt := by
        unfold rowHeight
        exact div_pos (by linarith) hn
      have hkq : (0 : ℚ) < (l.Property.Extend : ℚ) := by exact_mod_cast hk
      nlinarith
    · intro c
      refine ⟨_, plotLine_eq s plt c i l _ hl hc, ?_⟩
      simp only [rowStrokes, hbars, List.append_assoc]
  · have hw : wrapInt (1 + 1) = 2 := by decide
    rw [extendTop, hw]
    norm_num

/-- Witness of C8: row 1 of `raster3` has `Extend = 1`; on the extent `[0,4] × [0,3]` its bar
over the event `1` runs from `y = 1` to `y = 2.75`. -/
theorem C8_extension_bar_geometry_witness :
    (unitPlot 0 4 0 3).X.Min ≤ (unitPlot 0 4 0 3).X.Max ∧
    rowExtendBars raster3 (unitPlot 0 4 0 3) 1
      = [segment ⟨some ⟨160, 160, 160, 255⟩, 1⟩ ⟨1, 1⟩ ⟨1, 11 / 4⟩] := by
  obtain ⟨sp, h1, h2, _, _⟩ := (C8_extension_bar_geometry raster3 (unitPlot 0 4 0 3) blankCanvas
    (by decide)).2.1 1 { Label := "b", Spikes := [1], ZIndex := -1, Property := { Extend := 1 } }
    rfl (by decide) (by decide)
  refine ⟨by decide, ?_⟩
  have hsp : sp = [1] := by
    have : clippedSpikes [1] 0 4 = some [1] := by decide
    exact Option.some.inj (h1.symm.trans this)
  rw [h2, hsp]
  decide!

/-- Counterexample to C8 as stated: the row of `rasterMaxExtend` has `Extend = math.MaxInt64`,
so `Extend+1` wraps to `math.MinInt64`; on the extent `[0,2] × [0,1]` (`y = 0`, `dy = 1`)
`SpikeLines.Plot` draws its bar from `y = 0` down to `-2^63 - 1/4`, not up to
`2^63 - 1/4`. -/
theorem C8_counterexample :
    0 < (rowOf rasterMaxExtend 0).Property.Extend ∧
    rowY rasterMaxExtend (unitPlot 0 2 0 1) 0 = 0 ∧
    rowHeight rasterMaxExtend (unitPlot 0 2 0 1) = 1 ∧
    (rasterMaxExtend.Plot blankCanvas (unitPlot 0 2 0 1)).map Canvas.strokes
      = some [segment ⟨some ⟨160, 160, 160, 255⟩, 1⟩ ⟨1, 0⟩ ⟨1, -9223372036854775808 - 1 / 4⟩,
          segment ⟨some ⟨0, 0, 0, 255⟩, 1⟩ ⟨1, 0⟩ ⟨1, 1 / 2⟩,
          segment ⟨some ⟨0, 0, 0, 255⟩, 1⟩ ⟨0, 0⟩ ⟨2, 0⟩] ∧
    (-9223372036854775808 - 1 / 4 : ℚ)
      ≠ 0 + 1 * (((rowOf rasterMaxExtend 0).Property.Extend : ℚ) + 1) - 1 / 4 := by
  refine ⟨by decide, by decide!, by decide!, by decide!, by decide!⟩

/-- C9: for every event sequence, sorted or not, and every window with `X.Min ≤ X.Max`, the two
binary searches succeed with `beg ≤ end ≤ len(events)`, the slice `events[beg:end]` is valid,
and `SpikeLines.Plot` does not panic. -/
theorem C9_clipping_never_fails (s : SpikeLines) (canvas : Canvas) (plt : PlotT)
    (hx : plt.X.Min ≤ plt.X.Max) :
    (∀ events : List ℚ, ∃ beg en,
      SearchFloat64s events plt.X.Min = some beg ∧ SearchFloat64s events plt.X.Max = some en ∧
      beg ≤ en ∧ en ≤ events.length ∧
      sliceOf events beg en = some ((events.take en).drop beg)) ∧
    (s.Plot canvas plt).isSome = true := by
  constructor
  · intro events
    obtain ⟨beg, en, h1, h2, h3, h4⟩ := search_bounds events plt.X.Min plt.X.Max hx
    exact ⟨beg, en, h1, h2, h3, h4, by simp [sliceOf, h3, h4]⟩
  · obtain ⟨c2, h1, _⟩ := Plot_strokes s canvas plt hx
    rw [h1]; rfl

/-- Witness of C9: `raster3`, whose last row is unsorted, on the window `[0, 4]`. -/
theorem C9_clipping_never_fails_witness :
    (unitPlot 0 4 0 3).X.Min ≤ (unitPlot 0 4 0 3).X.Max ∧
    (raster3.Plot blankCanvas (unitPlot 0 4 0 3)).isSome = true :=
  ⟨by decide, (C9_clipping_never_fails raster3 blankCanvas (unitPlot 0 4 0 3) (by decide)).2⟩

/-! ## `SpikeLines.Ticks`: positions -/

theorem Ticks_getElem_value (s : SpikeLines) (min max : ℚ) (i : Nat) (hi : i < s.Lines.length) :
    (s.Ticks min max)[i]? = some
      { Value := min + ((max - min) / (s.Lines.length : ℚ))
          * ((s.Lines.length : ℚ) - (i : ℚ) - 1)
        Label := s.Lines[i].Label } := by
  rw [Ticks_eq_map, List.getElem?_map, List.getElem?_enum, List.getElem?_eq_getElem hi]
  rfl

theorem Ticks_values (s : SpikeLines) (min max : ℚ) :
    (s.Ticks min max).map Tick.Value = (List.range s.Lines.length).map (fun (i : Nat) =>
      min + ((max - min) / (s.Lines.length : ℚ)) * ((s.Lines.length : ℚ) - (i : ℚ) - 1)) := by
  rw [Ticks_eq_map, ← List.enum_map_fst, List.map_map, List.map_map]
  rfl

/-- The tick positions in exact arithmetic: for `n ≥ 1` rows and `max > min` they strictly
decrease with the row index; row 0 is at `max - dy`, row `n-1` at `min`, consecutive rows are
`dy = (max - min)/n` apart; they depend on the number of rows only. -/
theorem Ticks_exact_positions (s : SpikeLines) (min max : ℚ)
    (hn : 1 ≤ s.Lines.length) (hlt : min < max) :
    0 < (max - min) / (s.Lines.length : ℚ) ∧
    (∃ t, (s.Ticks min max)[0]? = some t ∧
      t.Value = max - (max - min) / (s.Lines.length : ℚ)) ∧
    (∃ t, (s.Ticks min max)[s.Lines.length - 1]? = some t ∧ t.Value = min) ∧
    (∀ i, i + 1 < s.Lines.length → ∃ t t2,
      (s.Ticks min max)[i]? = some t ∧ (s.Ticks min max)[i + 1]? = some t2 ∧
      t.Value - t2.Value = (max - min) / (s.Lines.length : ℚ) ∧ t2.Value < t.Value) ∧
    (∀ s2 : SpikeLines, s2.Lines.length = s.Lines.length →
      (s2.Ticks min max).map Tick.Value = (s.Ticks min max).map Tick.Value) := by
  have hnq : (0 : ℚ) < (s.Lines.length : ℚ) := by exact_mod_cast hn
  have hdy : 0 < (max - min) / (s.Lines.length : ℚ) := div_pos (by linarith) hnq
  refine ⟨hdy, ?_, ?_, ?_, ?_⟩
  · refine ⟨_, Ticks_getElem_value s min max 0 (by omega), ?_⟩
    show min + (max - min) / (s.Lines.length : ℚ) * ((s.Lines.length : ℚ) - ((0 : Nat) : ℚ) - 1)
      = max - (max - min) / (s.Lines.length : ℚ)
    field_simp
    ring
  · refine ⟨_, Ticks_getElem_value s min max (s.Lines.length - 1) (by omega), ?_⟩
    show min + (max - min) / (s.Lines.length : ℚ)
      * ((s.Lines.length : ℚ) - ((s.Lines.length - 1 : Nat) : ℚ) - 1) = min
    rw [Nat.cast_sub hn]
    simp
  · intro i hi
    refine ⟨_, _, Ticks_getElem_value s min max i (by omega),
      Ticks_getElem_value s min max (i + 1) hi, ?_, ?_⟩
    · show min + (max - min) / (s.Lines.length : ℚ) * ((s.Lines.length : ℚ) - (i : ℚ) - 1)
        - (min + (max - min) / (s.Lines.length : ℚ)
          * ((s.Lines.length : ℚ) - ((i + 1 : Nat) : ℚ) - 1))
        = (max - min) / (s.Lines.length : ℚ)
      push_cast
      ring
    · show min + (max - min) / (s.Lines.length : ℚ)
          * ((s.Lines.length : ℚ) - ((i + 1 : Nat) : ℚ) - 1)
        < min + (max - min) / (s.Lines.length : ℚ) * ((s.Lines.length : ℚ) - (i : ℚ) - 1)
      push_cast
      nlinarith
  · intro s2 h2
    rw [Ticks_values, Ticks_values, h2]

/-! ## `MakeSpikePlot`: the time window and the saving loop -/

theorem foldl_flatMap_spikes (g : F64 × F64 → ℚ → F64 × F64) :
    ∀ (L : List SpikeLine) (init : F64 × F64),
      L.foldl (fun st l => l.Spikes.foldl g st) init
        = (L.flatMap (fun l => l.Spikes)).foldl g init := by
  intro L
  induction L with
  | nil => intro init; rfl
  | cons l ls ih =>
    intro init
    simp only [List.foldl_cons, List.flatMap_cons, List.foldl_append]
    exact ih _

theorem windowStep_fin (m M v : ℚ) :
    windowStep (F64.fin m, F64.fin M) v
      = (F64.fin (if v < m then v else m), F64.fin (if M < v then v else M)) := by
  simp only [windowStep, F64.lt, decide_eq_true_eq]
  split_ifs <;> rfl

theorem windowStep_foldl_fin :
    ∀ (l : List ℚ) (m M : ℚ), ∃ m2 M2,
      l.foldl windowStep (F64.fin m, F64.fin M) = (F64.fin m2, F64.fin M2) ∧
      (m2 = m ∨ m2 ∈ l) ∧ m2 ≤ m ∧ (∀ v ∈ l, m2 ≤ v) ∧
      (M2 = M ∨ M2 ∈ l) ∧ M ≤ M2 ∧ (∀ v ∈ l, v ≤ M2) := by
  intro l
  induction l with
  | nil =>
    intro m M
    exact ⟨m, M, rfl, Or.inl rfl, le_refl _, by simp, Or.inl rfl, le_refl _, by simp⟩
  | cons v vs ih =>
    intro m M
    rw [List.foldl_cons, windowStep_fin]
    obtain ⟨m2, M2, h, a1, a2, a3, b1, b2, b3⟩ :=
      ih (if v < m then v else m) (if M < v then v else M)
    refine ⟨m2, M2, h, ?_, ?_, ?_, ?_, ?_, ?_⟩
    · rcases a1 with h1 | h1
      · rw [h1]; split_ifs
        · exact Or.inr (List.mem_cons_self _ _)
        · exact Or.inl rfl
      · exact Or.inr (List.mem_cons_of_mem _ h1)
    · refine le_trans a2 ?_
      split_ifs with hc
      · exact le_of_lt hc
      · exact le_refl _
    · intro w hw
      rcases List.mem_cons.mp hw with h1 | h1
      · rw [h1]; refine le_trans a2 ?_
        split_ifs with hc
        · exact le_refl _
        · exact not_lt.mp hc
      · exact a3 w h1
    · rcases b1 with h1 | h1
      · rw [h1]; split_ifs
        · exact Or.inr (List.mem_cons_self _ _)
        · exact Or.inl rfl
      · exact Or.inr (List.mem_cons_of_mem _ h1)
    · refine le_trans ?_ b2
      split_ifs with hc
      · exact le_of_lt hc
      · exact le_refl _
    · intro w hw
      rcases List.mem_cons.mp hw with h1 | h1
      · rw [h1]; refine le_trans ?_ b2
        split_ifs with hc
        · exact le_refl _
        · exact not_lt.mp hc
      · exact b3 w h1

/-- The automatic window of a raster with at least one event: its least and greatest event. -/
theorem autoWindow_spec (s : SpikeLines) (hne : allSpikes s ≠ []) :
    ∃ m M, autoWindow s = (F64.fin m, F64.fin M) ∧ m ∈ allSpikes s ∧ M ∈ allSpikes s ∧
      ∀ v ∈ allSpikes s, m ≤ v ∧ v ≤ M := by
  unfold autoWindow
  rw [foldl_flatMap_spikes]
  change ∃ m M, (allSpikes s).foldl windowStep (F64.posInf, F64.negInf) = _ ∧ _
  cases hall : allSpikes s with
  | nil => exact absurd hall hne
  | cons v vs =>
    rw [List.foldl_cons]
    have h0 : windowStep (F64.posInf, F64.negInf) v = (F64.fin v, F64.fin v) := by
      simp [windowStep, F64.lt]
    rw [h0]
    obtain ⟨m2, M2, h, a1, a2, a3, b1, b2, b3⟩ := windowStep_foldl_fin vs v v
    refine ⟨m2, M2, h, ?_, ?_, ?_⟩
    · rcases a1 with h1 | h1
      · rw [h1]; exact List.mem_cons_self _ _
      · exact List.mem_cons_of_mem _ h1
    · rcases b1 with h1 | h1
      · rw [h1]; exact List.mem_cons_self _ _
      · exact List.mem_cons_of_mem _ h1
    · intro w hw
      rcases List.mem_cons.mp hw with h1 | h1
      · rw [h1]; exact ⟨a2, b2⟩
      · exact ⟨a3 w h1, b3 w h1⟩

theorem saveAll_spec (save : PlotObj → ℚ → ℚ → String → Option Error) (p : PlotObj)
    (xDim yDim : ℚ) :
    ∀ (names : List String) (calls : List SaveCall),
      (saveAll save p xDim yDim names calls).1
        = (match names.find? (fun f => !(save p xDim yDim f).isNone) with
           | none => none
           | some f => (save p xDim yDim f).map (Error.wrap "spike plot: ")) ∧
      (saveAll save p xDim yDim names calls).2
        = calls ++ (names.takeWhile (fun f => (save p xDim yDim f).isNone)
            ++ (names.dropWhile (fun f => (save p xDim yDim f).isNone)).take 1).map
              (fun f => ⟨p, xDim, yDim, f⟩) := by
  intro names
  induction names with
  | nil => intro calls; simp [saveAll]
  | cons f rest ih =>
    intro calls
    cases hs : save p xDim yDim f with
    | none =>
      obtain ⟨h1, h2⟩ := ih (calls ++ [⟨p, xDim, yDim, f⟩])
      simp only [saveAll, hs, List.find?_cons, Option.isNone_none, Bool.not_true,
        List.takeWhile_cons, List.dropWhile_cons, if_true]
      refine ⟨h1, ?_⟩
      rw [h2]
      simp
    | some err =>
      simp [saveAll, hs, List.find?_cons, List.takeWhile_cons, List.dropWhile_cons]

/-- C13: without `XLimit` and with at least one event in the raster, `MakeSpikePlot` sets the
window to `[m, M]`, the least and the greatest timestamp over all rows, sorted or not; with
`XLimit` the window is `[XLimit.Min, XLimit.Max]`; every `Save` is made on that plot. -/
theorem C13_time_window (s : SpikeLines) :
    (∀ lim, s.XLimit = some lim →
      (spikePlotObj s).X = ⟨F64.fin lim.Min, F64.fin lim.Max⟩) ∧
    (s.XLimit = none → allSpikes s ≠ [] →
      ∃ m M, (spikePlotObj s).X = ⟨F64.fin m, F64.fin M⟩ ∧ m ∈ allSpikes s ∧ M ∈ allSpikes s ∧
        ∀ v ∈ allSpikes s, m ≤ v ∧ v ≤ M) ∧
    (∀ (save : PlotObj → ℚ → ℚ → String → Option Error) (fileNames : List String),
      ∀ c ∈ (MakeSpikePlot save s fileNames).2, c.plot = spikePlotObj s) := by
  refine ⟨?_, ?_, ?_⟩
  · intro lim h
    simp [spikePlotObj, h, PlotObj.Add]
  · intro h hne
    obtain ⟨m, M, hw, h1, h2, h3⟩ := autoWindow_spec s hne
    refine ⟨m, M, ?_, h1, h2, h3⟩
    simp [spikePlotObj, h, PlotObj.Add, hw]
  · intro save fileNames c hc
    unfold MakeSpikePlot at hc
    split at hc
    · simp at hc
    · rw [(saveAll_spec save _ _ _ fileNames []).2] at hc
      simp only [List.nil_append, List.mem_map] at hc
      obtain ⟨f, _, rfl⟩ := hc
      rfl

/-- Witness of C13: `raster3` has no `XLimit` and events `1, 1, 3, 1, 2`; its window is
`[1, 3]`. -/
theorem C13_time_window_witness :
    raster3.XLimit = none ∧ allSpikes raster3 ≠ [] ∧
    (spikePlotObj raster3).X = ⟨F64.fin 1, F64.fin 3⟩ ∧
    ∃ m M, (spikePlotObj raster3).X = ⟨F64.fin m, F64.fin M⟩ ∧
      m ∈ allSpikes raster3 ∧ M ∈ allSpikes raster3 ∧
      ∀ v ∈ allSpikes raster3, m ≤ v ∧ v ≤ M :=
  ⟨rfl, by decide, by decide, (C13_time_window raster3).2.1 rfl (by decide)⟩

/-- C19: `MakeSpikePlot` returns nil without saving when no path is given; it returns nil
exactly when every path is saved successfully; it calls `Save` on the paths up to and
including the first one that fails and on none after it, and returns that failure wrapped
with the prefix `spike plot: `. -/
theorem C19_saves_until_first_failure (save : PlotObj → ℚ → ℚ → String → Option Error)
    (s : SpikeLines) (fileNames : List String) :
    MakeSpikePlot save s [] = (none, []) ∧
    ((MakeSpikePlot save s fileNames).1 = none ↔
      ∀ f ∈ fileNames, saveSucceeds save s f = true) ∧
    (MakeSpikePlot save s fileNames).2.map SaveCall.fileName
      = fileNames.takeWhile (saveSucceeds save s)
        ++ (fileNames.dropWhile (saveSucceeds save s)).take 1 ∧
    (∀ c ∈ (MakeSpikePlot save s fileNames).2,
      c.plot = spikePlotObj s ∧ c.xDim = spikeXDim s ∧ c.yDim = spikeYDim s) ∧
    (MakeSpikePlot save s fileNames).1
      = (match fileNames.find? (fun f => !saveSucceeds save s f) with
         | none => none
         | some f =>
           (save (spikePlotObj s) (spikeXDim s) (spikeYDim s) f).map
             (Error.wrap "spike plot: ")) := by
  have hres : (MakeSpikePlot save s fileNames)
      = saveAll save (spikePlotObj s) (spikeXDim s) (spikeYDim s) fileNames [] := by
    unfold MakeSpikePlot
    split
    · rename_i h
      have : fileNames = [] := List.length_eq_zero.mp h
      subst this
      rfl
    · rfl
  obtain ⟨h1, h2⟩ := saveAll_spec save (spikePlotObj s) (spikeXDim s) (spikeYDim s) fileNames []
  have herr : (MakeSpikePlot save s fileNames).1
      = (match fileNames.find? (fun f => !saveSucceeds save s f) with
         | none => none
         | some f =>
           (save (spikePlotObj s) (spikeXDim s) (spikeYDim s) f).map
             (Error.wrap "spike plot: ")) := by
    rw [hres, h1]; rfl
  refine ⟨rfl, ?_, ?_, ?_, herr⟩
  · rw [herr]
    cases hf : fileNames.find? (fun f => !saveSucceeds save s f) with
    | none =>
      simp only [true_iff]
      intro f hfm
      have := List.find?_eq_none.mp hf f hfm
      simpa using this
    | some f =>
      have hp := List.find?_some hf
      have hm := List.mem_of_find?_eq_some hf
      simp only [saveSucceeds, Bool.not_eq_true', Option.isNone_eq_false_iff] at hp
      obtain ⟨e, he⟩ := Option.isSome_iff_exists.mp hp
      simp only [he, Option.map_some', false_iff, reduceCtorEq]
      intro hall
      have := hall f hm
      simp [saveSucceeds, he] at this
  · rw [hres, h2]
    simp only [List.nil_append, List.map_map]
    have : (SaveCall.fileName ∘ fun f =>
        (⟨spikePlotObj s, spikeXDim s, spikeYDim s, f⟩ : SaveCall)) = id := rfl
    rw [this, List.map_id]
    rfl
  · intro c hc
    rw [hres, h2] at hc
    simp only [List.nil_append, List.mem_map] at hc
    obtain ⟨f, _, rfl⟩ := hc
    exact ⟨rfl, rfl, rfl⟩

/-- Witness of C19: with a `Save` that fails on `bad.png`, the paths `a.png`, `bad.png`,
`c.svg` give two calls of `Save` and the wrapped error. -/
theorem C19_saves_until_first_failure_witness :
    (MakeSpikePlot saveExceptBad raster3 ["a.png", "bad.png", "c.svg"]).2.map SaveCall.fileName
      = ["a.png", "bad.png"] ∧
    (MakeSpikePlot saveExceptBad raster3 ["a.png", "bad.png", "c.svg"]).1
      = some (Error.wrap "spike plot: " (Error.other "denied")) :=
  ⟨(C19_saves_until_first_failure saveExceptBad raster3
      ["a.png", "bad.png", "c.svg"]).2.2.1.trans (by decide),
    (C19_saves_until_first_failure saveExceptBad raster3
      ["a.png", "bad.png", "c.svg"]).2.2.2.2.trans (by decide)⟩

/-! ## Per-row strokes: extension, styles, ticks, paint order -/

theorem drawingOrder_rasterNegExtend : drawingOrder rasterNegExtend = [0] := by decide

/-- C14, as the code has it: the test is `Extend != 0`.  `SpikeLines.Plot` succeeds and its
strokes are the rows' strokes in drawing order.  For a row with `Extend = 0` the loop body
draws no extension bar, only one spike tick per clipped event and the baseline; for a row with
any non-zero `Extend`, negative included, it first draws one bar per clipped event `t`, at
`x = t`, from the baseline to `extendTop`. -/
theorem C14_bars_iff_extend_nonzero (s : SpikeLines) (plt : PlotT) (canvas : Canvas)
    (hx : plt.X.Min ≤ plt.X.Max) :
    (∃ c2, s.Plot canvas plt = some c2 ∧
      c2.strokes = canvas.strokes ++ (drawingOrder s).flatMap (fun i =>
        rowExtendBars s plt i ++ rowSpikeTicks s plt i ++ [rowBaseline s plt i])) ∧
    ∀ i l, s.Lines[i]? = some l →
      ∃ sp, clippedSpikes l.Spikes plt.X.Min plt.X.Max = some sp ∧
        (l.Property.Extend = 0 →
          rowExtendBars s plt i = [] ∧
          ∀ c, ∃ c2, plotLine s plt (rowHeight s plt) c i = some c2 ∧
            c2.strokes = c.strokes
              ++ sp.map (fun t =>
                segment ⟨(mergedProperty l).Color, (mergedProperty l).Width⟩
                  ⟨plt.trX t, plt.trY (rowY s plt i)⟩
                  ⟨plt.trX t, plt.trY (rowY s plt i + rowHeight s plt / 2)⟩)
              ++ [rowBaseline s plt i]) ∧
        (l.Property.Extend ≠ 0 →
          rowExtendBars s plt i = sp.map (fun t =>
            segment ⟨(mergedProperty l).ExtendColor, (mergedProperty l).ExtendWidth⟩
              ⟨plt.trX t, plt.trY (rowY s plt i)⟩
              ⟨plt.trX t, plt.trY (extendTop (rowY s plt i) (rowHeight s plt)
                l.Property.Extend)⟩) ∧
          ∀ c, ∃ c2, plotLine s plt (rowHeight s plt) c i = some c2 ∧
            c2.strokes = c.strokes
              ++ sp.map (fun t =>
                segment ⟨(mergedProperty l).ExtendColor, (mergedProperty l).ExtendWidth⟩
                  ⟨plt.trX t, plt.trY (rowY s plt i)⟩
                  ⟨plt.trX t, plt.trY (extendTop (rowY s plt i) (rowHeight s plt)
                    l.Property.Extend)⟩)
              ++ sp.map (fun t =>
                segment ⟨(mergedProperty l).Color, (mergedProperty l).Width⟩
                  ⟨plt.trX t, plt.trY (rowY s plt i)⟩
                  ⟨plt.trX t, plt.trY (rowY s plt i + rowHeight s plt / 2)⟩)
              ++ [rowBaseline s plt i]) := by
  refine ⟨Plot_strokes s canvas plt hx, ?_⟩
  intro i l hl
  obtain ⟨beg, en, _, _, _, _, hc⟩ := clippedSpikes_some l.Spikes _ _ hx
  have hrow := rowOf_eq s i l hl
  have hclip : clippedOf s plt i = (l.Spikes.take en).drop beg := by
    simp [clippedOf, hrow, hc]
  refine ⟨_, hc, ?_, ?_⟩
  · intro he
    have hb : rowExtendBars s plt i = [] := by
      simp [rowExtendBars, mergedProperty_Extend, hrow, he]
    refine ⟨hb, fun c => ⟨_, plotLine_eq s plt c i l _ hl hc, ?_⟩⟩
    simp only [rowStrokes, hb, rowSpikeTicks, hrow, hclip, List.append_nil, List.append_assoc,
      List.nil_append]
  · intro he
    have hb : rowExtendBars s plt i = ((l.Spikes.take en).drop beg).map (fun t =>
        segment ⟨(mergedProperty l).ExtendColor, (mergedProperty l).ExtendWidth⟩
          ⟨plt.trX t, plt.trY (rowY s plt i)⟩
          ⟨plt.trX t, plt.trY (extendTop (rowY s plt i) (rowHeight s plt)
            l.Property.Extend)⟩) := by
      simp only [rowExtendBars, hrow, hclip, mergedProperty_Extend, if_pos he]
    refine ⟨hb, fun c => ⟨_, plotLine_eq s plt c i l _ hl hc, ?_⟩⟩
    simp only [rowStrokes, hb, rowSpikeTicks, hrow, hclip, List.append_assoc]

/-- Witness of C14 as the code has it: the row of `rasterNegExtend` has `Extend = -1` and one
event in the window `[0, 2]`; it gets one extension bar. -/
theorem C14_bars_iff_extend_nonzero_witness :
    (unitPlot 0 2 0 1).X.Min ≤ (unitPlot 0 2 0 1).X.Max ∧
    (rowOf rasterNegExtend 0).Property.Extend ≠ 0 ∧
    (rowExtendBars rasterNegExtend (unitPlot 0 2 0 1) 0).length = 1 := by
  obtain ⟨sp, h1, _, h3⟩ := (C14_bars_iff_extend_nonzero rasterNegExtend (unitPlot 0 2 0 1)
    blankCanvas (by decide)).2 0 { Label := "a", Spikes := [1], Property := { Extend := -1 } }
    rfl
  have hsp : sp = [1] := by
    have : clippedSpikes [1] 0 2 = some [1] := by decide
    exact Option.some.inj (h1.symm.trans this)
  refine ⟨by decide, by decide, ?_⟩
  rw [(h3 (by decide)).1, hsp]
  rfl

/-- Counterexample to C14 as stated: the single row of `rasterNegExtend` has `Extend = -1` and
one event in the window `[0, 2]`; `SpikeLines.Plot` draws three strokes for it, the first of
which is an extension bar. -/
theorem C14_counterexample :
    (rowOf rasterNegExtend 0).Property.Extend ≤ 0 ∧
    (rowExtendBars rasterNegExtend (unitPlot 0 2 0 1) 0).length = 1 ∧
    ∃ c2, rasterNegExtend.Plot blankCanvas (unitPlot 0 2 0 1) = some c2 ∧
      c2.strokes = rowExtendBars rasterNegExtend (unitPlot 0 2 0 1) 0
        ++ rowSpikeTicks rasterNegExtend (unitPlot 0 2 0 1) 0
        ++ [rowBaseline rasterNegExtend (unitPlot 0 2 0 1) 0] := by
  refine ⟨by decide, ?_, ?_⟩
  · decide
  · obtain ⟨c2, h1, h2⟩ := Plot_strokes rasterNegExtend blankCanvas (unitPlot 0 2 0 1)
      (by decide)
    refine ⟨c2, h1, ?_⟩
    rw [h2, drawingOrder_rasterNegExtend]
    simp [blankCanvas, rowStrokes]

theorem mergedProperty_fields (l : SpikeLine) :
    (mergedProperty l).Width = (if l.Property.Width ≠ 0 then l.Property.Width else vgPoints 1) ∧
    (mergedProperty l).Color
      = (if l.Property.Color ≠ none then l.Property.Color else some ⟨0, 0, 0, 255⟩) ∧
    (mergedProperty l).LWidth
      = (if l.Property.LWidth ≠ 0 then l.Property.LWidth else vgPoints 1) ∧
    (mergedProperty l).LColor
      = (if l.Property.LColor ≠ none then l.Property.LColor else some ⟨0, 0, 0, 255⟩) ∧
    (l.Property.Extend ≠ 0 →
      (mergedProperty l).ExtendWidth
        = (if l.Property.ExtendWidth ≠ 0 then l.Property.ExtendWidth else vgPoints 1) ∧
      (mergedProperty l).ExtendColor
        = (if l.Property.ExtendColor ≠ none then l.Property.ExtendColor
           else some ⟨160, 160, 160, 255⟩)) := by
  refine ⟨?_, ?_, ?_, ?_, ?_⟩
  · simp only [mergedProperty, DefaultSpikeProperty, apply_ite SpikeLineProperty.Width,
      ite_self]
  · simp only [mergedProperty, DefaultSpikeProperty, apply_ite SpikeLineProperty.Color,
      ite_self]
  · simp only [mergedProperty, DefaultSpikeProperty, apply_ite SpikeLineProperty.LWidth,
      ite_self]
  · simp only [mergedProperty, DefaultSpikeProperty, apply_ite SpikeLineProperty.LColor,
      ite_self]
  · intro he
    constructor
    · simp only [mergedProperty, DefaultSpikeProperty,
        apply_ite SpikeLineProperty.ExtendWidth, ite_self, if_pos he]
    · simp only [mergedProperty, DefaultSpikeProperty,
        apply_ite SpikeLineProperty.ExtendColor, ite_self, if_pos he]

/-- C15: the strokes of `SpikeLines.Plot` are the rows' strokes, and for every row the spike
ticks are stroked with the row's `Width` and `Color` where set, else 1pt and black; the
baseline with `LWidth` and `LColor`, else 1pt and black; the extension bars, which exist only
when `Extend` is set, with `ExtendWidth` and `ExtendColor`, else 1pt and grey (160,160,160).
Each style component depends on its own field only. -/
theorem C15_styles_merged_by_zero_value (s : SpikeLines) (canvas : Canvas) (plt : PlotT)
    (hx : plt.X.Min ≤ plt.X.Max) :
    (∃ c2, s.Plot canvas plt = some c2 ∧
      c2.strokes = canvas.strokes ++ (drawingOrder s).flatMap (fun i =>
        rowExtendBars s plt i ++ rowSpikeTicks s plt i ++ [rowBaseline s plt i])) ∧
    ∀ i,
      (∀ st ∈ rowSpikeTicks s plt i, st.style =
        ⟨if (rowOf s i).Property.Color ≠ none then (rowOf s i).Property.Color
            else some ⟨0, 0, 0, 255⟩,
          if (rowOf s i).Property.Width ≠ 0 then (rowOf s i).Property.Width else 1⟩) ∧
      (rowBaseline s plt i).style =
        ⟨if (rowOf s i).Property.LColor ≠ none then (rowOf s i).Property.LColor
            else some ⟨0, 0, 0, 255⟩,
          if (rowOf s i).Property.LWidth ≠ 0 then (rowOf s i).Property.LWidth else 1⟩ ∧
      (∀ st ∈ rowExtendBars s plt i, st.style =
        ⟨if (rowOf s i).Property.ExtendColor ≠ none then (rowOf s i).Property.ExtendColor
            else some ⟨160, 160, 160, 255⟩,
          if (rowOf s i).Property.ExtendWidth ≠ 0 then (rowOf s i).Property.ExtendWidth
            else 1⟩) := by
  refine ⟨Plot_strokes s canvas plt hx, ?_⟩
  intro i
  obtain ⟨h1, h2, h3, h4, h5⟩ := mergedProperty_fields (rowOf s i)
  refine ⟨?_, ?_, ?_⟩
  · intro st hst
    unfold rowSpikeTicks at hst
    obtain ⟨v, _, rfl⟩ := List.mem_map.mp hst
    simp only [segment, h1, h2, vgPoints]
  · simp only [rowBaseline, segment, h3, h4, vgPoints]
  · intro st hst
    unfold rowExtendBars at hst
    split at hst
    · rename_i he
      rw [mergedProperty_Extend] at he
      obtain ⟨h6, h7⟩ := h5 he
      obtain ⟨v, _, rfl⟩ := List.mem_map.mp hst
      simp only [segment, h6, h7, vgPoints]
    · simp at hst

/-- Witness of C15: `raster3` on the extent `[0,4] × [0,3]`; its row 1 has only `Extend`
set, so its baseline is black and 1pt wide. -/
theorem C15_styles_merged_by_zero_value_witness :
    (unitPlot 0 4 0 3).X.Min ≤ (unitPlot 0 4 0 3).X.Max ∧
    (rowBaseline raster3 (unitPlot 0 4 0 3) 1).style = ⟨some ⟨0, 0, 0, 255⟩, 1⟩ :=
  ⟨by decide,
    ((C15_styles_merged_by_zero_value raster3 blankCanvas (unitPlot 0 4 0 3)
      (by decide)).2 1).2.1⟩

/-- C16, as the code has it: `SpikeLines.Plot` succeeds and its strokes are the rows' strokes
in drawing order; for every row, sorted or not, the spike ticks are one per clipped event `t`
(the events `events[beg:end]` that the two binary searches select), in order: a vertical
segment at `x = t` from the baseline `y` to `y + dy/2`, drawn by the loop body after the
extension bars and before the baseline; on a sorted row the clipped events are exactly the
events in `[X.Min, X.Max)`, so that no event outside the window gets a tick. -/
theorem C16_one_tick_per_clipped_event (s : SpikeLines) (plt : PlotT) (canvas : Canvas)
    (hx : plt.X.Min ≤ plt.X.Max) :
    (∃ c2, s.Plot canvas plt = some c2 ∧
      c2.strokes = canvas.strokes ++ (drawingOrder s).flatMap (fun i =>
        rowExtendBars s plt i ++ rowSpikeTicks s plt i ++ [rowBaseline s plt i])) ∧
    ∀ i l, s.Lines[i]? = some l →
      ∃ sp, clippedSpikes l.Spikes plt.X.Min plt.X.Max = some sp ∧
        rowSpikeTicks s plt i = sp.map (fun t =>
          segment ⟨(mergedProperty l).Color, (mergedProperty l).Width⟩
            ⟨plt.trX t, plt.trY (rowY s plt i)⟩
            ⟨plt.trX t, plt.trY (rowY s plt i + rowHeight s plt / 2)⟩) ∧
        (∀ c, ∃ c2, plotLine s plt (rowHeight s plt) c i = some c2 ∧
          c2.strokes = c.strokes ++ rowExtendBars s plt i
            ++ sp.map (fun t =>
              segment ⟨(mergedProperty l).Color, (mergedProperty l).Width⟩
                ⟨plt.trX t, plt.trY (rowY s plt i)⟩
                ⟨plt.trX t, plt.trY (rowY s plt i + rowHeight s plt / 2)⟩)
            ++ [rowBaseline s plt i]) ∧
        (l.Spikes.Sorted (· ≤ ·) →
          sp = l.Spikes.filter (fun e => decide (plt.X.Min ≤ e ∧ e < plt.X.Max))) := by
  refine ⟨Plot_strokes s canvas plt hx, ?_⟩
  intro i l hl
  obtain ⟨beg, en, _, _, _, _, hc⟩ := clippedSpikes_some l.Spikes _ _ hx
  have hrow := rowOf_eq s i l hl
  have hclip : clippedOf s plt i = (l.Spikes.take en).drop beg := by
    simp [clippedOf, hrow, hc]
  have ht : rowSpikeTicks s plt i = ((l.Spikes.take en).drop beg).map (fun t =>
      segment ⟨(mergedProperty l).Color, (mergedProperty l).Width⟩
        ⟨plt.trX t, plt.trY (rowY s plt i)⟩
        ⟨plt.trX t, plt.trY (rowY s plt i + rowHeight s plt / 2)⟩) := by
    simp only [rowSpikeTicks, hrow, hclip]
  refine ⟨_, hc, ht, ?_, ?_⟩
  · intro c
    refine ⟨_, plotLine_eq s plt c i l _ hl hc, ?_⟩
    simp only [rowStrokes, ht, List.append_assoc]
  · intro hs
    have := clippedSpikes_sorted l.Spikes hs plt.X.Min plt.X.Max hx
    rw [hc] at this
    exact Option.some.inj this

/-- Witness of C16: row 0 of `rasterClip` on the window `[2, 4]`; its clipped events are
`2, 3`. -/
theorem C16_one_tick_per_clipped_event_witness :
    (unitPlot 2 4 0 1).X.Min ≤ (unitPlot 2 4 0 1).X.Max ∧
    ∃ sp, clippedSpikes [0, 1, 2, 3, 4, 5] 2 4 = some sp ∧ sp = [2, 3] ∧
      rowSpikeTicks rasterClip (unitPlot 2 4 0 1) 0 = sp.map (fun t =>
        segment ⟨some ⟨0, 0, 0, 255⟩, 1⟩ ⟨t, 0⟩ ⟨t, 1 / 2⟩) := by
  obtain ⟨sp, h1, h2, _, h4⟩ := (C16_one_tick_per_clipped_event rasterClip
    (unitPlot 2 4 0 1) blankCanvas (by decide)).2 0
    { Label := "a", Spikes := [0, 1, 2, 3, 4, 5] } rfl
  have hsp : sp = [2, 3] := (h4 (by decide)).trans (by decide)
  refine ⟨by decide, sp, h1, hsp, ?_⟩
  rw [h2, hsp]
  decide!

/-- Counterexample to C16 as stated: the row `0, 9, 1, 9` of `rasterUnsorted` is not sorted;
on the window `[1, 2]` the searches give `beg = 1`, `end = 3`, the clipped events are `9, 1`,
and `SpikeLines.Plot` draws a spike tick at `x = 9`, outside the window. -/
theorem C16_counterexample :
    clippedSpikes [0, 9, 1, 9] 1 2 = some [9, 1] ∧
    ¬ ((1 : ℚ) ≤ 9 ∧ (9 : ℚ) < 2) ∧
    (rasterUnsorted.Plot blankCanvas (unitPlot 1 2 0 1)).map Canvas.strokes
      = some [segment ⟨some ⟨0, 0, 0, 255⟩, 1⟩ ⟨9, 0⟩ ⟨9, 1 / 2⟩,
          segment ⟨some ⟨0, 0, 0, 255⟩, 1⟩ ⟨1, 0⟩ ⟨1, 1 / 2⟩,
          segment ⟨some ⟨0, 0, 0, 255⟩, 1⟩ ⟨1, 0⟩ ⟨2, 0⟩] := by
  refine ⟨by decide, by decide, by decide!⟩

/-- C20: `SpikeLines.Plot` emits the strokes of each row contiguously, rows in drawing order,
and within a row first the extension bars (when `Extend` is set), one per clipped event in
event order, then the spike ticks, one per clipped event in event order, then the baseline;
a row with `m` clipped events yields `m + 1` strokes without extension and `2m + 1` with. -/
theorem C20_per_row_paint_order (s : SpikeLines) (canvas : Canvas) (plt : PlotT)
    (hx : plt.X.Min ≤ plt.X.Max) :
    (∃ c2, s.Plot canvas plt = some c2 ∧
      c2.strokes = canvas.strokes ++ (drawingOrder s).flatMap (fun i =>
        rowExtendBars s plt i ++ rowSpikeTicks s plt i ++ [rowBaseline s plt i])) ∧
    ∀ i,
      rowSpikeTicks s plt i = (clippedOf s plt i).map (fun v =>
        segment ⟨(mergedProperty (rowOf s i)).Color, (mergedProperty (rowOf s i)).Width⟩
          ⟨plt.trX v, plt.trY (rowY s plt i)⟩
          ⟨plt.trX v, plt.trY (rowY s plt i + rowHeight s plt / 2)⟩) ∧
      ((rowOf s i).Property.Extend ≠ 0 →
        rowExtendBars s plt i = (clippedOf s plt i).map (fun v =>
          segment
            ⟨(mergedProperty (rowOf s i)).ExtendColor, (mergedProperty (rowOf s i)).ExtendWidth⟩
            ⟨plt.trX v, plt.trY (rowY s plt i)⟩
            ⟨plt.trX v, plt.trY (extendTop (rowY s plt i) (rowHeight s plt)
              (rowOf s i).Property.Extend)⟩) ∧
        (rowStrokes s plt i).length = 2 * (clippedOf s plt i).length + 1) ∧
      ((rowOf s i).Property.Extend = 0 →
        rowExtendBars s plt i = [] ∧
        (rowStrokes s plt i).length = (clippedOf s plt i).length + 1) := by
  refine ⟨Plot_strokes s canvas plt hx, ?_⟩
  intro i
  refine ⟨rfl, ?_, ?_⟩
  · intro he
    have hb : rowExtendBars s plt i = (clippedOf s plt i).map (fun v =>
        segment
          ⟨(mergedProperty (rowOf s i)).ExtendColor, (mergedProperty (rowOf s i)).ExtendWidth⟩
          ⟨plt.trX v, plt.trY (rowY s plt i)⟩
          ⟨plt.trX v, plt.trY (extendTop (rowY s plt i) (rowHeight s plt)
            (rowOf s i).Property.Extend)⟩) := by
      simp only [rowExtendBars, mergedProperty_Extend, if_pos he]
    refine ⟨hb, ?_⟩
    rw [rowStrokes, hb]
    simp [rowSpikeTicks]
    omega
  · intro he
    have hb : rowExtendBars s plt i = [] := by
      simp [rowExtendBars, mergedProperty_Extend, he]
    refine ⟨hb, ?_⟩
    rw [rowStrokes, hb]
    simp [rowSpikeTicks]

/-- Witness of C20: `raster3` on the extent `[0,4] × [0,3]`; row 1 has `Extend = 1`. -/
theorem C20_per_row_paint_order_witness :
    (unitPlot 0 4 0 3).X.Min ≤ (unitPlot 0 4 0 3).X.Max ∧
    (rowStrokes raster3 (unitPlot 0 4 0 3) 1).length
      = 2 * (clippedOf raster3 (unitPlot 0 4 0 3) 1).length + 1 :=
  ⟨by decide,
    (((C20_per_row_paint_order raster3 blankCanvas (unitPlot 0 4 0 3) (by decide)).2 1).2.1
      (by decide)).2⟩

/-! ## Reach of an extension -/

theorem rowHeight_pos (s : SpikeLines) (plt : PlotT) (hn : 0 < s.Lines.length)
    (hy : plt.Y.Min < plt.Y.Max) : 0 < rowHeight s plt := by
  unfold rowHeight
  have h1 : (0 : ℚ) < (s.Lines.length : ℚ) := by exact_mod_cast hn
  have h2 : (0 : ℚ) < plt.Y.Max - plt.Y.Min := by linarith
  exact div_pos h2 h1

theorem rowY_rowHeight (s : SpikeLines) (plt : PlotT) (j : Nat) :
    rowY s plt j = plt.Y.Min + rowHeight s plt * ((s.Lines.length : ℚ) - (j : ℚ) - 1) := by
  rw [rowY_eq]
  rfl

theorem rowHeight_mul_length (s : SpikeLines) (plt : PlotT) (hn : 0 < s.Lines.length) :
    plt.Y.Min + rowHeight s plt * (s.Lines.length : ℚ) = plt.Y.Max := by
  unfold rowHeight
  have h1 : (s.Lines.length : ℚ) ≠ 0 := by exact_mod_cast (Nat.pos_iff_ne_zero.mp hn)
  rw [div_mul_cancel₀ _ h1]
  ring

theorem extendTop_rowY (s : SpikeLines) (plt : PlotT) (i k : Nat)
    (hk : k < 9223372036854775807) :
    extendTop (rowY s plt i) (rowHeight s plt) (k : Int)
      = plt.Y.Min + rowHeight s plt
        * ((s.Lines.length : ℚ) - (i : ℚ) + (k : ℚ) - 1 / 4) := by
  rw [extendTop, rowY_rowHeight, wrapInt_eq _ (by omega) (by omega)]
  push_cast
  ring

/-- The reach of an extension in exact arithmetic: for `n < 2^63` rows on a plot with
`Y.Min < Y.Max` and a row `i` with `Extend = k`, `1 ≤ k ≤ i`: the row height is positive; the
bars run from the baseline to `top = y + dy*(k+1) - dy/4`; `top` lies strictly above the
baseline of row `i-k` and `dy/4` below the next baseline above it (the baseline of row
`i-k-1`, or `Y.Max` when `k = i`); the baselines strictly above the row's own and below `top`
are those of the rows `i-k, ..., i-1`; and the bar stays inside `[Y.Min, Y.Max]`. -/
theorem extension_exact_geometry (s : SpikeLines) (plt : PlotT) (i k : Nat)
    (hy : plt.Y.Min < plt.Y.Max) (hi : i < s.Lines.length)
    (hlen : s.Lines.length < 9223372036854775807) (hk1 : 1 ≤ k) (hki : k ≤ i)
    (he : (rowOf s i).Property.Extend = (k : Int)) :
    0 < rowHeight s plt ∧
    rowExtendBars s plt i = (clippedOf s plt i).map (fun v =>
      segment
        ⟨(mergedProperty (rowOf s i)).ExtendColor, (mergedProperty (rowOf s i)).ExtendWidth⟩
        ⟨plt.trX v, plt.trY (rowY s plt i)⟩
        ⟨plt.trX v, plt.trY (extendTop (rowY s plt i) (rowHeight s plt) (k : Int))⟩) ∧
    rowY s plt (i - k) < extendTop (rowY s plt i) (rowHeight s plt) (k : Int) ∧
    (k < i → extendTop (rowY s plt i) (rowHeight s plt) (k : Int)
      = rowY s plt (i - k - 1) - rowHeight s plt / 4) ∧
    (k = i → extendTop (rowY s plt i) (rowHeight s plt) (k : Int)
      = plt.Y.Max - rowHeight s plt / 4) ∧
    (∀ j, j < s.Lines.length →
      ((rowY s plt i < rowY s plt j ∧
          rowY s plt j < extendTop (rowY s plt i) (rowHeight s plt) (k : Int))
        ↔ (i - k ≤ j ∧ j < i))) ∧
    plt.Y.Min ≤ rowY s plt i ∧
    extendTop (rowY s plt i) (rowHeight s plt) (k : Int) < plt.Y.Max := by
  have hn : 0 < s.Lines.length := by omega
  have hk63 : k < 9223372036854775807 := by omega
  have hd := rowHeight_pos s plt hn hy
  have hmax := rowHeight_mul_length s plt hn
  have hik : ((i - k : Nat) : ℚ) = (i : ℚ) - (k : ℚ) := by
    rw [Nat.cast_sub hki]
  refine ⟨hd, ?_, ?_, ?_, ?_, ?_, ?_, ?_⟩
  · have hne : ((k : Nat) : Int) ≠ 0 := by omega
    simp only [rowExtendBars, mergedProperty_Extend, he, if_pos hne]
  · rw [extendTop_rowY _ _ _ _ hk63, rowY_rowHeight, hik]
    nlinarith
  · intro hlt
    have h1 : ((i - k - 1 : Nat) : ℚ) = (i : ℚ) - (k : ℚ) - 1 := by
      have h2 : i - k - 1 = i - (k + 1) := by omega
      rw [h2, Nat.cast_sub (by omega)]
      push_cast
      ring
    rw [extendTop_rowY _ _ _ _ hk63, rowY_rowHeight, h1]
    ring
  · intro hkeq
    rw [extendTop_rowY _ _ _ _ hk63, ← hmax, hkeq]
    ring
  · intro j hj
    rw [extendTop_rowY _ _ _ _ hk63, rowY_rowHeight, rowY_rowHeight]
    have e1 : (plt.Y.Min + rowHeight s plt * ((s.Lines.length : ℚ) - (i : ℚ) - 1)
          < plt.Y.Min + rowHeight s plt * ((s.Lines.length : ℚ) - (j : ℚ) - 1))
        ↔ j < i := by
      rw [add_lt_add_iff_left, mul_lt_mul_left hd]
      constructor
      · intro h
        have : (j : ℚ) < (i : ℚ) := by linarith
        exact_mod_cast this
      · intro h
        have : (j : ℚ) < (i : ℚ) := by exact_mod_cast h
        linarith
    have e2 : (plt.Y.Min + rowHeight s plt * ((s.Lines.length : ℚ) - (j : ℚ) - 1)
          < plt.Y.Min + rowHeight s plt
            * ((s.Lines.length : ℚ) - (i : ℚ) + (k : ℚ) - 1 / 4))
        ↔ i - k ≤ j := by
      rw [add_lt_add_iff_left, mul_lt_mul_left hd]
      constructor
      · intro h
        have h3 : (4 * i : ℚ) < 4 * j + 4 * k + 3 := by linarith
        have h4 : 4 * i < 4 * j + 4 * k + 3 := by exact_mod_cast h3
        omega
      · intro h
        have h4 : i ≤ j + k := by omega
        have h3 : (i : ℚ) ≤ (j : ℚ) + (k : ℚ) := by exact_mod_cast h4
        linarith
    rw [e1, e2]
    exact and_comm
  · rw [rowY_rowHeight]
    have h1 : (i : ℚ) + 1 ≤ (s.Lines.length : ℚ) := by exact_mod_cast hi
    have h2 : 0 ≤ (s.Lines.length : ℚ) - (i : ℚ) - 1 := by linarith
    have := mul_nonneg hd.le h2
    linarith
  · rw [extendTop_rowY _ _ _ _ hk63, ← hmax]
    have h1 : (k : ℚ) ≤ (i : ℚ) := by exact_mod_cast hki
    nlinarith

/-! ## `Add`: style defaults, connecting line and markers -/

theorem Dashes_Id_zero : DashesTable.Id Dashes 0 = some [6, 2] := by decide

theorem Glyphs_Id_zero : GlyphTable.Id Glyphs 0 = some GlyphDrawer.CircleGlyph := by decide

set_option maxHeartbeats 1600000 in
theorem styledLine_spec (line : Line) :
    ∃ sl, styledLine line = some sl ∧ sl.Points = line.Points ∧ sl.Label = line.Label ∧
      sl.DashOffs = line.DashOffs ∧
      (line.hasLineProperty ∨ ¬ line.hasGlyphProperty →
        sl.Width = (if line.Width ≠ 0 then line.Width else 1) ∧
        sl.Color = (if line.Color ≠ none then line.Color else some (rgb 20 20 20))) ∧
      (¬ line.hasLineProperty → line.hasGlyphProperty → sl.Width = 0 ∧ sl.Color = none) ∧
      sl.Dashes = (if line.hasLineProperty ∧ line.DashOffs ≠ 0 ∧ line.Dashes = none
        then some [6, 2] else line.Dashes) ∧
      sl.Glyph = (if line.hasGlyphProperty ∧ line.Glyph = none
        then some GlyphDrawer.CircleGlyph else line.Glyph) ∧
      sl.GlyphColor = (if line.hasGlyphProperty ∧ line.GlyphColor = none
        then (if sl.Color ≠ none then sl.Color else some (rgb 20 20 20))
        else line.GlyphColor) ∧
      sl.GlyphRadius = (if line.hasGlyphProperty ∧ line.GlyphColor = none ∧ line.GlyphRadius = 0
        then sl.Width + 1 else line.GlyphRadius) := by
  obtain ⟨lab, pts, w, c, d, o, g, gc, gr⟩ := line
  by_cases hw : w = 0 <;> by_cases ho : o = 0 <;> by_cases hr : gr = 0 <;>
    cases c <;> cases d <;> cases g <;> cases gc <;>
    simp [styledLine, lineFieldDefaults, glyphFieldDefaults, Dashes_Id_zero, Glyphs_Id_zero,
      hw, ho, hr, Line.hasLineProperty, Line.hasGlyphProperty, vgPoints]

theorem Add_error (plt : PlotObj) (line sl : Line) (err : Error)
    (hsl : styledLine line = some sl) (hc : CopyXYs sl.Points = .error err) :
    Add plt line = some (some err, plt) := by
  simp only [Add, hsl, Option.bind_eq_bind, Option.some_bind, hc]
  rfl

theorem Add_ok (plt : PlotObj) (line sl : Line) (xys : XYs)
    (hsl : styledLine line = some sl) (hc : CopyXYs sl.Points = .ok xys) :
    ∃ plt2, Add plt line = some (none, plt2) ∧
      plt2.plotters = plt.plotters ++ addedPlotters sl xys ∧
      plt2.legend = plt.legend ++
        (if sl.Label ≠ "" ∧ addedPlotters sl xys ≠ [] then [(sl.Label, addedPlotters sl xys)]
          else []) := by
  simp only [Add, hsl, Option.bind_eq_bind, Option.some_bind, hc]
  by_cases hw : sl.Width = 0 <;> by_cases hr : sl.GlyphRadius = 0 <;>
    by_cases hlab : sl.Label = "" <;>
    simp [addedPlotters, hw, hr, hlab, PlotObj.Add, PlotObj.LegendAdd]

/-- C11: the line `lineGlyphColorOnly` has valid points and a glyph colour and no other style
field; `Add` leaves its glyph radius at zero (the default `Width + 1pt` is applied only inside
the branch `line.GlyphColor == nil`), returns `nil` and adds nothing to the plot: no marker
series, and no connecting line either. -/
theorem C11_glyph_colour_alone_draws_nothing :
    lineGlyphColorOnly.hasGlyphProperty ∧
    CopyXYs lineGlyphColorOnly.Points = .ok [(0, 1), (1, 2)] ∧
    (styledLine lineGlyphColorOnly).map Line.GlyphRadius = some 0 ∧
    Add plotNew lineGlyphColorOnly = some (none, plotNew) := by
  exact ⟨by decide, rfl, by decide, by decide⟩

/-- C17: `Add` on a plot `plt` and a line `line`. When the points cannot be copied the error
is returned and the plot is unchanged. Otherwise `Add` returns `nil` and appends to the
plotters of the plot the list `added`, which holds a connecting line exactly when one of
`Color`, `Width`, `Dashes`, `DashOffs` is set or no glyph field is set either; that line is
the first and only connecting line of `added`, it is drawn over the copied points with the
caller's colour and width, replaced by (20,20,20) and 1pt when unset; and when no style field
is set `added` is that line alone, with no dashes and no markers. -/
theorem C17_connecting_line (plt : PlotObj) (line : Line) :
    (∀ err, CopyXYs line.Points = .error err → Add plt line = some (some err, plt)) ∧
    (∀ xys, CopyXYs line.Points = .ok xys →
      ∃ added plt2, Add plt line = some (none, plt2) ∧
        plt2.plotters = plt.plotters ++ added ∧
        ((∃ p ∈ added, p.isLine = true)
          ↔ (line.hasLineProperty ∨ ¬ line.hasGlyphProperty)) ∧
        (line.hasLineProperty ∨ ¬ line.hasGlyphProperty →
          ∃ dashes, added.filter Plotter.isLine =
            [Plotter.Line xys
              ⟨if line.Color ≠ none then line.Color else some (rgb 20 20 20),
                if line.Width ≠ 0 then line.Width else 1, dashes, line.DashOffs⟩]) ∧
        (¬ line.hasLineProperty → ¬ line.hasGlyphProperty →
          added = [Plotter.Line xys ⟨some (rgb 20 20 20), 1, none, 0⟩])) := by
  obtain ⟨sl, hsl, hpts, _, hoffs, hline, hnoline, hdash, _, _, hrad⟩ := styledLine_spec line
  constructor
  · intro err hc
    rw [← hpts] at hc
    exact Add_error plt line sl err hsl hc
  · intro xys hc
    rw [← hpts] at hc
    obtain ⟨plt2, h1, h2, _⟩ := Add_ok plt line sl xys hsl hc
    refine ⟨addedPlotters sl xys, plt2, h1, h2, ?_, ?_, ?_⟩
    · constructor
      · rintro ⟨p, hp, hpl⟩
        by_contra hcon
        rw [not_or, not_not] at hcon
        obtain ⟨hw, _⟩ := hnoline hcon.1 hcon.2
        simp only [addedPlotters, hw, ne_eq, not_true_eq_false, if_false, List.nil_append]
          at hp
        split at hp
        · rw [List.mem_singleton] at hp
          rw [hp] at hpl
          exact Bool.false_ne_true hpl
        · exact List.not_mem_nil _ hp
      · intro h
        obtain ⟨hw, _⟩ := hline h
        have hw0 : sl.Width ≠ 0 := by
          rw [hw]
          split_ifs with h0
          · exact h0
          · exact one_ne_zero
        refine ⟨Plotter.Line xys ⟨sl.Color, sl.Width, sl.Dashes, sl.DashOffs⟩, ?_, rfl⟩
        simp [addedPlotters, hw0]
    · intro h
      obtain ⟨hw, hcol⟩ := hline h
      have hw0 : sl.Width ≠ 0 := by
        rw [hw]
        split_ifs with h0
        · exact h0
        · exact one_ne_zero
      refine ⟨sl.Dashes, ?_⟩
      rw [← hw, ← hcol, ← hoffs]
      by_cases hr : sl.GlyphRadius = 0 <;>
        simp [addedPlotters, hw0, hr, Plotter.isLine]
    · intro hl hg
      obtain ⟨hw, hcol⟩ := hline (Or.inr hg)
      have hl2 := hl
      simp only [Line.hasLineProperty, not_or, not_not] at hl2
      obtain ⟨hc0, hw0, hd0, ho0⟩ := hl2
      rw [hw0] at hw
      rw [hc0] at hcol
      rw [ho0] at hoffs
      have hrl : line.GlyphRadius = 0 := by
        simp only [Line.hasGlyphProperty, not_or, not_not] at hg
        exact hg.2.2
      have hr : sl.GlyphRadius = 0 := by
        rw [hrad, if_neg (fun h => hg h.1), hrl]
      have hd : sl.Dashes = none := by
        rw [hdash, if_neg (fun h => hl h.1), hd0]
      simp [addedPlotters, hw, hcol, hoffs, hr, hd]

/-- Witness of C17: the empty style on two valid points gives the default line alone. -/
theorem C17_connecting_line_witness :
    CopyXYs ({ Points := [(F64.fin 0, F64.fin 1), (F64.fin 1, F64.fin 2)] } : Line).Points
      = .ok [(0, 1), (1, 2)] ∧
    ∃ added plt2,
      Add plotNew { Points := [(F64.fin 0, F64.fin 1), (F64.fin 1, F64.fin 2)] }
        = some (none, plt2) ∧
      plt2.plotters = plotNew.plotters ++ added ∧
      added = [Plotter.Line [(0, 1), (1, 2)] ⟨some (rgb 20 20 20), 1, none, 0⟩] := by
  obtain ⟨added, plt2, h1, h2, _, _, h5⟩ :=
    (C17_connecting_line plotNew
      { Points := [(F64.fin 0, F64.fin 1), (F64.fin 1, F64.fin 2)] }).2
      [(0, 1), (1, 2)] rfl
  exact ⟨rfl, added, plt2, h1, h2, h5 (by decide) (by decide)⟩

/-! ## The automatic window and the half-open clipping -/

theorem spikePlotObj_auto (s : SpikeLines) (h : s.XLimit = none) :
    (spikePlotObj s).X = ⟨(autoWindow s).1, (autoWindow s).2⟩ := by
  simp [spikePlotObj, h, PlotObj.Add]

theorem mem_allSpikes (s : SpikeLines) (i : Nat) (l : SpikeLine) (hl : s.Lines[i]? = some l)
    (e : ℚ) (he : e ∈ l.Spikes) : e ∈ allSpikes s := by
  unfold allSpikes
  rw [List.mem_flatMap]
  exact ⟨l, List.mem_iff_getElem?.mpr ⟨i, hl⟩, he⟩

/-- C21: a raster without `XLimit`, with sorted rows and two distinct timestamps, drawn on a
plot whose time extent is the window that `MakeSpikePlot` computed. The window is `[m, M]`
with `m < M`, both timestamps of the raster bounding all others; `SpikeLines.Plot` succeeds,
and the events it draws for each row are the events of the row below `M`, in order: no event
at `M` gets a spike tick or an extension bar, every event `e` with `m ≤ e < M` gets its spike
tick, and some row holds an event at `M` that is dropped. -/
theorem C21_auto_window_drops_latest_event (s : SpikeLines) (plt : PlotT) (canvas : Canvas)
    (hlim : s.XLimit = none) (hsorted : ∀ l ∈ s.Lines, l.Spikes.Sorted (· ≤ ·))
    (hdistinct : ∃ a ∈ allSpikes s, ∃ b ∈ allSpikes s, a ≠ b)
    (hwin : (spikePlotObj s).X = ⟨F64.fin plt.X.Min, F64.fin plt.X.Max⟩) :
    plt.X.Min < plt.X.Max ∧ plt.X.Min ∈ allSpikes s ∧ plt.X.Max ∈ allSpikes s ∧
    (∀ v ∈ allSpikes s, plt.X.Min ≤ v ∧ v ≤ plt.X.Max) ∧
    (∃ c2, s.Plot canvas plt = some c2 ∧
      c2.strokes = canvas.strokes ++ (drawingOrder s).flatMap (fun i =>
        rowExtendBars s plt i ++ rowSpikeTicks s plt i ++ [rowBaseline s plt i])) ∧
    (∀ i, i < s.Lines.length →
      clippedOf s plt i = (rowOf s i).Spikes.filter (fun e => decide (e < plt.X.Max)) ∧
      plt.X.Max ∉ clippedOf s plt i ∧
      (∀ e ∈ (rowOf s i).Spikes, e < plt.X.Max → e ∈ clippedOf s plt i) ∧
      rowSpikeTicks s plt i = ((rowOf s i).Spikes.filter (fun e => decide (e < plt.X.Max))).map
        (fun t =>
          segment ⟨(mergedProperty (rowOf s i)).Color, (mergedProperty (rowOf s i)).Width⟩
            ⟨plt.trX t, plt.trY (rowY s plt i)⟩
            ⟨plt.trX t, plt.trY (rowY s plt i + rowHeight s plt / 2)⟩) ∧
      (rowExtendBars s plt i).length ≤ (clippedOf s plt i).length) ∧
    (∃ i, i < s.Lines.length ∧ plt.X.Max ∈ (rowOf s i).Spikes ∧
      plt.X.Max ∉ clippedOf s plt i) := by
  obtain ⟨a, ha, b, hb, hab⟩ := hdistinct
  have hne : allSpikes s ≠ [] := List.ne_nil_of_mem ha
  obtain ⟨m, M, hw, hm, hM, hbound⟩ := autoWindow_spec s hne
  rw [spikePlotObj_auto s hlim, hw] at hwin
  have hmin : m = plt.X.Min := by
    have := congrArg AxisF.Min hwin
    exact F64.fin.inj this
  have hmax : M = plt.X.Max := by
    have := congrArg AxisF.Max hwin
    exact F64.fin.inj this
  subst hmin hmax
  have hlt : plt.X.Min < plt.X.Max := by
    rcases lt_or_eq_of_le ((hbound a ha).1.trans (hbound a ha).2) with h | h
    · exact h
    · exfalso
      apply hab
      have h1 := hbound a ha
      have h2 := hbound b hb
      rw [← h] at h1 h2
      exact le_antisymm (h1.2.trans h2.1) (h2.2.trans h1.1)
  have hx : plt.X.Min ≤ plt.X.Max := hlt.le
  have hclip : ∀ i, i < s.Lines.length →
      clippedOf s plt i = (rowOf s i).Spikes.filter (fun e => decide (e < plt.X.Max)) := by
    intro i hi
    have hl : s.Lines[i]? = some s.Lines[i] := List.getElem?_eq_getElem hi
    have hrow := rowOf_eq s i _ hl
    have hs := hsorted _ (List.getElem_mem hi)
    have hc := clippedSpikes_sorted s.Lines[i].Spikes hs plt.X.Min plt.X.Max hx
    rw [clippedOf, hrow, hc, Option.getD_some]
    apply List.filter_congr
    intro e he
    have := (hbound e (mem_allSpikes s i _ hl e he)).1
    simp [this]
  refine ⟨hlt, hm, hM, hbound, Plot_strokes s canvas plt hx, ?_, ?_⟩
  · intro i hi
    have hc := hclip i hi
    refine ⟨hc, ?_, ?_, ?_, ?_⟩
    · rw [hc, List.mem_filter]
      simp
    · intro e he hlt2
      rw [hc, List.mem_filter]
      exact ⟨he, by simpa using hlt2⟩
    · rw [rowSpikeTicks, hc]
    · unfold rowExtendBars
      split
      · simp
      · simp
  · obtain ⟨l, hl, hMl⟩ := List.mem_flatMap.mp hM
    obtain ⟨i, hi, hli⟩ := List.getElem_of_mem hl
    have hl2 : s.Lines[i]? = some l := by rw [List.getElem?_eq_getElem hi, hli]
    refine ⟨i, hi, ?_, ?_⟩
    · rw [rowOf_eq s i l hl2]; exact hMl
    · rw [hclip i hi, List.mem_filter]
      simp

/-- Witness of C21: `rasterSorted2` on its automatic window `[1, 3]`: the event `3` of row 1
is dropped, the other events are drawn. -/
theorem C21_auto_window_drops_latest_event_witness :
    rasterSorted2.XLimit = none ∧
    (spikePlotObj rasterSorted2).X = ⟨F64.fin 1, F64.fin 3⟩ ∧
    clippedOf rasterSorted2 (unitPlot 1 3 0 2) 0 = [1, 2] ∧
    clippedOf rasterSorted2 (unitPlot 1 3 0 2) 1 = [2] ∧
    (3 : ℚ) ∉ clippedOf rasterSorted2 (unitPlot 1 3 0 2) 1 :=
  have h := C21_auto_window_drops_latest_event rasterSorted2 (unitPlot 1 3 0 2) blankCanvas
    rfl (by decide) ⟨1, by decide, 2, by decide, by decide⟩ (by decide)
  ⟨rfl, by decide, ((h.2.2.2.2.2.1 0 (by decide)).1).trans (by decide),
    ((h.2.2.2.2.2.1 1 (by decide)).1).trans (by decide), (h.2.2.2.2.2.1 1 (by decide)).2.1⟩

/-! ## float64 rounding: the facts used below -/

theorem pow2_eq_zpow (e : Int) : pow2 e = (2 : ℚ) ^ e := by
  unfold pow2
  split
  · rename_i h
    have : ((e.toNat : Int)) = e := Int.toNat_of_nonneg h
    rw [Nat.cast_pow, ← zpow_natCast, this]
    norm_num
  · rename_i h
    have h2 : 0 ≤ -e := by omega
    have : (((-e).toNat : Int)) = -e := Int.toNat_of_nonneg h2
    rw [Nat.cast_pow, ← zpow_natCast, this, zpow_neg]
    norm_num

theorem pow2_pos (e : Int) : 0 < pow2 e := by
  rw [pow2_eq_zpow]
  positivity

theorem pow2_add (a b : Int) : pow2 (a + b) = pow2 a * pow2 b := by
  simp only [pow2_eq_zpow]
  exact zpow_add₀ (by norm_num) a b

theorem pow2_le_pow2 (a b : Int) (h : a ≤ b) : pow2 a ≤ pow2 b := by
  simp only [pow2_eq_zpow]
  exact zpow_le_zpow_right₀ (by norm_num) h

theorem pow2_natCast (k : Nat) : pow2 (k : Int) = ((2 ^ k : Nat) : ℚ) := by
  rw [pow2_eq_zpow, zpow_natCast]
  norm_num

theorem log2Loop_spec : ∀ (fuel n : Nat), n ≤ fuel → 1 ≤ n →
    2 ^ log2Loop fuel n ≤ n ∧ n < 2 ^ (log2Loop fuel n + 1) := by
  intro fuel
  induction fuel with
  | zero => intro n h1 h2; omega
  | succ f ih =>
    intro n h1 h2
    unfold log2Loop
    split
    · rename_i h
      obtain ⟨a, b⟩ := ih (n / 2) (by omega) (by omega)
      constructor
      · rw [pow_succ]
        have := Nat.div_mul_le_self n 2
        calc 2 ^ log2Loop f (n / 2) * 2 ≤ n / 2 * 2 := Nat.mul_le_mul_right 2 a
          _ ≤ n := this
      · rw [pow_succ]
        have : n < (n / 2 + 1) * 2 := by omega
        calc n < (n / 2 + 1) * 2 := this
          _ ≤ 2 ^ (log2Loop f (n / 2) + 1) * 2 := Nat.mul_le_mul_right 2 b
    · constructor
      · simpa using h2
      · simp; omega

theorem natLog2_spec (n : Nat) (h : 1 ≤ n) : 2 ^ natLog2 n ≤ n ∧ n < 2 ^ (natLog2 n + 1) :=
  log2Loop_spec n n (le_refl _) h

theorem pow2_zero : pow2 0 = 1 := by
  simp [pow2]

theorem pow2_neg_mul (a : Int) : pow2 (-a) * pow2 a = 1 := by
  rw [← pow2_add, neg_add_cancel, pow2_zero]

theorem pow2_succ (a : Int) : pow2 (a + 1) = 2 * pow2 a := by
  rw [pow2_add]
  have : pow2 1 = 2 := by simp [pow2]
  rw [this]; ring

theorem floorLog2_bounds (N D : ℚ) (q : ℚ) (a b : Int) (hD : 0 < D) (hq : q * D = N)
    (A1 : pow2 a ≤ N) (A2 : N < pow2 (a + 1)) (B1 : pow2 b ≤ D) (B2 : D < pow2 (b + 1)) :
    pow2 (a - b - 1) ≤ q ∧ q < pow2 (a - b + 1) := by
  have hpa := pow2_pos a
  have hpb := pow2_pos b
  have e1 : pow2 (a - b - 1) * pow2 (b + 1) = pow2 a := by
    rw [← pow2_add]; congr 1; ring
  have e2 : pow2 (a - b + 1) * pow2 b = pow2 (a + 1) := by
    rw [← pow2_add]; congr 1; ring
  have hp1 := pow2_pos (a - b - 1)
  have hp2 := pow2_pos (a - b + 1)
  constructor
  · by_contra hcon
    have hlt : q < pow2 (a - b - 1) := lt_of_not_le hcon
    have : q * D < pow2 (a - b - 1) * pow2 (b + 1) :=
      mul_lt_mul hlt B2.le hD hp1.le
    rw [hq, e1] at this
    linarith
  · by_contra hcon
    have hge : pow2 (a - b + 1) ≤ q := le_of_not_lt hcon
    have : pow2 (a - b + 1) * pow2 b ≤ q * D :=
      mul_le_mul hge B1 hpb.le (le_trans hp2.le hge)
    rw [hq, e2] at this
    linarith

theorem floorLog2_spec (q : ℚ) (hq : 0 < q) :
    pow2 (floorLog2 q) ≤ q ∧ q < pow2 (floorLog2 q + 1) := by
  have hnum : 0 < q.num := Rat.num_pos.mpr hq
  have hden : 1 ≤ q.den := q.den_pos
  have hna : 1 ≤ q.num.natAbs := by omega
  obtain ⟨a1, a2⟩ := natLog2_spec q.num.natAbs hna
  obtain ⟨b1, b2⟩ := natLog2_spec q.den hden
  have hnat : ((q.num.natAbs : Nat) : ℚ) = (q.num : ℚ) := by
    rw [Nat.cast_natAbs, abs_of_pos hnum]
  have hqD : q * (q.den : ℚ) = ((q.num.natAbs : Nat) : ℚ) := by
    rw [hnat]; exact Rat.mul_den_eq_num q
  have hdpos : (0 : ℚ) < (q.den : ℚ) := by exact_mod_cast hden
  have A1 : pow2 (natLog2 q.num.natAbs : Int) ≤ ((q.num.natAbs : Nat) : ℚ) := by
    rw [pow2_natCast]; exact_mod_cast a1
  have A2 : ((q.num.natAbs : Nat) : ℚ) < pow2 ((natLog2 q.num.natAbs : Int) + 1) := by
    have : ((natLog2 q.num.natAbs : Int) + 1) = ((natLog2 q.num.natAbs + 1 : Nat) : Int) := by
      push_cast; ring
    rw [this, pow2_natCast]; exact_mod_cast a2
  have B1 : pow2 (natLog2 q.den : Int) ≤ (q.den : ℚ) := by
    rw [pow2_natCast]; exact_mod_cast b1
  have B2 : (q.den : ℚ) < pow2 ((natLog2 q.den : Int) + 1) := by
    have : ((natLog2 q.den : Int) + 1) = ((natLog2 q.den + 1 : Nat) : Int) := by
      push_cast; ring
    rw [this, pow2_natCast]; exact_mod_cast b2
  obtain ⟨hlow, hup⟩ := floorLog2_bounds _ _ q _ _ hdpos hqD A1 A2 B1 B2
  unfold floorLog2
  split
  · rename_i h
    exact ⟨h, hup⟩
  · rename_i h
    constructor
    · exact hlow
    · have : (natLog2 q.num.natAbs : Int) - (natLog2 q.den : Int) - 1 + 1
          = (natLog2 q.num.natAbs : Int) - (natLog2 q.den : Int) := by ring
      rw [this]
      exact lt_of_not_le h

theorem floorLog2_mono (x y : ℚ) (hx : 0 < x) (hxy : x ≤ y) : floorLog2 x ≤ floorLog2 y := by
  by_contra hcon
  have hlt : floorLog2 y + 1 ≤ floorLog2 x := by omega
  have h1 := (floorLog2_spec x hx).1
  have h2 := (floorLog2_spec y (lt_of_lt_of_le hx hxy)).2
  have h3 := pow2_le_pow2 _ _ hlt
  linarith

theorem roundHalfEven_floor_le (q : ℚ) : ⌊q⌋ ≤ roundHalfEven q := by
  unfold roundHalfEven
  split_ifs <;> omega

theorem roundHalfEven_le_floor_succ (q : ℚ) : roundHalfEven q ≤ ⌊q⌋ + 1 := by
  unfold roundHalfEven
  split_ifs <;> omega

theorem roundHalfEven_intCast (n : Int) : roundHalfEven (n : ℚ) = n := by
  unfold roundHalfEven
  rw [Int.floor_intCast]
  norm_num

theorem roundHalfEven_mono (a b : ℚ) (h : a ≤ b) : roundHalfEven a ≤ roundHalfEven b := by
  have hf : ⌊a⌋ ≤ ⌊b⌋ := Int.floor_mono h
  rcases lt_or_eq_of_le hf with hlt | heq
  · have h1 := roundHalfEven_le_floor_succ a
    have h2 := roundHalfEven_floor_le b
    omega
  · unfold roundHalfEven
    rw [← heq]
    have hab : a - (⌊a⌋ : ℚ) ≤ b - (⌊a⌋ : ℚ) := by linarith
    split_ifs <;> first | omega | (exfalso; linarith)

theorem roundHalfEven_ge (q : ℚ) (n : Int) (h : (n : ℚ) ≤ q) : n ≤ roundHalfEven q := by
  have := roundHalfEven_mono _ _ h
  rwa [roundHalfEven_intCast] at this

theorem roundHalfEven_le (q : ℚ) (n : Int) (h : q ≤ (n : ℚ)) : roundHalfEven q ≤ n := by
  have := roundHalfEven_mono _ _ h
  rwa [roundHalfEven_intCast] at this

theorem f64Ulp_pos (q : ℚ) : 0 < f64Ulp q :=
  pow2_pos _

theorem f64Round_zero : f64Round 0 = 0 := by
  simp [f64Round]

theorem f64Round_eq (q : ℚ) (hq : q ≠ 0) :
    f64Round q = (roundHalfEven (q / f64Ulp q) : ℚ) * f64Ulp q := by
  simp [f64Round, hq]

theorem f64Round_nonneg (q : ℚ) (hq : 0 ≤ q) : 0 ≤ f64Round q := by
  rcases eq_or_lt_of_le hq with h | h
  · rw [← h, f64Round_zero]
  · rw [f64Round_eq q h.ne.symm]
    have hu := f64Ulp_pos q
    have : (0 : Int) ≤ roundHalfEven (q / f64Ulp q) :=
      roundHalfEven_ge _ 0 (by simpa using (div_pos h hu).le)
    have h2 : (0 : ℚ) ≤ (roundHalfEven (q / f64Ulp q) : ℚ) := by exact_mod_cast this
    exact mul_nonneg h2 hu.le

theorem f64Round_nonpos (q : ℚ) (hq : q ≤ 0) : f64Round q ≤ 0 := by
  rcases eq_or_lt_of_le hq with h | h
  · rw [h, f64Round_zero]
  · rw [f64Round_eq q h.ne]
    have hu := f64Ulp_pos q
    have : roundHalfEven (q / f64Ulp q) ≤ (0 : Int) :=
      roundHalfEven_le _ 0 (by simpa using (div_neg_of_neg_of_pos h hu).le)
    have h2 : (roundHalfEven (q / f64Ulp q) : ℚ) ≤ 0 := by exact_mod_cast this
    exact mul_nonpos_of_nonpos_of_nonneg h2 hu.le

theorem pow2_53 : pow2 53 = ((9007199254740992 : Int) : ℚ) := by
  simp [pow2]

theorem pow2_52 : pow2 52 = ((4503599627370496 : Int) : ℚ) := by
  simp [pow2]

/-- The rounding of `q` with the unit `pow2 (E - 52)` stays within `[-2^(E+1), 2^(E+1)]` when
`|q| < 2^(E+1)`. -/
theorem scaled_round_le (q : ℚ) (E : Int) (h : q ≤ pow2 (E + 1)) :
    (roundHalfEven (q / pow2 (E - 52)) : ℚ) * pow2 (E - 52) ≤ pow2 (E + 1) := by
  have hu := pow2_pos (E - 52)
  have e : pow2 (E + 1) = pow2 53 * pow2 (E - 52) := by
    rw [← pow2_add]; congr 1; ring
  have h1 : q / pow2 (E - 52) ≤ ((9007199254740992 : Int) : ℚ) := by
    rw [div_le_iff₀ hu, ← pow2_53, ← e]; exact h
  have h2 := roundHalfEven_le _ _ h1
  have h3 : (roundHalfEven (q / pow2 (E - 52)) : ℚ) ≤ ((9007199254740992 : Int) : ℚ) := by
    exact_mod_cast h2
  rw [e, pow2_53]
  exact mul_le_mul_of_nonneg_right h3 hu.le

theorem scaled_round_ge (q : ℚ) (E : Int) (h : pow2 E ≤ q) :
    pow2 E ≤ (roundHalfEven (q / pow2 (E - 52)) : ℚ) * pow2 (E - 52) := by
  have hu := pow2_pos (E - 52)
  have e : pow2 E = pow2 52 * pow2 (E - 52) := by
    rw [← pow2_add]; congr 1; ring
  have h1 : ((4503599627370496 : Int) : ℚ) ≤ q / pow2 (E - 52) := by
    rw [le_div_iff₀ hu, ← pow2_52, ← e]; exact h
  have h2 := roundHalfEven_ge _ _ h1
  have h3 : ((4503599627370496 : Int) : ℚ) ≤ (roundHalfEven (q / pow2 (E - 52)) : ℚ) := by
    exact_mod_cast h2
  rw [e, pow2_52]
  exact mul_le_mul_of_nonneg_right h3 hu.le

theorem scaled_round_neg_ge (q : ℚ) (E : Int) (h : -pow2 (E + 1) ≤ q) :
    -pow2 (E + 1) ≤ (roundHalfEven (q / pow2 (E - 52)) : ℚ) * pow2 (E - 52) := by
  have hu := pow2_pos (E - 52)
  have e : pow2 (E + 1) = pow2 53 * pow2 (E - 52) := by
    rw [← pow2_add]; congr 1; ring
  have h1 : ((-9007199254740992 : Int) : ℚ) ≤ q / pow2 (E - 52) := by
    rw [le_div_iff₀ hu]
    have : ((-9007199254740992 : Int) : ℚ) = -pow2 53 := by rw [pow2_53]; norm_num
    rw [this, neg_mul, ← e]; exact h
  have h2 := roundHalfEven_ge _ _ h1
  have h3 : ((-9007199254740992 : Int) : ℚ) ≤ (roundHalfEven (q / pow2 (E - 52)) : ℚ) := by
    exact_mod_cast h2
  have h4 := mul_le_mul_of_nonneg_right h3 hu.le
  have : ((-9007199254740992 : Int) : ℚ) = -pow2 53 := by rw [pow2_53]; norm_num
  rw [this, neg_mul, ← e] at h4
  exact h4

theorem scaled_round_neg_le (q : ℚ) (E : Int) (h : q ≤ -pow2 E) :
    (roundHalfEven (q / pow2 (E - 52)) : ℚ) * pow2 (E - 52) ≤ -pow2 E := by
  have hu := pow2_pos (E - 52)
  have e : pow2 E = pow2 52 * pow2 (E - 52) := by
    rw [← pow2_add]; congr 1; ring
  have hc : ((-4503599627370496 : Int) : ℚ) = -pow2 52 := by rw [pow2_52]; norm_num
  have h1 : q / pow2 (E - 52) ≤ ((-4503599627370496 : Int) : ℚ) := by
    rw [div_le_iff₀ hu, hc, neg_mul, ← e]; exact h
  have h2 := roundHalfEven_le _ _ h1
  have h3 : (roundHalfEven (q / pow2 (E - 52)) : ℚ) ≤ ((-4503599627370496 : Int) : ℚ) := by
    exact_mod_cast h2
  have h4 := mul_le_mul_of_nonneg_right h3 hu.le
  rw [hc, neg_mul, ← e] at h4
  exact h4

/-- Rounding to binary64 is monotone. -/
theorem f64Round_mono (x y : ℚ) (h : x ≤ y) : f64Round x ≤ f64Round y := by
  rcases lt_trichotomy x 0 with hx | hx | hx
  · rcases lt_or_le y 0 with hy | hy
    · -- both negative
      rw [f64Round_eq x hx.ne, f64Round_eq y hy.ne]
      unfold f64Ulp
      have hax : |x| = -x := abs_of_neg hx
      have hay : |y| = -y := abs_of_neg hy
      have hyx : |y| ≤ |x| := by rw [hax, hay]; linarith
      have hypos : 0 < |y| := abs_pos.mpr hy.ne
      have hxpos : 0 < |x| := abs_pos.mpr hx.ne
      have hm := floorLog2_mono |y| |x| hypos hyx
      rcases lt_or_eq_of_le (max_le_max hm (le_refl (-1022 : Int))) with hlt | heq
      · have hEx : max (floorLog2 |x|) (-1022) = floorLog2 |x| := by
          apply max_eq_left
          have := le_max_right (floorLog2 |y|) (-1022)
          omega
        have hx1 : x ≤ -pow2 (max (floorLog2 |x|) (-1022)) := by
          rw [hEx]
          have := (floorLog2_spec |x| hxpos).1
          linarith
        have hy1 : -pow2 (max (floorLog2 |y|) (-1022) + 1) ≤ y := by
          have := (floorLog2_spec |y| hypos).2
          have h2 := pow2_le_pow2 (floorLog2 |y| + 1) (max (floorLog2 |y|) (-1022) + 1)
            (by have := le_max_left (floorLog2 |y|) (-1022); omega)
          linarith
        have a1 := scaled_round_neg_le x _ hx1
        have a2 := scaled_round_neg_ge y _ hy1
        have a3 := pow2_le_pow2 (max (floorLog2 |y|) (-1022) + 1) (max (floorLog2 |x|) (-1022))
          (by omega)
        linarith
      · rw [heq]
        have hu := pow2_pos (max (floorLog2 |x|) (-1022) - 52)
        have hq : x / pow2 (max (floorLog2 |x|) (-1022) - 52)
            ≤ y / pow2 (max (floorLog2 |x|) (-1022) - 52) :=
          div_le_div_of_nonneg_right h hu.le
        have := roundHalfEven_mono _ _ hq
        have h3 : (roundHalfEven (x / pow2 (max (floorLog2 |x|) (-1022) - 52)) : ℚ)
            ≤ (roundHalfEven (y / pow2 (max (floorLog2 |x|) (-1022) - 52)) : ℚ) := by
          exact_mod_cast this
        exact mul_le_mul_of_nonneg_right h3 hu.le
    · exact le_trans (f64Round_nonpos x hx.le) (f64Round_nonneg y hy)
  · rw [hx, f64Round_zero]
    exact f64Round_nonneg y (by linarith)
  · -- both positive
    have hy : 0 < y := lt_of_lt_of_le hx h
    rw [f64Round_eq x hx.ne.symm, f64Round_eq y hy.ne.symm]
    unfold f64Ulp
    have hax : |x| = x := abs_of_pos hx
    have hay : |y| = y := abs_of_pos hy
    rw [hax, hay]
    have hm := floorLog2_mono x y hx h
    rcases lt_or_eq_of_le (max_le_max hm (le_refl (-1022 : Int))) with hlt | heq
    · have hEy : max (floorLog2 y) (-1022) = floorLog2 y := by
        apply max_eq_left
        have := le_max_right (floorLog2 x) (-1022)
        omega
      have hy1 : pow2 (max (floorLog2 y) (-1022)) ≤ y := by
        rw [hEy]
        exact (floorLog2_spec y hy).1
      have hx1 : x ≤ pow2 (max (floorLog2 x) (-1022) + 1) := by
        have := (floorLog2_spec x hx).2
        have h2 := pow2_le_pow2 (floorLog2 x + 1) (max (floorLog2 x) (-1022) + 1)
          (by have := le_max_left (floorLog2 x) (-1022); omega)
        linarith
      have a1 := scaled_round_le x _ hx1
      have a2 := scaled_round_ge y _ hy1
      have a3 := pow2_le_pow2 (max (floorLog2 x) (-1022) + 1) (max (floorLog2 y) (-1022))
        (by omega)
      linarith
    · rw [← heq]
      have hu := pow2_pos (max (floorLog2 x) (-1022) - 52)
      have hq : x / pow2 (max (floorLog2 x) (-1022) - 52)
          ≤ y / pow2 (max (floorLog2 x) (-1022) - 52) :=
        div_le_div_of_nonneg_right h hu.le
      have := roundHalfEven_mono _ _ hq
      have h3 : (roundHalfEven (x / pow2 (max (floorLog2 x) (-1022) - 52)) : ℚ)
          ≤ (roundHalfEven (y / pow2 (max (floorLog2 x) (-1022) - 52)) : ℚ) := by
        exact_mod_cast this
      exact mul_le_mul_of_nonneg_right h3 hu.le

/-- The float of an exact result is monotone in that result, in the order of `<=`. -/
theorem ofRat_mono (x y : ℚ) (h : x ≤ y) : F64.le (F64.ofRat x) (F64.ofRat y) = true := by
  have hm := f64Round_mono x y h
  have hp := pow2_pos 1024
  unfold F64.ofRat
  split_ifs <;> simp only [F64.le, decide_eq_true_eq] <;> linarith

theorem ofRat_zero : F64.ofRat 0 = .fin 0 := by
  have hp := pow2_pos 1024
  simp only [F64.ofRat, f64Round_zero]
  rw [if_neg (by linarith), if_neg (by linarith)]

theorem ofRat_nonneg (q : ℚ) (h : 0 ≤ q) :
    F64.ofRat q = .posInf ∨ ∃ r, F64.ofRat q = .fin r ∧ 0 ≤ r := by
  have h0 := f64Round_nonneg q h
  have hp := pow2_pos 1024
  unfold F64.ofRat
  split_ifs with h1 h2
  · exact Or.inl rfl
  · exfalso; linarith
  · exact Or.inr ⟨_, rfl, h0⟩

/-! ## `SpikeLines.Ticks` in float64 -/

theorem foldl_append_single {α β : Type} (f : α → β) :
    ∀ (L : List α) (init : List β),
      L.foldl (fun acc x => acc ++ [f x]) init = init ++ L.map f := by
  intro L
  induction L with
  | nil => intro init; simp
  | cons x xs ih => intro init; simp [ih]

theorem TicksF64_values (s : SpikeLines) (min max : F64) :
    (s.TicksF64 min max).map TickF64.Value
      = (List.range s.Lines.length).map (tickValueF64 s.Lines.length min max) := by
  unfold SpikeLines.TicksF64
  simp only [foldl_append_single, List.nil_append]
  rw [← List.enum_map_fst, List.map_map, List.map_map]
  rfl

theorem f64Round_one : f64Round 1 = 1 := by decide!

theorem f64Round_two63 : f64Round 9223372036854775808 = 9223372036854775808 := by decide!

theorem ofRat_cases (q : ℚ) :
    (F64.ofRat q = .posInf ∧ pow2 1024 ≤ f64Round q) ∨
    (F64.ofRat q = .negInf ∧ f64Round q ≤ -pow2 1024) ∨
    (F64.ofRat q = .fin (f64Round q) ∧ -pow2 1024 < f64Round q ∧ f64Round q < pow2 1024) := by
  unfold F64.ofRat
  split_ifs with h1 h2
  · exact Or.inl ⟨rfl, h1⟩
  · exact Or.inr (Or.inl ⟨rfl, h2⟩)
  · exact Or.inr (Or.inr ⟨rfl, lt_of_not_le h2, lt_of_not_le h1⟩)

/-- The conversion `float64(k)` of a non-negative `int` is finite, non-negative and monotone. -/
theorem ofInt_fin (k : Int) (h0 : 0 ≤ k) (h1 : k ≤ 9223372036854775808) :
    F64.ofInt k = .fin (f64Round (k : ℚ)) ∧ 0 ≤ f64Round (k : ℚ) := by
  have hk0 : (0 : ℚ) ≤ (k : ℚ) := by exact_mod_cast h0
  have hk1 : (k : ℚ) ≤ 9223372036854775808 := by exact_mod_cast h1
  have hr0 := f64Round_nonneg _ hk0
  have hr1 := f64Round_mono _ _ hk1
  rw [f64Round_two63] at hr1
  have hp : (9223372036854775808 : ℚ) < pow2 1024 := by decide!
  have hp0 := pow2_pos 1024
  refine ⟨?_, hr0⟩
  rcases ofRat_cases (k : ℚ) with ⟨_, h2⟩ | ⟨_, h2⟩ | ⟨h2, _⟩
  · exfalso; linarith
  · exfalso; linarith
  · exact h2

theorem le_posInf_ofRat (a : ℚ) : F64.le (F64.ofRat a) .posInf = true := by
  rcases ofRat_cases a with ⟨h1, _⟩ | ⟨h1, _⟩ | ⟨h1, _⟩ <;> rw [h1] <;> rfl

theorem negInf_le_ofRat (a : ℚ) : F64.le .negInf (F64.ofRat a) = true := by
  rcases ofRat_cases a with ⟨h1, _⟩ | ⟨h1, _⟩ | ⟨h1, _⟩ <;> rw [h1] <;> rfl

/-- Adding the floats of two ordered exact results to a finite float keeps the order. -/
theorem add_ofRat_mono (m x y : ℚ) (h : x ≤ y) :
    F64.le (F64.add (.fin m) (F64.ofRat x)) (F64.add (.fin m) (F64.ofRat y)) = true := by
  have hm := f64Round_mono x y h
  have hp := pow2_pos 1024
  rcases ofRat_cases x with ⟨hx, hx1⟩ | ⟨hx, hx1⟩ | ⟨hx, hx1, hx2⟩ <;>
    rcases ofRat_cases y with ⟨hy, hy1⟩ | ⟨hy, hy1⟩ | ⟨hy, hy1, hy2⟩ <;>
    rw [hx, hy]
  · rfl
  · exfalso; linarith
  · exfalso; linarith
  · rfl
  · rfl
  · exact negInf_le_ofRat _
  · exact le_posInf_ofRat _
  · exfalso; linarith
  · exact ofRat_mono _ _ (by linarith)

/-- The row height of `Ticks`, when finite, is not negative. -/
theorem tickStepF64_nonneg (n : Nat) (min max dy : ℚ) (hlt : min < max)
    (hdy : tickStepF64 n (.fin min) (.fin max) = .fin dy) : 0 ≤ dy := by
  simp only [tickStepF64, F64.sub, F64.neg, F64.add] at hdy
  have hd : (0 : ℚ) ≤ max + -min := by linarith
  have hn : (0 : ℚ) ≤ ((n : Int) : ℚ) := by exact_mod_cast (Int.natCast_nonneg n)
  rcases ofRat_nonneg _ hd with h1 | ⟨d, h1, hd0⟩
  · rw [h1] at hdy
    unfold F64.ofInt at hdy
    rcases ofRat_nonneg _ hn with h2 | ⟨r, h2, _⟩
    · rw [h2] at hdy; simp [F64.div] at hdy
    · rw [h2] at hdy
      simp only [F64.div] at hdy
      split_ifs at hdy
  · rw [h1] at hdy
    unfold F64.ofInt at hdy
    rcases ofRat_nonneg _ hn with h2 | ⟨r, h2, hr0⟩
    · rw [h2] at hdy
      simp only [F64.div] at hdy
      exact (F64.fin.inj hdy) ▸ le_refl _
    · rw [h2] at hdy
      simp only [F64.div] at hdy
      split_ifs at hdy with hr hd1 hd2
      rcases ofRat_nonneg (d / r) (div_nonneg hd0 hr0) with h3 | ⟨q, h3, hq0⟩
      · rw [h3] at hdy; exact F64.noConfusion hdy
      · rw [h3] at hdy
        exact (F64.fin.inj hdy) ▸ hq0

/-! ## float64 rounding: error bounds -/

theorem roundHalfEven_err (t : ℚ) : |(roundHalfEven t : ℚ) - t| ≤ 1 / 2 := by
  have h1 : (⌊t⌋ : ℚ) ≤ t := Int.floor_le t
  have h2 : t < (⌊t⌋ : ℚ) + 1 := Int.lt_floor_add_one t
  unfold roundHalfEven
  rw [abs_le]
  split_ifs <;> push_cast <;> constructor <;> linarith

theorem f64Round_err_ulp (x : ℚ) (hx : x ≠ 0) : |f64Round x - x| ≤ f64Ulp x / 2 := by
  have hu := f64Ulp_pos x
  rw [f64Round_eq x hx]
  have h := roundHalfEven_err (x / f64Ulp x)
  have e : (roundHalfEven (x / f64Ulp x) : ℚ) * f64Ulp x - x
      = ((roundHalfEven (x / f64Ulp x) : ℚ) - x / f64Ulp x) * f64Ulp x := by
    field_simp
  rw [e, abs_mul, abs_of_pos hu]
  calc |(roundHalfEven (x / f64Ulp x) : ℚ) - x / f64Ulp x| * f64Ulp x
      ≤ 1 / 2 * f64Ulp x := mul_le_mul_of_nonneg_right h hu.le
    _ = f64Ulp x / 2 := by ring

theorem f64Ulp_le (x : ℚ) (hx : x ≠ 0) : f64Ulp x ≤ pow2 (-52) * |x| ∨ f64Ulp x = pow2 (-1074) := by
  have hpos : 0 < |x| := abs_pos.mpr hx
  unfold f64Ulp
  rcases le_total (floorLog2 |x|) (-1022) with h | h
  · right
    rw [max_eq_right h]
    norm_num
  · left
    rw [max_eq_left h]
    have e : floorLog2 |x| - 52 = -52 + floorLog2 |x| := by ring
    rw [e, pow2_add]
    exact mul_le_mul_of_nonneg_left (floorLog2_spec |x| hpos).1 (pow2_pos _).le

/-- The error of a rounding to binary64: at most `2^-53` of the magnitude, or `2^-1075` in the
subnormal range. -/
theorem f64Round_err (x : ℚ) : |f64Round x - x| ≤ pow2 (-53) * |x| + pow2 (-1075) := by
  by_cases hx : x = 0
  · rw [hx, f64Round_zero]
    simp
    exact (pow2_pos _).le
  · have h1 := f64Round_err_ulp x hx
    have hp1 := pow2_pos (-53)
    have hp2 := pow2_pos (-1075)
    have hax : 0 ≤ |x| := abs_nonneg x
    have e1 : pow2 (-52) = 2 * pow2 (-53) := by
      have := pow2_succ (-53)
      simpa using this
    have e2 : pow2 (-1074) = 2 * pow2 (-1075) := by
      have := pow2_succ (-1075)
      simpa using this
    rcases f64Ulp_le x hx with h2 | h2
    · have : f64Ulp x / 2 ≤ pow2 (-53) * |x| := by
        rw [e1] at h2
        linarith
      have h3 : 0 ≤ pow2 (-53) * |x| := mul_nonneg hp1.le hax
      linarith
    · have : f64Ulp x / 2 = pow2 (-1075) := by rw [h2, e2]; ring
      have h3 : 0 ≤ pow2 (-53) * |x| := mul_nonneg hp1.le hax
      linarith

theorem pow2_lt_pow2 (a b : Int) (h : a < b) : pow2 a < pow2 b := by
  have h1 : pow2 (a + 1) ≤ pow2 b := pow2_le_pow2 _ _ (by omega)
  have h2 := pow2_succ a
  have h3 := pow2_pos a
  linarith

/-- A result of magnitude at most `2^1000` does not overflow. -/
theorem ofRat_fin (x : ℚ) (h : |x| ≤ pow2 1000) : F64.ofRat x = .fin (f64Round x) := by
  have he := f64Round_err x
  have hp1 : pow2 (-53) ≤ 1 := by
    have := pow2_le_pow2 (-53) 0 (by norm_num); rwa [pow2_zero] at this
  have hp2 : pow2 (-1075) ≤ 1 := by
    have := pow2_le_pow2 (-1075) 0 (by norm_num); rwa [pow2_zero] at this
  have hp3 : 1 ≤ pow2 1000 := by
    have := pow2_le_pow2 0 1000 (by norm_num); rwa [pow2_zero] at this
  have hp4 : pow2 1002 = 4 * pow2 1000 := by
    have a := pow2_succ 1000
    have b := pow2_succ 1001
    norm_num at a b
    rw [b, a]; ring
  have hp5 : pow2 1002 < pow2 1024 := pow2_lt_pow2 _ _ (by norm_num)
  have hax : 0 ≤ |x| := abs_nonneg x
  have hb : pow2 (-53) * |x| ≤ |x| := by
    calc pow2 (-53) * |x| ≤ 1 * |x| := mul_le_mul_of_nonneg_right hp1 hax
      _ = |x| := one_mul _
  have hr : |f64Round x| ≤ 3 * pow2 1000 := by
    have : |f64Round x| ≤ |f64Round x - x| + |x| := by
      have := abs_add (f64Round x - x) x
      simpa using this
    linarith
  rw [abs_le] at hr
  rcases ofRat_cases x with ⟨_, h2⟩ | ⟨_, h2⟩ | ⟨h2, _⟩
  · exfalso; linarith
  · exfalso; linarith
  · exact h2

/-- Natural numbers up to `2^53` are binary64 numbers. -/
theorem f64Round_natCast (m : Nat) (hm : m ≤ 9007199254740992) : f64Round (m : ℚ) = (m : ℚ) := by
  rcases Nat.eq_zero_or_pos m with h0 | hpos
  · rw [h0]; simp [f64Round_zero]
  have hmq : (0 : ℚ) < (m : ℚ) := by exact_mod_cast hpos
  have hm1 : (1 : ℚ) ≤ (m : ℚ) := by exact_mod_cast hpos
  have hm2 : (m : ℚ) ≤ pow2 53 := by rw [pow2_53]; exact_mod_cast hm
  obtain ⟨s1, s2⟩ := floorLog2_spec (m : ℚ) hmq
  have he0 : 0 ≤ floorLog2 (m : ℚ) := by
    by_contra hcon
    have : pow2 (floorLog2 (m : ℚ) + 1) ≤ pow2 0 := pow2_le_pow2 _ _ (by omega)
    rw [pow2_zero] at this
    linarith
  have he53 : floorLog2 (m : ℚ) ≤ 53 := by
    by_contra hcon
    have : pow2 53 < pow2 (floorLog2 (m : ℚ)) := pow2_lt_pow2 _ _ (by omega)
    linarith
  rw [f64Round_eq _ hmq.ne.symm]
  unfold f64Ulp
  rw [abs_of_pos hmq, max_eq_left (by omega)]
  have hu := pow2_pos (floorLog2 (m : ℚ) - 52)
  rcases lt_or_eq_of_le he53 with hlt | heq
  · -- the unit is `1 / 2^d`
    obtain ⟨d, hd⟩ : ∃ d : Nat, (d : Int) = 52 - floorLog2 (m : ℚ) :=
      ⟨(52 - floorLog2 (m : ℚ)).toNat, Int.toNat_of_nonneg (by omega)⟩
    have hinv : pow2 (floorLog2 (m : ℚ) - 52) * pow2 (d : Int) = 1 := by
      rw [← pow2_add, hd]
      have : floorLog2 (m : ℚ) - 52 + (52 - floorLog2 (m : ℚ)) = 0 := by ring
      rw [this, pow2_zero]
    have hq : (m : ℚ) / pow2 (floorLog2 (m : ℚ) - 52) = (((m * 2 ^ d : Nat) : Int) : ℚ) := by
      rw [div_eq_iff hu.ne.symm]
      push_cast
      have h2d : (2 : ℚ) ^ d = pow2 (d : Int) := by
        rw [pow2_natCast]; push_cast; rfl
      rw [h2d, mul_assoc, mul_comm (pow2 (d : Int)), hinv, mul_one]
    rw [hq, roundHalfEven_intCast, ← hq]
    field_simp
  · have hm53 : (m : ℚ) = pow2 53 := by
      rw [heq] at s1
      linarith
    rw [heq, hm53]
    have : pow2 53 / pow2 (53 - 52) = ((4503599627370496 : Int) : ℚ) := by
      simp [pow2]; norm_num
    rw [this, roundHalfEven_intCast]
    simp [pow2]; norm_num

theorem add_fin (x y : ℚ) : F64.add (.fin x) (.fin y) = F64.ofRat (x + y) := rfl

theorem sub_fin (x y : ℚ) : F64.sub (.fin x) (.fin y) = F64.ofRat (x - y) := by
  show F64.ofRat (x + -y) = _
  rw [← sub_eq_add_neg]

theorem mul_fin (x y : ℚ) : F64.mul (.fin x) (.fin y) = F64.ofRat (x * y) := rfl

theorem div_fin (x y : ℚ) (hy : y ≠ 0) : F64.div (.fin x) (.fin y) = F64.ofRat (x / y) := by
  simp [F64.div, hy]

/-! ## Error analysis of the row coordinates

The lemmas of this section are about rationals `ε`, `η` (the relative error of a rounding and
its absolute error in the subnormal range), the exact row height `dys` and values that are
within a rounding of each other. -/

theorem err_step_dy (ε η h n dys D Dn dy : ℚ) (hε0 : 0 < ε) (hε1 : ε ≤ 1 / 1024)
    (hη0 : 0 ≤ η) (hη : η * 1024 ≤ ε * dys) (hn : 1 ≤ n) (hdys : dys * n = h)
    (hdys0 : 0 < dys) (hD : |D - h| ≤ ε * h + η) (hDn : Dn * n = D)
    (hdy : |dy - Dn| ≤ ε * |Dn| + η) :
    |dy - dys| ≤ 4 * ε * dys := by
  have hn0 : 0 < n := by linarith
  have h1 : |Dn - dys| ≤ ε * dys + η := by
    have e : (Dn - dys) * n = D - h := by rw [sub_mul, hDn, hdys]
    have h2 : |Dn - dys| * n ≤ (ε * dys + η) * n := by
      have : |Dn - dys| * n = |D - h| := by
        rw [← e, abs_mul, abs_of_pos hn0]
      rw [this]
      have h3 : ε * h + η ≤ (ε * dys + η) * n := by
        rw [← hdys]
        nlinarith
      linarith
    exact le_of_mul_le_mul_right h2 hn0
  have h4 : |Dn| ≤ dys + (ε * dys + η) := by
    have := abs_add (Dn - dys) dys
    rw [sub_add_cancel, abs_of_pos hdys0] at this
    linarith
  have h5 : ε * |Dn| ≤ ε * (dys + (ε * dys + η)) := mul_le_mul_of_nonneg_left h4 hε0.le
  have h6 : |dy - dys| ≤ |dy - Dn| + |Dn - dys| := by
    have := abs_add (dy - Dn) (Dn - dys)
    rwa [sub_add_sub_cancel] at this
  have h7 : ε * (ε * dys) ≤ 1 / 1024 * (ε * dys) :=
    mul_le_mul_of_nonneg_right hε1 (mul_nonneg hε0.le hdys0.le)
  have h8 : ε * η ≤ 1 / 1024 * η := mul_le_mul_of_nonneg_right hε1 hη0
  nlinarith

theorem err_step_mul (ε η h n dys dy m p : ℚ) (hε0 : 0 < ε) (hε1 : ε ≤ 1 / 1024)
    (hη0 : 0 ≤ η) (hη : η * 1024 ≤ ε * dys) (hn : 1 ≤ n) (hdys : dys * n = h)
    (hdys0 : 0 < dys) (hdy : |dy - dys| ≤ 4 * ε * dys) (hm0 : 0 ≤ m) (hmn : m ≤ n)
    (hp : |p - dy * m| ≤ ε * |dy * m| + η) :
    |p - dys * m| ≤ 7 * ε * h ∧ 0 ≤ dy ∧ |dy * m| ≤ 2 * h := by
  have hn0 : 0 < n := by linarith
  have hh : 0 < h := by rw [← hdys]; positivity
  have hdysh : dys ≤ h := by rw [← hdys]; nlinarith
  obtain ⟨d1, d2⟩ := abs_le.mp hdy
  have hdy0 : 0 ≤ dy := by nlinarith
  have hdy2 : dy ≤ 2 * dys := by nlinarith
  have hdym : dy * m ≤ 2 * h := by
    calc dy * m ≤ (2 * dys) * n := mul_le_mul hdy2 hmn hm0 (by linarith)
      _ = 2 * h := by rw [mul_assoc, hdys]
  have hdym0 : 0 ≤ dy * m := mul_nonneg hdy0 hm0
  have habs : |dy * m| = dy * m := abs_of_nonneg hdym0
  have h1 : |dy * m - dys * m| ≤ 4 * ε * h := by
    have e : dy * m - dys * m = (dy - dys) * m := by ring
    rw [e, abs_mul, abs_of_nonneg hm0]
    calc |dy - dys| * m ≤ (4 * ε * dys) * n :=
          mul_le_mul hdy hmn hm0 (by positivity)
      _ = 4 * ε * h := by rw [mul_assoc, hdys]
  have h2 : |p - dys * m| ≤ |p - dy * m| + |dy * m - dys * m| := by
    have := abs_add (p - dy * m) (dy * m - dys * m)
    rwa [sub_add_sub_cancel] at this
  have h3 : ε * (dy * m) ≤ ε * (2 * h) := mul_le_mul_of_nonneg_left hdym hε0.le
  have h4 : η ≤ ε * h := by nlinarith
  refine ⟨?_, hdy0, by rw [habs]; exact hdym⟩
  rw [habs] at hp
  nlinarith

/-- The error of a baseline: `y` is within a rounding of `a + p`, and `p` within a rounding of
`dy * m`. -/
theorem err_step_baseline (ε η h n dys dy m p y a S : ℚ) (hε0 : 0 < ε) (hε1 : ε ≤ 1 / 1024)
    (hη0 : 0 ≤ η) (hη : η * 1024 ≤ ε * dys) (hn : 1 ≤ n) (hdys : dys * n = h)
    (hdys0 : 0 < dys) (hdy : |dy - dys| ≤ 4 * ε * dys) (hm0 : 0 ≤ m) (hmn : m ≤ n)
    (hS : h ≤ S) (haS : |a| ≤ S)
    (hp : |p - dy * m| ≤ ε * |dy * m| + η)
    (hy : |y - (a + p)| ≤ ε * |a + p| + η) :
    |y - (a + dys * m)| ≤ 12 * ε * S ∧ |p| ≤ 3 * h ∧ |a + p| ≤ 4 * S := by
  obtain ⟨h1, hdy0, h2⟩ := err_step_mul ε η h n dys dy m p hε0 hε1 hη0 hη hn hdys hdys0 hdy
    hm0 hmn hp
  have hn0 : 0 < n := by linarith
  have hh : 0 < h := by rw [← hdys]; positivity
  have hdysh : dys ≤ h := by rw [← hdys]; nlinarith
  have hdm : dys * m ≤ h := by
    calc dys * m ≤ dys * n := mul_le_mul_of_nonneg_left hmn hdys0.le
      _ = h := hdys
  have hdm0 : 0 ≤ dys * m := mul_nonneg hdys0.le hm0
  have hεh : ε * h ≤ 1 / 1024 * h := mul_le_mul_of_nonneg_right hε1 hh.le
  have hp3 : |p| ≤ 3 * h := by
    have := abs_add (p - dys * m) (dys * m)
    rw [sub_add_cancel, abs_of_nonneg hdm0] at this
    linarith
  have hap : |a + p| ≤ 4 * S := by
    have := abs_add a p
    linarith
  have h3 : ε * |a + p| ≤ ε * (4 * S) := mul_le_mul_of_nonneg_left hap hε0.le
  have h4 : |y - (a + dys * m)| ≤ |y - (a + p)| + |p - dys * m| := by
    have := abs_add (y - (a + p)) (p - dys * m)
    have e : y - (a + p) + (p - dys * m) = y - (a + dys * m) := by ring
    rwa [e] at this
  have h5 : η ≤ ε * h := by nlinarith
  have h6 : ε * h ≤ ε * S := mul_le_mul_of_nonneg_left hS hε0.le
  refine ⟨?_, hp3, hap⟩
  linarith

theorem err_facts (ε η h n dys S : ℚ) (hε0 : 0 < ε) (hε1 : ε ≤ 1 / 1024)
    (hη : η * 1024 ≤ ε * dys) (hn : 1 ≤ n) (hdys : dys * n = h) (hdys0 : 0 < dys)
    (hS : h ≤ S) :
    0 < h ∧ dys ≤ h ∧ η ≤ ε * h ∧ ε * h ≤ ε * S ∧ ε * S ≤ 1 / 1024 * S ∧ ε * dys ≤ ε * S := by
  have hh : 0 < h := by rw [← hdys]; exact mul_pos hdys0 (by linarith)
  have hdysh : dys ≤ h := by
    rw [← hdys]
    calc dys = dys * 1 := (mul_one _).symm
      _ ≤ dys * n := mul_le_mul_of_nonneg_left hn hdys0.le
  have h1 : ε * dys ≤ ε * h := mul_le_mul_of_nonneg_left hdysh hε0.le
  have h2 : ε * h ≤ ε * S := mul_le_mul_of_nonneg_left hS hε0.le
  have h3 : ε * S ≤ 1 / 1024 * S := mul_le_mul_of_nonneg_right hε1 (by linarith)
  have h4 : 0 ≤ ε * h := mul_nonneg hε0.le hh.le
  exact ⟨hh, hdysh, by linarith, h2, h3, by linarith⟩

/-- The error of the top of an extension bar. -/
theorem err_step_top (ε η h n dys dy K q yi ys t1 r t S : ℚ) (hε0 : 0 < ε) (hε1 : ε ≤ 1 / 1024)
    (hη0 : 0 ≤ η) (hη : η * 1024 ≤ ε * dys) (hn : 1 ≤ n) (hdys : dys * n = h)
    (hdys0 : 0 < dys) (hdy : |dy - dys| ≤ 4 * ε * dys) (hK0 : 0 ≤ K) (hKn : K ≤ n)
    (hS : h ≤ S) (hys : |ys| ≤ 2 * S) (hyi : |yi - ys| ≤ 12 * ε * S)
    (hq : |q - dy * K| ≤ ε * |dy * K| + η)
    (ht1 : |t1 - (yi + q)| ≤ ε * |yi + q| + η)
    (hr : |r - dy / 4| ≤ ε * |dy / 4| + η)
    (ht : |t - (t1 - r)| ≤ ε * |t1 - r| + η) :
    |t - (ys + dys * K - dys / 4)| ≤ 40 * ε * S ∧ |dy * K| ≤ 2 * h ∧ |yi + q| ≤ 6 * S ∧
      |dy / 4| ≤ S ∧ |t1 - r| ≤ 9 * S := by
  obtain ⟨h1, hdy0, h2⟩ := err_step_mul ε η h n dys dy K q hε0 hε1 hη0 hη hn hdys hdys0 hdy
    hK0 hKn hq
  obtain ⟨hh, hdysh, hη2, hεh, hεS, hεd⟩ := err_facts ε η h n dys S hε0 hε1 hη hn hdys hdys0 hS
  have hdK : dys * K ≤ h := by
    calc dys * K ≤ dys * n := mul_le_mul_of_nonneg_left hKn hdys0.le
      _ = h := hdys
  have hdK0 : 0 ≤ dys * K := mul_nonneg hdys0.le hK0
  obtain ⟨d1, d2⟩ := abs_le.mp hdy
  have hdy2 : dy ≤ 2 * dys := by
    have : 4 * ε * dys ≤ dys := by
      have := mul_le_mul_of_nonneg_right hε1 hdys0.le
      linarith only [this, hdys0]
    linarith only [this, d2]
  -- magnitudes
  have hq3 : |q| ≤ 3 * S := by
    have := abs_add (q - dys * K) (dys * K)
    rw [sub_add_cancel, abs_of_nonneg hdK0] at this
    linarith only [this, h1, hdK, hεh, hεS, hS, hh]
  have hyi3 : |yi| ≤ 3 * S := by
    have := abs_add (yi - ys) ys
    rw [sub_add_cancel] at this
    linarith only [this, hyi, hys, hεS, hS, hh]
  have hyq : |yi + q| ≤ 6 * S := by
    have := abs_add yi q
    linarith only [this, hq3, hyi3]
  have e1 : ε * |yi + q| ≤ ε * (6 * S) := mul_le_mul_of_nonneg_left hyq hε0.le
  have ht1m : |t1| ≤ 7 * S := by
    have := abs_add (t1 - (yi + q)) (yi + q)
    rw [sub_add_cancel] at this
    linarith only [this, ht1, e1, hyq, hη2, hεh, hεS, hS, hh]
  have hdy4 : |dy / 4| ≤ S := by
    rw [abs_of_nonneg (by linarith only [hdy0])]
    linarith only [hdy2, hdysh, hS, hh]
  have e2 : ε * |dy / 4| ≤ ε * S := mul_le_mul_of_nonneg_left hdy4 hε0.le
  have hrm : |r| ≤ 2 * S := by
    have := abs_add (r - dy / 4) (dy / 4)
    rw [sub_add_cancel] at this
    linarith only [this, hr, e2, hdy4, hη2, hεh, hεS, hS, hh]
  have ht1r : |t1 - r| ≤ 9 * S := by
    have := abs_sub t1 r
    linarith only [this, ht1m, hrm]
  have e3 : ε * |t1 - r| ≤ ε * (9 * S) := mul_le_mul_of_nonneg_left ht1r hε0.le
  -- the four rounding errors and the three inherited ones
  have hr2 : |dy / 4 - dys / 4| ≤ ε * S := by
    have e : dy / 4 - dys / 4 = (dy - dys) / 4 := by ring
    rw [e, abs_div]
    have h4 : |(4 : ℚ)| = 4 := by norm_num
    rw [h4]
    linarith only [hdy, hεd]
  have key : t - (ys + dys * K - dys / 4)
      = (t - (t1 - r)) + (t1 - (yi + q)) + (yi - ys) + (q - dys * K)
        - (r - dy / 4) - (dy / 4 - dys / 4) := by ring
  refine ⟨?_, h2, hyq, hdy4, ht1r⟩
  rw [key]
  have a1 := abs_sub ((t - (t1 - r)) + (t1 - (yi + q)) + (yi - ys) + (q - dys * K)
    - (r - dy / 4)) (dy / 4 - dys / 4)
  have a2 := abs_sub ((t - (t1 - r)) + (t1 - (yi + q)) + (yi - ys) + (q - dys * K))
    (r - dy / 4)
  have a3 := abs_add ((t - (t1 - r)) + (t1 - (yi + q)) + (yi - ys)) (q - dys * K)
  have a4 := abs_add ((t - (t1 - r)) + (t1 - (yi + q))) (yi - ys)
  have a5 := abs_add (t - (t1 - r)) (t1 - (yi + q))
  have hεS0 : 0 ≤ ε * S := mul_nonneg hε0.le (by linarith only [hS, hh])
  linarith only [a1, a2, a3, a4, a5, ht, ht1, hyi, h1, hr, hr2, e1, e2, e3, hη2, hεh, hεS, hS,
    hh, hεS0]

/-! ## The row coordinates in float64 on a well-conditioned extent -/

theorem pow2_mul_neg (a : Int) : pow2 a * pow2 (-a) = 1 := by
  rw [mul_comm]; exact pow2_neg_mul a

theorem wc_facts (n : Nat) (a b : ℚ) (hn : 1 ≤ n) (hw : WellConditioned n a b) :
    0 < pow2 (-53) ∧ pow2 (-53) ≤ 1 / 1024 ∧ 0 ≤ pow2 (-1075) ∧
    pow2 (-1075) * 1024 ≤ pow2 (-53) * ((b - a) / (n : ℚ)) ∧
    (b - a) / (n : ℚ) * (n : ℚ) = b - a ∧ 0 < (b - a) / (n : ℚ) ∧
    b - a ≤ |a| + |b| ∧ n ≤ 8796093022208 ∧ |a| + |b| ≤ pow2 900 ∧
    pow2 (-53) * (|a| + |b|) * 1024 ≤ (b - a) / (n : ℚ) := by
  obtain ⟨w1, w2, w3⟩ := hw
  have hnq : (1 : ℚ) ≤ (n : ℚ) := by exact_mod_cast hn
  have hn0 : (0 : ℚ) < (n : ℚ) := by linarith
  have hp900 := pow2_pos (-900)
  have hh : 0 < b - a := by linarith
  have hS : b - a ≤ |a| + |b| := by
    have h1 := le_abs_self b
    have h2 := neg_abs_le a
    linarith
  have hε := pow2_pos (-53)
  have hε1 : pow2 (-53) ≤ 1 / 1024 := by
    have h1 := pow2_le_pow2 (-53) (-10) (by norm_num)
    have h2 : pow2 (-10) = 1 / 1024 := by simp [pow2]
    rwa [h2] at h1
  have hε53 : pow2 (-53) * pow2 53 = 1 := by
    have := pow2_neg_mul 53
    simpa using this
  have hdys : (b - a) / (n : ℚ) * (n : ℚ) = b - a := div_mul_cancel₀ _ hn0.ne.symm
  have hdys0 : 0 < (b - a) / (n : ℚ) := div_pos hh hn0
  -- the number of rows
  have hn43 : (n : ℚ) * 1024 ≤ pow2 53 := by
    have h1 : (n : ℚ) * (b - a) * 1024 ≤ (b - a) * pow2 53 := by
      have : (n : ℚ) * (b - a) * 1024 ≤ (n : ℚ) * (|a| + |b|) * 1024 := by
        have := mul_le_mul_of_nonneg_left hS hn0.le
        linarith
      linarith
    have h2 : (b - a) * ((n : ℚ) * 1024) ≤ (b - a) * pow2 53 := by linarith
    exact le_of_mul_le_mul_left h2 hh
  have hn43b : n ≤ 8796093022208 := by
    rw [pow2_53] at hn43
    have : (n : ℚ) ≤ 8796093022208 := by
      push_cast at hn43
      linarith
    exact_mod_cast this
  -- the conditioning, divided by the number of rows
  have hc : pow2 (-53) * (|a| + |b|) * 1024 ≤ (b - a) / (n : ℚ) := by
    rw [le_div_iff₀ hn0]
    have h1 := mul_le_mul_of_nonneg_left w1 hε.le
    have e1 : pow2 (-53) * ((b - a) * pow2 53) = b - a := by
      rw [mul_comm (b - a), ← mul_assoc, hε53, one_mul]
    rw [e1] at h1
    linarith
  -- the subnormal error against the row height
  have hη : pow2 (-1075) * 1024 ≤ pow2 (-53) * ((b - a) / (n : ℚ)) := by
    have e : pow2 (-1075) = pow2 (-53) * pow2 (-1022) := by
      rw [← pow2_add]; norm_num
    rw [e, mul_assoc]
    apply mul_le_mul_of_nonneg_left _ hε.le
    rw [le_div_iff₀ hn0]
    have h1 : pow2 (-1022) * 1024 * (n : ℚ) ≤ pow2 (-1022) * pow2 53 := by
      rw [mul_assoc]
      apply mul_le_mul_of_nonneg_left _ (pow2_pos _).le
      linarith
    have h2 : pow2 (-1022) * pow2 53 = pow2 (-969) := by
      rw [← pow2_add]; norm_num
    have h3 := pow2_le_pow2 (-969) (-900) (by norm_num)
    linarith
  exact ⟨hε, hε1, (pow2_pos _).le, hη, hdys, hdys0, hS, hn43b, w3, hc⟩

/-- A float64 operation whose exact result has a magnitude of at most `2^1000` returns a
finite float within a rounding of that result. -/
theorem op_fin (x : ℚ) (hx : |x| ≤ pow2 1000) :
    ∃ r, F64.ofRat x = .fin r ∧ |r - x| ≤ pow2 (-53) * |x| + pow2 (-1075) :=
  ⟨f64Round x, ofRat_fin x hx, f64Round_err x⟩

theorem pow2_900_le : 16 * pow2 900 ≤ pow2 1000 := by
  have e : pow2 904 = 16 * pow2 900 := by
    have : (904 : Int) = 4 + 900 := by norm_num
    rw [this, pow2_add]
    have : pow2 4 = 16 := by simp [pow2]
    rw [this]
  rw [← e]
  exact pow2_le_pow2 _ _ (by norm_num)

theorem ofInt_natCast (m : Nat) (hm : m ≤ 8796093022208) :
    F64.ofInt (m : Int) = .fin (m : ℚ) := by
  unfold F64.ofInt
  have h1 : ((m : Int) : ℚ) = (m : ℚ) := by norm_cast
  rw [h1]
  have h2 : |(m : ℚ)| ≤ pow2 1000 := by
    rw [abs_of_nonneg (by positivity)]
    have h3 : (m : ℚ) ≤ 8796093022208 := by exact_mod_cast hm
    have h4 : (8796093022208 : ℚ) = pow2 43 := by simp [pow2]
    have h5 := pow2_le_pow2 43 1000 (by norm_num)
    linarith
  rw [ofRat_fin _ h2, f64Round_natCast m (by omega)]

/-- The row height on a well-conditioned extent: finite, within `4 * 2^-53` of `(b - a)/n`. -/
theorem tickStep_wc (n : Nat) (a b : ℚ) (hn : 1 ≤ n) (hw : WellConditioned n a b) :
    ∃ dy, tickStepF64 n (.fin a) (.fin b) = .fin dy ∧
      |dy - (b - a) / (n : ℚ)| ≤ 4 * pow2 (-53) * ((b - a) / (n : ℚ)) := by
  obtain ⟨hε0, hε1, hη0, hη, hdys, hdys0, hS, hn43, hS9, hc⟩ := wc_facts n a b hn hw
  obtain ⟨hh, hdysh, hη2, hεh, hεS, hεd⟩ := err_facts _ _ _ _ _ _ hε0 hε1 hη
    (by exact_mod_cast hn) hdys hdys0 hS
  have hnq : (1 : ℚ) ≤ (n : ℚ) := by exact_mod_cast hn
  have hn0 : (0 : ℚ) < (n : ℚ) := by linarith
  have h16 := pow2_900_le
  -- the difference
  have hx1 : |b + -a| ≤ pow2 1000 := by
    have : b + -a = b - a := by ring
    rw [this, abs_of_pos hh]
    linarith
  obtain ⟨D, hD, hDe⟩ := op_fin (b + -a) hx1
  have hba : b + -a = b - a := by ring
  rw [hba, abs_of_pos hh] at hDe
  -- the quotient
  have hDabs : |D| ≤ 2 * (b - a) := by
    have := abs_add (D - (b - a)) (b - a)
    rw [sub_add_cancel, abs_of_pos hh] at this
    linarith
  have hx2 : |D / (n : ℚ)| ≤ pow2 1000 := by
    rw [abs_div, abs_of_pos hn0]
    have : |D| / (n : ℚ) ≤ |D| := div_le_self (abs_nonneg _) hnq
    linarith
  obtain ⟨dy, hdy, hdye⟩ := op_fin (D / (n : ℚ)) hx2
  refine ⟨dy, ?_, ?_⟩
  · unfold tickStepF64
    show F64.div (F64.ofRat (b + -a)) (F64.ofInt (n : Int)) = .fin dy
    rw [hD, ofInt_natCast n hn43]
    show (if (n : ℚ) = 0 then _ else F64.ofRat (D / (n : ℚ))) = .fin dy
    rw [if_neg hn0.ne.symm, hdy]
  · exact err_step_dy _ _ (b - a) (n : ℚ) _ D (D / (n : ℚ)) dy hε0 hε1 hη0 hη hnq hdys hdys0
      hDe (div_mul_cancel₀ _ hn0.ne.symm) hdye

/-- A baseline on a well-conditioned extent: finite, within `12 * 2^-53 * (|a| + |b|)` of
`a + (b - a)/n * (n - j - 1)`. -/
theorem tickValue_wc (n : Nat) (a b : ℚ) (j : Nat) (hj : j < n) (hw : WellConditioned n a b) :
    ∃ y, tickValueF64 n (.fin a) (.fin b) j = .fin y ∧
      |y - (a + (b - a) / (n : ℚ) * ((n : ℚ) - (j : ℚ) - 1))|
        ≤ 12 * pow2 (-53) * (|a| + |b|) := by
  have hn : 1 ≤ n := by omega
  obtain ⟨hε0, hε1, hη0, hη, hdys, hdys0, hS, hn43, hS9, hc⟩ := wc_facts n a b hn hw
  obtain ⟨hh, hdysh, hη2, hεh, hεS, hεd⟩ := err_facts _ _ _ _ _ _ hε0 hε1 hη
    (by exact_mod_cast hn) hdys hdys0 hS
  obtain ⟨dy, hdy, hdye⟩ := tickStep_wc n a b hn hw
  have hnq : (1 : ℚ) ≤ (n : ℚ) := by exact_mod_cast hn
  have h16 := pow2_900_le
  have haS : |a| ≤ |a| + |b| := by linarith [abs_nonneg b]
  have hm : ((n : Int) - (j : Int) - 1) = ((n - j - 1 : Nat) : Int) := by omega
  have hmq : ((n - j - 1 : Nat) : ℚ) = (n : ℚ) - (j : ℚ) - 1 := by
    have : n - j - 1 = n - (j + 1) := by omega
    rw [this, Nat.cast_sub (by omega)]
    push_cast; ring
  have hm0 : (0 : ℚ) ≤ ((n - j - 1 : Nat) : ℚ) := Nat.cast_nonneg _
  have hmn : ((n - j - 1 : Nat) : ℚ) ≤ (n : ℚ) := by exact_mod_cast (by omega : n - j - 1 ≤ n)
  -- the product
  obtain ⟨d1, d2⟩ := abs_le.mp hdye
  have hdy0 : 0 ≤ dy := by
    have := mul_le_mul_of_nonneg_right hε1 hdys0.le
    linarith
  have hdy2 : dy ≤ 2 * ((b - a) / (n : ℚ)) := by
    have := mul_le_mul_of_nonneg_right hε1 hdys0.le
    linarith
  have hprod : dy * ((n - j - 1 : Nat) : ℚ) ≤ 2 * (b - a) := by
    calc dy * ((n - j - 1 : Nat) : ℚ) ≤ (2 * ((b - a) / (n : ℚ))) * (n : ℚ) :=
          mul_le_mul hdy2 hmn hm0 (by linarith)
      _ = 2 * (b - a) := by rw [mul_assoc, hdys]
  have hx1 : |dy * ((n - j - 1 : Nat) : ℚ)| ≤ pow2 1000 := by
    rw [abs_of_nonneg (mul_nonneg hdy0 hm0)]
    linarith
  obtain ⟨p, hp, hpe⟩ := op_fin _ hx1
  -- the sum
  obtain ⟨_, hp3, _⟩ := err_step_baseline _ _ (b - a) (n : ℚ) _ dy _ p (f64Round (a + p)) a
    (|a| + |b|) hε0 hε1 hη0 hη hnq hdys hdys0 hdye hm0 hmn hS haS hpe (f64Round_err _)
  have hx2 : |a + p| ≤ pow2 1000 := by
    have := abs_add a p
    linarith
  obtain ⟨y, hy, hye⟩ := op_fin _ hx2
  refine ⟨y, ?_, ?_⟩
  · unfold tickValueF64
    rw [hdy, hm, ofInt_natCast _ (by omega)]
    show F64.add (.fin a) (F64.ofRat (dy * ((n - j - 1 : Nat) : ℚ))) = .fin y
    rw [hp]
    exact hy
  · rw [← hmq]
    exact (err_step_baseline _ _ (b - a) (n : ℚ) _ dy _ p y a (|a| + |b|) hε0 hε1 hη0 hη hnq
      hdys hdys0 hdye hm0 hmn hS haS hpe hye).1

/-- The geometry of an extension from the error bounds: `y j` are the computed baselines,
`t` the computed top of the bars of row `i`, `dyf` the computed row height, `e` the unit of
the error bounds, at most `1/1024` of the exact row height `dys`. -/
theorem geometry_of_errors (a b dys e : ℚ) (n i k : Nat) (y : Nat → ℚ) (t dyf : ℚ)
    (hdys0 : 0 < dys) (hdysn : dys * (n : ℚ) = b - a) (hc : e * 1024 ≤ dys)
    (hi : i < n) (hk1 : 1 ≤ k) (hki : k ≤ i)
    (hy : ∀ j, j < n → |y j - (a + dys * ((n : ℚ) - (j : ℚ) - 1))| ≤ 12 * e)
    (hyl : y (n - 1) = a)
    (ht : |t - (a + dys * ((n : ℚ) - (i : ℚ) - 1) + dys * ((k : ℚ) + 1) - dys / 4)| ≤ 40 * e)
    (hdy : |dyf - dys| ≤ 4 * e) :
    y (i - k) < t ∧
    (k < i → t < y (i - k - 1) ∧ |t - (y (i - k - 1) - dyf / 4)| ≤ 64 * e) ∧
    (k = i → |t - (b - dyf / 4)| ≤ 64 * e) ∧
    (∀ j, j < n → ((y i < y j ∧ y j < t) ↔ (i - k ≤ j ∧ j < i))) ∧
    a ≤ y i ∧ t < b := by
  obtain ⟨t1, t2⟩ := abs_le.mp ht
  obtain ⟨f1, f2⟩ := abs_le.mp hdy
  have hkq : (k : ℚ) ≤ (i : ℚ) := by exact_mod_cast hki
  have hiq : (i : ℚ) + 1 ≤ (n : ℚ) := by exact_mod_cast hi
  have hdk : dys * (k : ℚ) ≤ dys * (i : ℚ) := mul_le_mul_of_nonneg_left hkq hdys0.le
  have hdi : dys * ((i : ℚ) + 1) ≤ dys * (n : ℚ) := mul_le_mul_of_nonneg_left hiq hdys0.le
  have hyi := abs_le.mp (hy i hi)
  refine ⟨?_, ?_, ?_, ?_, ?_, ?_⟩
  · have h1 := abs_le.mp (hy (i - k) (by omega))
    rw [Nat.cast_sub hki] at h1
    linarith only [h1.2, t1, hc, hdys0]
  · intro hlt
    have h1 := abs_le.mp (hy (i - k - 1) (by omega))
    have e1 : ((i - k - 1 : Nat) : ℚ) = (i : ℚ) - (k : ℚ) - 1 := by
      have : i - k - 1 = i - (k + 1) := by omega
      rw [this, Nat.cast_sub (by omega)]
      push_cast; ring
    rw [e1] at h1
    constructor
    · linarith only [h1.1, t2, hc, hdys0]
    · rw [abs_le]
      constructor
      · linarith only [h1.1, h1.2, t1, t2, f1, f2, hc, hdys0]
      · linarith only [h1.1, h1.2, t1, t2, f1, f2, hc, hdys0]
  · intro heq
    have hkn : (k : ℚ) = (i : ℚ) := by exact_mod_cast heq
    rw [abs_le]
    have hb : b = a + dys * (n : ℚ) := by linarith only [hdysn]
    rw [hkn] at t1 t2
    constructor
    · linarith only [t1, t2, f1, f2, hb]
    · linarith only [t1, t2, f1, f2, hb]
  · intro j hj
    have h1 := abs_le.mp (hy j hj)
    rcases lt_trichotomy j i with hji | hji | hji
    · have hjq : (j : ℚ) + 1 ≤ (i : ℚ) := by exact_mod_cast hji
      have hd1 : dys * ((j : ℚ) + 1) ≤ dys * (i : ℚ) :=
        mul_le_mul_of_nonneg_left hjq hdys0.le
      have hyiyj : y i < y j := by
        linarith only [h1.1, hyi.2, hd1, hc, hdys0]
      by_cases hjk : i - k ≤ j
      · have hjkq : (i : ℚ) ≤ (j : ℚ) + (k : ℚ) := by exact_mod_cast (by omega : i ≤ j + k)
        have hd2 : dys * (i : ℚ) ≤ dys * ((j : ℚ) + (k : ℚ)) :=
          mul_le_mul_of_nonneg_left hjkq hdys0.le
        have : y j < t := by
          linarith only [h1.2, t1, hd2, hc, hdys0]
        exact ⟨fun _ => ⟨hjk, hji⟩, fun _ => ⟨hyiyj, this⟩⟩
      · have hjkq : (j : ℚ) + (k : ℚ) + 1 ≤ (i : ℚ) := by
          exact_mod_cast (by omega : j + k + 1 ≤ i)
        have hd2 : dys * ((j : ℚ) + (k : ℚ) + 1) ≤ dys * (i : ℚ) :=
          mul_le_mul_of_nonneg_left hjkq hdys0.le
        have : ¬ y j < t := by
          intro hcon
          linarith only [hcon, h1.1, t2, hd2, hc, hdys0]
        exact ⟨fun h => absurd h.2 this, fun h => absurd h.1 hjk⟩
    · rw [hji]
      exact ⟨fun h => absurd h.1 (lt_irrefl _), fun h => absurd h.2 (lt_irrefl _)⟩
    · have hjq : (i : ℚ) + 1 ≤ (j : ℚ) := by exact_mod_cast hji
      have hd1 : dys * ((i : ℚ) + 1) ≤ dys * (j : ℚ) :=
        mul_le_mul_of_nonneg_left hjq hdys0.le
      have : ¬ y i < y j := by
        intro hcon
        linarith only [hcon, h1.2, hyi.1, hd1, hc, hdys0]
      exact ⟨fun h => absurd h.1 this, fun h => absurd h.2 (by omega)⟩
  · rcases Nat.lt_or_ge (i + 1) n with hlt | hge
    · have hiq2 : (i : ℚ) + 2 ≤ (n : ℚ) := by exact_mod_cast hlt
      have hd1 : dys * ((i : ℚ) + 2) ≤ dys * (n : ℚ) :=
        mul_le_mul_of_nonneg_left hiq2 hdys0.le
      linarith only [hyi.1, hd1, hc, hdys0]
    · have : i = n - 1 := by omega
      rw [this, hyl]
  · have hb : b = a + dys * (n : ℚ) := by linarith only [hdysn]
    linarith only [t2, hb, hdk, hc, hdys0]

/-- The top of the bars of a row on a well-conditioned extent: finite, within
`40 * 2^-53 * (|a| + |b|)` of `y + dy*(k+1) - dy/4` in exact arithmetic. -/
theorem rowTop_wc (n : Nat) (a b : ℚ) (i k : Nat) (hi : i < n) (hki : k ≤ i)
    (hw : WellConditioned n a b) (dy yi : ℚ)
    (hdye : |dy - (b - a) / (n : ℚ)| ≤ 4 * pow2 (-53) * ((b - a) / (n : ℚ)))
    (hyie : |yi - (a + (b - a) / (n : ℚ) * ((n : ℚ) - (i : ℚ) - 1))|
      ≤ 12 * pow2 (-53) * (|a| + |b|)) :
    ∃ t, extendTopF64 (.fin yi) (.fin dy) (k : Int) = .fin t ∧
      |t - (a + (b - a) / (n : ℚ) * ((n : ℚ) - (i : ℚ) - 1)
          + (b - a) / (n : ℚ) * ((k : ℚ) + 1) - (b - a) / (n : ℚ) / 4)|
        ≤ 40 * pow2 (-53) * (|a| + |b|) := by
  have hn : 1 ≤ n := by omega
  obtain ⟨hε0, hε1, hη0, hη, hdys, hdys0, hS, hn43, hS9, hc⟩ := wc_facts n a b hn hw
  obtain ⟨hh, hdysh, hη2, hεh, hεS, hεd⟩ := err_facts _ _ _ _ _ _ hε0 hε1 hη
    (by exact_mod_cast hn) hdys hdys0 hS
  have hnq : (1 : ℚ) ≤ (n : ℚ) := by exact_mod_cast hn
  have h16 := pow2_900_le
  have hS0 : 0 ≤ |a| + |b| := by linarith only [hh, hS]
  have hK0 : (0 : ℚ) ≤ (k : ℚ) + 1 := by
    have : (0 : ℚ) ≤ (k : ℚ) := Nat.cast_nonneg _
    linarith only [this]
  have hKn : (k : ℚ) + 1 ≤ (n : ℚ) := by exact_mod_cast (by omega : k + 1 ≤ n)
  have hys : |a + (b - a) / (n : ℚ) * ((n : ℚ) - (i : ℚ) - 1)| ≤ 2 * (|a| + |b|) := by
    have hm0 : (0 : ℚ) ≤ (n : ℚ) - (i : ℚ) - 1 := by
      have : (i : ℚ) + 1 ≤ (n : ℚ) := by exact_mod_cast hi
      linarith only [this]
    have hmn : (n : ℚ) - (i : ℚ) - 1 ≤ (n : ℚ) := by
      have : (0 : ℚ) ≤ (i : ℚ) := Nat.cast_nonneg _
      linarith only [this]
    have h1 : (b - a) / (n : ℚ) * ((n : ℚ) - (i : ℚ) - 1) ≤ b - a := by
      calc (b - a) / (n : ℚ) * ((n : ℚ) - (i : ℚ) - 1)
          ≤ (b - a) / (n : ℚ) * (n : ℚ) := mul_le_mul_of_nonneg_left hmn hdys0.le
        _ = b - a := hdys
    have h0 : 0 ≤ (b - a) / (n : ℚ) * ((n : ℚ) - (i : ℚ) - 1) := mul_nonneg hdys0.le hm0
    have := abs_add a ((b - a) / (n : ℚ) * ((n : ℚ) - (i : ℚ) - 1))
    rw [abs_of_nonneg h0] at this
    have ha := abs_nonneg b
    linarith only [this, h1, hS, ha]
  -- the four roundings
  obtain ⟨hte, m1, m2, m3, m4⟩ := err_step_top _ _ (b - a) (n : ℚ) _ dy ((k : ℚ) + 1)
    (f64Round (dy * ((k : ℚ) + 1))) yi _
    (f64Round (yi + f64Round (dy * ((k : ℚ) + 1))))
    (f64Round (dy / 4))
    (f64Round (f64Round (yi + f64Round (dy * ((k : ℚ) + 1))) - f64Round (dy / 4)))
    (|a| + |b|) hε0 hε1 hη0 hη hnq hdys hdys0 hdye hK0 hKn hS hys hyie
    (f64Round_err _) (f64Round_err _) (f64Round_err _) (f64Round_err _)
  refine ⟨_, ?_, hte⟩
  unfold extendTopF64
  have hw1 : wrapInt ((k : Int) + 1) = ((k + 1 : Nat) : Int) := by
    rw [wrapInt_eq _ (by omega) (by omega)]
    push_cast; ring
  rw [hw1, ofInt_natCast _ (by omega)]
  have e0 : ((k + 1 : Nat) : ℚ) = (k : ℚ) + 1 := by push_cast; ring
  rw [e0]
  have h4 : (4 : ℚ) ≠ 0 := by norm_num
  have hp9 := pow2_pos 900
  rw [mul_fin, ofRat_fin _ (by linarith only [m1, hh, hS, hS9, h16, hp9]), add_fin,
    ofRat_fin _ (by linarith only [m2, hS9, h16, hp9]), div_fin _ _ h4,
    ofRat_fin (dy / 4) (by linarith only [m3, hS9, h16, hp9]), sub_fin,
    ofRat_fin _ (by linarith only [m4, hS9, h16, hp9])]

theorem tickValueF64_eq (n : Nat) (min max dy : ℚ) (i : Nat) (hi : i < n)
    (hlen : n < 9223372036854775808)
    (hdy : tickStepF64 n (.fin min) (.fin max) = .fin dy) :
    tickValueF64 n (.fin min) (.fin max) i
      = F64.add (.fin min) (F64.ofRat (dy * f64Round (((n : Int) - (i : Int) - 1 : Int) : ℚ))) := by
  unfold tickValueF64
  rw [hdy, (ofInt_fin ((n : Int) - (i : Int) - 1) (by omega) (by omega)).1]
  rfl

theorem tickValue_last (n : Nat) (min max dy : ℚ) (hn : 1 ≤ n)
    (hlen : n < 9223372036854775808) (hmin : F64.ofRat min = .fin min)
    (hd : tickStepF64 n (.fin min) (.fin max) = .fin dy) :
    tickValueF64 n (.fin min) (.fin max) (n - 1) = .fin min := by
  rw [tickValueF64_eq _ min max dy _ (by omega) hlen hd]
  have hk : ((n : Int) - ((n - 1 : Nat) : Int) - 1 : Int) = 0 := by omega
  rw [hk, Int.cast_zero, f64Round_zero, mul_zero, ofRat_zero]
  show F64.ofRat (min + 0) = .fin min
  rw [add_zero, hmin]

/-- C12 in float64: on a raster of `n ≥ 1` rows, with `min < max`, `min` a float64 value and a
row height that does not overflow, the tick values of `Ticks(min, max)` are the floats
`min + dy*float64(n-i-1)`; the last one is exactly `min`; they never increase with the row
index; they are the same for every raster of `n` rows.  On a well-conditioned extent they
strictly decrease, consecutive rows are `(max - min)/n` apart up to `24 * 2^-53 * (|min| +
|max|)`, and row 0 is at `max - (max - min)/n` up to `12 * 2^-53 * (|min| + |max|)`.
Whenever every tick comes out without rounding error, row 0 is at `max - dy` and consecutive
rows are exactly `dy = (max - min)/n` apart. -/
theorem C12_rows_top_to_bottom_in_float64 (s : SpikeLines) (min max : ℚ)
    (hn : 1 ≤ s.Lines.length) (hlen : s.Lines.length < 9223372036854775808) (hlt : min < max)
    (hmin : F64.ofRat min = .fin min)
    (hdy : (tickStepF64 s.Lines.length (.fin min) (.fin max)).isFinite = true) :
    (s.TicksF64 (.fin min) (.fin max)).map TickF64.Value
      = (List.range s.Lines.length).map (tickValueF64 s.Lines.length (.fin min) (.fin max)) ∧
    tickValueF64 s.Lines.length (.fin min) (.fin max) (s.Lines.length - 1) = .fin min ∧
    (∀ i, i + 1 < s.Lines.length →
      F64.le (tickValueF64 s.Lines.length (.fin min) (.fin max) (i + 1))
        (tickValueF64 s.Lines.length (.fin min) (.fin max) i) = true) ∧
    (∀ s2 : SpikeLines, s2.Lines.length = s.Lines.length →
      (s2.TicksF64 (.fin min) (.fin max)).map TickF64.Value
        = (s.TicksF64 (.fin min) (.fin max)).map TickF64.Value) ∧
    (WellConditioned s.Lines.length min max →
      (∀ i, i < s.Lines.length →
        (tickValueF64 s.Lines.length (.fin min) (.fin max) i).isFinite = true) ∧
      (∀ i, i + 1 < s.Lines.length →
        F64.lt (tickValueF64 s.Lines.length (.fin min) (.fin max) (i + 1))
          (tickValueF64 s.Lines.length (.fin min) (.fin max) i) = true ∧
        |(tickValueF64 s.Lines.length (.fin min) (.fin max) i).toRat
            - (tickValueF64 s.Lines.length (.fin min) (.fin max) (i + 1)).toRat
            - (max - min) / (s.Lines.length : ℚ)|
          ≤ 24 * pow2 (-53) * (|min| + |max|)) ∧
      |(tickValueF64 s.Lines.length (.fin min) (.fin max) 0).toRat
          - (max - (max - min) / (s.Lines.length : ℚ))|
        ≤ 12 * pow2 (-53) * (|min| + |max|)) ∧
    ((∀ i, i < s.Lines.length → tickValueF64 s.Lines.length (.fin min) (.fin max) i
        = .fin (min + (max - min) / (s.Lines.length : ℚ)
            * ((s.Lines.length : ℚ) - (i : ℚ) - 1))) →
      tickValueF64 s.Lines.length (.fin min) (.fin max) 0
        = .fin (max - (max - min) / (s.Lines.length : ℚ)) ∧
      ∀ i, i + 1 < s.Lines.length →
        (tickValueF64 s.Lines.length (.fin min) (.fin max) i).toRat
          - (tickValueF64 s.Lines.length (.fin min) (.fin max) (i + 1)).toRat
          = (max - min) / (s.Lines.length : ℚ) ∧
        F64.lt (tickValueF64 s.Lines.length (.fin min) (.fin max) (i + 1))
          (tickValueF64 s.Lines.length (.fin min) (.fin max) i) = true) := by
  obtain ⟨dy, hd⟩ : ∃ dy, tickStepF64 s.Lines.length (.fin min) (.fin max) = .fin dy := by
    cases h : tickStepF64 s.Lines.length (.fin min) (.fin max) with
    | fin q => exact ⟨q, rfl⟩
    | posInf => rw [h] at hdy; exact absurd hdy (by decide)
    | negInf => rw [h] at hdy; exact absurd hdy (by decide)
    | nan => rw [h] at hdy; exact absurd hdy (by decide)
  have hdy0 : 0 ≤ dy := tickStepF64_nonneg _ min max dy hlt hd
  refine ⟨TicksF64_values s _ _, tickValue_last _ min max dy hn hlen hmin hd, ?_, ?_, ?_, ?_⟩
  · intro i hi
    rw [tickValueF64_eq _ min max dy _ hi hlen hd,
      tickValueF64_eq _ min max dy _ (by omega) hlen hd]
    apply add_ofRat_mono
    apply mul_le_mul_of_nonneg_left _ hdy0
    apply f64Round_mono
    push_cast
    linarith
  · intro s2 h2
    rw [TicksF64_values, TicksF64_values, h2]
  · intro hw
    obtain ⟨hε0, hε1, hη0, hη, hdys, hdys0, hS, hn43, hS9, hc⟩ :=
      wc_facts s.Lines.length min max hn hw
    have he0 : 0 ≤ pow2 (-53) * (|min| + |max|) :=
      mul_nonneg hε0.le (by linarith only [hS, hlt])
    refine ⟨?_, ?_, ?_⟩
    · intro i hi
      obtain ⟨y, hy, _⟩ := tickValue_wc _ min max i hi hw
      rw [hy]; rfl
    · intro i hi
      obtain ⟨y1, hy1, e1⟩ := tickValue_wc _ min max i (by omega) hw
      obtain ⟨y2, hy2, e2⟩ := tickValue_wc _ min max (i + 1) hi hw
      rw [hy1, hy2]
      have a1 := abs_le.mp e1
      have a2 := abs_le.mp e2
      have ec : (((i + 1 : Nat) : ℚ)) = (i : ℚ) + 1 := by push_cast; ring
      rw [ec] at a2
      constructor
      · simp only [F64.lt, decide_eq_true_eq]
        linarith only [a1.1, a2.2, hc, hdys0, he0]
      · simp only [F64.toRat]
        rw [abs_le]
        constructor
        · linarith only [a1.1, a2.2]
        · linarith only [a1.2, a2.1]
    · obtain ⟨y, hy, e1⟩ := tickValue_wc _ min max 0 (by omega) hw
      rw [hy]
      simp only [F64.toRat]
      have e : min + (max - min) / (s.Lines.length : ℚ)
          * ((s.Lines.length : ℚ) - ((0 : Nat) : ℚ) - 1)
          = max - (max - min) / (s.Lines.length : ℚ) := by
        have := hdys
        push_cast
        linarith only [this]
      rw [e] at e1
      linarith only [e1]
  · intro hex
    have hnq : (0 : ℚ) < (s.Lines.length : ℚ) := by exact_mod_cast hn
    constructor
    · rw [hex 0 (by omega)]
      congr 1
      field_simp
      ring
    · intro i hi
      rw [hex i (by omega), hex (i + 1) hi]
      have hstep : 0 < (max - min) / (s.Lines.length : ℚ) := div_pos (by linarith) hnq
      constructor
      · show min + (max - min) / (s.Lines.length : ℚ) * ((s.Lines.length : ℚ) - (i : ℚ) - 1)
          - (min + (max - min) / (s.Lines.length : ℚ)
            * ((s.Lines.length : ℚ) - ((i + 1 : Nat) : ℚ) - 1))
          = (max - min) / (s.Lines.length : ℚ)
        push_cast
        ring
      · simp only [F64.lt, decide_eq_true_eq]
        push_cast
        nlinarith

/-- Witness of C12 in float64: the three rows of `raster3` between `-1` and `1`, the extent
that a plot without data gets, which is well-conditioned: the ticks strictly decrease and the
last one is `-1`. -/
theorem C12_rows_top_to_bottom_in_float64_witness :
    F64.ofRat (-1) = .fin (-1) ∧
    (tickStepF64 raster3.Lines.length (.fin (-1)) (.fin 1)).isFinite = true ∧
    WellConditioned raster3.Lines.length (-1) 1 ∧
    tickValueF64 raster3.Lines.length (.fin (-1)) (.fin 1) (raster3.Lines.length - 1)
      = .fin (-1) ∧
    F64.lt (tickValueF64 raster3.Lines.length (.fin (-1)) (.fin 1) 1)
      (tickValueF64 raster3.Lines.length (.fin (-1)) (.fin 1) 0) = true :=
  have h := C12_rows_top_to_bottom_in_float64 raster3 (-1) 1 (by decide) (by decide)
    (by decide) (by decide!) (by decide!)
  ⟨by decide!, by decide!, by decide!, h.2.1,
    ((h.2.2.2.2.1 (by decide!)).2.1 0 (by decide)).1⟩

/-- Counterexample to C12 as stated, in float64.  Three rows between `0` and `1`: `dy` is
`0.3333333333333333`, row 0 is at `0.6666666666666666` but `max - dy` is
`0.6666666666666667`.  Two rows between `1e16` and `1e16 + 2`: `dy` is `1` and both ticks
are at `1e16`, so the positions neither strictly decrease nor lie `dy` apart. -/
theorem C12_counterexample :
    tickStepF64 3 (.fin 0) (.fin 1) = .fin (6004799503160661 / 18014398509481984) ∧
    (raster3.TicksF64 (.fin 0) (.fin 1)).map TickF64.Value
      = [.fin (6004799503160661 / 9007199254740992),
         .fin (6004799503160661 / 18014398509481984), .fin 0] ∧
    F64.sub (.fin 1) (tickStepF64 3 (.fin 0) (.fin 1))
      = .fin (3002399751580331 / 4503599627370496) ∧
    (6004799503160661 / 9007199254740992 : ℚ) ≠ 3002399751580331 / 4503599627370496 ∧
    (rasterSorted2.TicksF64 (.fin 10000000000000000) (.fin 10000000000000002)).map
      TickF64.Value = [.fin 10000000000000000, .fin 10000000000000000] ∧
    tickStepF64 2 (.fin 10000000000000000) (.fin 10000000000000002) = .fin 1 := by
  refine ⟨by decide!, by decide!, by decide!, by decide!, by decide!, by decide!⟩

/-! ## The geometry of an extension in float64, on a well-conditioned extent -/

/-- On a well-conditioned extent the float64 baselines, row height and top of the bars of a
row with `Extend = k`, `1 ≤ k ≤ i`, are finite and keep the geometry of the exact values, up
to `64 * 2^-53 * (|a| + |b|)` for the quarter row. -/
theorem extension_wc_geometry (s : SpikeLines) (plt : PlotF64T) (i k : Nat) (a b : ℚ)
    (hmin : plt.Y.Min = .fin a) (hmax : plt.Y.Max = .fin b)
    (hi : i < s.Lines.length) (hk1 : 1 ≤ k) (hki : k ≤ i)
    (he : (rowOf s i).Property.Extend = (k : Int))
    (hw : WellConditioned s.Lines.length a b) (hrep : F64.ofRat a = .fin a) :
    (rowHeightF64 s plt).isFinite = true ∧
    (∀ j, j < s.Lines.length → (rowYF64 s plt j).isFinite = true) ∧
    (rowTopF64 s plt i).isFinite = true ∧
    0 < (rowHeightF64 s plt).toRat ∧
    (rowYF64 s plt (i - k)).toRat < (rowTopF64 s plt i).toRat ∧
    (k < i → (rowTopF64 s plt i).toRat < (rowYF64 s plt (i - k - 1)).toRat ∧
      |(rowTopF64 s plt i).toRat
          - ((rowYF64 s plt (i - k - 1)).toRat - (rowHeightF64 s plt).toRat / 4)|
        ≤ 64 * (pow2 (-53) * (|a| + |b|))) ∧
    (k = i → |(rowTopF64 s plt i).toRat - (b - (rowHeightF64 s plt).toRat / 4)|
      ≤ 64 * (pow2 (-53) * (|a| + |b|))) ∧
    (∀ j, j < s.Lines.length →
      (((rowYF64 s plt i).toRat < (rowYF64 s plt j).toRat ∧
          (rowYF64 s plt j).toRat < (rowTopF64 s plt i).toRat)
        ↔ (i - k ≤ j ∧ j < i))) ∧
    a ≤ (rowYF64 s plt i).toRat ∧
    (rowTopF64 s plt i).toRat < b := by
  have hn : 1 ≤ s.Lines.length := by omega
  obtain ⟨hε0, hε1, hη0, hη, hdys, hdys0, hS, hn43, hS9, hc⟩ :=
    wc_facts s.Lines.length a b hn hw
  have hS0 : 0 ≤ |a| + |b| := by linarith only [hS, hdys, hdys0, hw.2.1, pow2_pos (-900)]
  have he0 : 0 ≤ pow2 (-53) * (|a| + |b|) := mul_nonneg hε0.le hS0
  have hY : ∀ j, rowYF64 s plt j = tickValueF64 s.Lines.length (.fin a) (.fin b) j := by
    intro j
    simp only [rowYF64, baselineYF64, rowHeightF64, tickValueF64, tickStepF64, hmin, hmax]
  have hH : rowHeightF64 s plt = tickStepF64 s.Lines.length (.fin a) (.fin b) := by
    simp only [rowHeightF64, tickStepF64, hmin, hmax]
  obtain ⟨dy, hd, hde⟩ := tickStep_wc s.Lines.length a b hn hw
  obtain ⟨yi, hyi, hyie⟩ := tickValue_wc s.Lines.length a b i hi hw
  obtain ⟨t, ht, hte⟩ := rowTop_wc s.Lines.length a b i k hi hki hw dy yi hde hyie
  have hT : rowTopF64 s plt i = .fin t := by
    rw [rowTopF64, hY, hyi, hH, hd, mergedProperty_Extend, he]
    exact ht
  have hlen : s.Lines.length < 9223372036854775808 := by omega
  have hlast := tickValue_last s.Lines.length a b dy hn hlen hrep hd
  have hde2 := abs_le.mp hde
  have hdS : pow2 (-53) * ((b - a) / (s.Lines.length : ℚ)) ≤ pow2 (-53) * (|a| + |b|) := by
    apply mul_le_mul_of_nonneg_left _ hε0.le
    have hnq : (1 : ℚ) ≤ (s.Lines.length : ℚ) := by exact_mod_cast hn
    have := mul_le_mul_of_nonneg_left hnq hdys0.le
    linarith only [this, hdys, hS]
  have hg := geometry_of_errors a b ((b - a) / (s.Lines.length : ℚ))
    (pow2 (-53) * (|a| + |b|)) s.Lines.length i k (fun j => (rowYF64 s plt j).toRat) t dy
    hdys0 hdys hc hi hk1 hki
    (by
      intro j hj
      obtain ⟨y, hy, hye⟩ := tickValue_wc s.Lines.length a b j hj hw
      show |(rowYF64 s plt j).toRat - _| ≤ _
      rw [hY, hy]
      show |y - _| ≤ _
      linarith only [hye])
    (by
      show (rowYF64 s plt (s.Lines.length - 1)).toRat = a
      rw [hY, hlast]
      rfl)
    (by linarith only [hte])
    (by
      rw [abs_le]
      constructor
      · linarith only [hde2.1, hdS]
      · linarith only [hde2.2, hdS])
  obtain ⟨g1, g2, g3, g4, g5, g6⟩ := hg
  rw [hT, hH, hd]
  refine ⟨rfl, ?_, rfl, ?_, g1, g2, g3, g4, g5, g6⟩
  · intro j hj
    obtain ⟨y, hy, _⟩ := tickValue_wc s.Lines.length a b j hj hw
    rw [hY, hy]
    rfl
  · show 0 < dy
    have h1 : pow2 (-53) * ((b - a) / (s.Lines.length : ℚ)) * 1024
        ≤ (b - a) / (s.Lines.length : ℚ) := by
      have := mul_le_mul_of_nonneg_right hε1 hdys0.le
      linarith only [this]
    linarith only [hde2.1, h1, hdys0]

/-! ## `SpikeLines.Plot` in float64: the strokes it emits -/

theorem plotLineF64_eq (s : SpikeLines) (plt : PlotF64T) (c : Canvas) (i : Nat) (l : SpikeLine)
    (sp : List ℚ) (hl : s.Lines[i]? = some l)
    (hc : clippedSpikes l.Spikes plt.X.Min plt.X.Max = some sp) :
    plotLineF64 s plt (rowHeightF64 s plt) c i
      = some ⟨⟨(mergedProperty l).LColor, (mergedProperty l).LWidth⟩,
          c.strokes ++ rowStrokesF64 s plt i⟩ := by
  have hrow := rowOf_eq s i l hl
  have hc2 : clippedSpikes l.Spikes plt.exact.X.Min plt.exact.X.Max = some sp := hc
  have hclip : clippedOf s plt.exact i = sp := by simp [clippedOf, hrow, hc2]
  simp only [plotLineF64, hl, hc, Option.bind_eq_bind, Option.some_bind, Option.pure_def,
    foldl_strokeSegment]
  simp only [rowStrokesF64, rowExtendBarsF64, rowSpikeTicksF64, rowBaselineF64, hrow, hclip,
    rowYF64, rowTopF64]
  by_cases he : (mergedProperty l).Extend ≠ 0
  · simp only [if_pos he, foldl_strokeSegment, Canvas.SetLineStyle, strokeSegment,
      Canvas.Stroke, segment, List.append_assoc]
  · simp only [if_neg he, foldl_strokeSegment, Canvas.SetLineStyle, strokeSegment,
      Canvas.Stroke, segment, List.append_assoc, List.nil_append]

theorem plotF64_fold (s : SpikeLines) (plt : PlotF64T) (hx : plt.X.Min ≤ plt.X.Max) :
    ∀ (order : List Nat), (∀ i ∈ order, i < s.Lines.length) → ∀ (c : Canvas),
      ∃ c2, order.foldlM (plotLineF64 s plt (rowHeightF64 s plt)) c = some c2 ∧
        c2.strokes = c.strokes ++ order.flatMap (rowStrokesF64 s plt) := by
  intro order
  induction order with
  | nil => intro _ c; exact ⟨c, rfl, by simp⟩
  | cons i rest ih =>
    intro hmem c
    have hi : i < s.Lines.length := hmem i (List.mem_cons_self _ _)
    have hl : s.Lines[i]? = some s.Lines[i] := List.getElem?_eq_getElem hi
    obtain ⟨beg, en, _, _, _, _, hc⟩ := clippedSpikes_some s.Lines[i].Spikes _ _ hx
    obtain ⟨c2, h1, h2⟩ := ih (fun j hj => hmem j (List.mem_cons_of_mem _ hj))
      ⟨⟨(mergedProperty s.Lines[i]).LColor, (mergedProperty s.Lines[i]).LWidth⟩,
        c.strokes ++ rowStrokesF64 s plt i⟩
    refine ⟨c2, ?_, ?_⟩
    · rw [List.foldlM_cons, plotLineF64_eq s plt c i _ _ hl hc]
      exact h1
    · rw [h2]
      simp [List.flatMap_cons, List.append_assoc]

/-- The strokes of a plot in float64: the rows' strokes, row after row in drawing order. -/
theorem PlotF64_strokes (s : SpikeLines) (canvas : Canvas) (plt : PlotF64T)
    (hx : plt.X.Min ≤ plt.X.Max) :
    ∃ c2, s.PlotF64 canvas plt = some c2 ∧
      c2.strokes = canvas.strokes ++ (drawingOrder s).flatMap (rowStrokesF64 s plt) :=
  plotF64_fold s plt hx (drawingOrder s) (drawingOrder_lt s) canvas

/-- C18 in float64: a raster of `n < 2^63` rows drawn on a plot with finite `Y.Min < Y.Max`,
and a row `i` with `Extend = k`, `1 ≤ k ≤ i`.  `SpikeLines.Plot` succeeds and draws the rows'
strokes in drawing order, and the bars of row `i` run from its baseline to `top`.  On a
well-conditioned extent (`Y.Min` a float64 value) the row height, the baselines and `top` are
finite, `top` lies strictly above the baseline of row `i-k`, strictly below the next baseline
above it when `k < i`, and within `64 * 2^-53 * (|Y.Min| + |Y.Max|)` of a quarter of the row
height below that baseline (below `Y.Max` when `k = i`); the baselines strictly above the
row's own and below `top` are those of the rows `i-k, ..., i-1` and no other; and the bar
stays inside `[Y.Min, Y.Max)`.  When float64 computes the row height, the baselines and `top`
without rounding error, `top` is exactly a quarter of the row height below that baseline. -/
theorem C18_extension_reaches_k_rows (s : SpikeLines) (plt : PlotF64T) (canvas : Canvas)
    (i k : Nat) (a b : ℚ) (hx : plt.X.Min ≤ plt.X.Max)
    (hmin : plt.Y.Min = .fin a) (hmax : plt.Y.Max = .fin b) (hab : a < b)
    (hi : i < s.Lines.length) (hlen : s.Lines.length < 9223372036854775807)
    (hk1 : 1 ≤ k) (hki : k ≤ i) (he : (rowOf s i).Property.Extend = (k : Int)) :
    (∃ c2, s.PlotF64 canvas plt = some c2 ∧
      c2.strokes = canvas.strokes ++ (drawingOrder s).flatMap (fun j =>
        rowExtendBarsF64 s plt j ++ rowSpikeTicksF64 s plt j ++ [rowBaselineF64 s plt j])) ∧
    rowExtendBarsF64 s plt i = (clippedOf s plt.exact i).map (fun v =>
      segment
        ⟨(mergedProperty (rowOf s i)).ExtendColor, (mergedProperty (rowOf s i)).ExtendWidth⟩
        ⟨plt.trX v, plt.trY (rowYF64 s plt i)⟩
        ⟨plt.trX v, plt.trY (rowTopF64 s plt i)⟩) ∧
    (WellConditioned s.Lines.length a b → F64.ofRat a = .fin a →
      (rowHeightF64 s plt).isFinite = true ∧
      (∀ j, j < s.Lines.length → (rowYF64 s plt j).isFinite = true) ∧
      (rowTopF64 s plt i).isFinite = true ∧
      0 < (rowHeightF64 s plt).toRat ∧
      (rowYF64 s plt (i - k)).toRat < (rowTopF64 s plt i).toRat ∧
      (k < i → (rowTopF64 s plt i).toRat < (rowYF64 s plt (i - k - 1)).toRat ∧
        |(rowTopF64 s plt i).toRat
            - ((rowYF64 s plt (i - k - 1)).toRat - (rowHeightF64 s plt).toRat / 4)|
          ≤ 64 * (pow2 (-53) * (|a| + |b|))) ∧
      (k = i → |(rowTopF64 s plt i).toRat - (b - (rowHeightF64 s plt).toRat / 4)|
        ≤ 64 * (pow2 (-53) * (|a| + |b|))) ∧
      (∀ j, j < s.Lines.length →
        (((rowYF64 s plt i).toRat < (rowYF64 s plt j).toRat ∧
            (rowYF64 s plt j).toRat < (rowTopF64 s plt i).toRat)
          ↔ (i - k ≤ j ∧ j < i))) ∧
      a ≤ (rowYF64 s plt i).toRat ∧
      (rowTopF64 s plt i).toRat < b) ∧
    (rowHeightF64 s plt = .fin (rowHeight s plt.exact) →
      (∀ j, j < s.Lines.length → rowYF64 s plt j = .fin (rowY s plt.exact j)) →
      rowTopF64 s plt i
        = .fin (extendTop (rowY s plt.exact i) (rowHeight s plt.exact) (k : Int)) →
      0 < (rowHeightF64 s plt).toRat ∧
      (rowYF64 s plt (i - k)).toRat < (rowTopF64 s plt i).toRat ∧
      (k < i → (rowTopF64 s plt i).toRat
        = (rowYF64 s plt (i - k - 1)).toRat - (rowHeightF64 s plt).toRat / 4) ∧
      (k = i → (rowTopF64 s plt i).toRat = b - (rowHeightF64 s plt).toRat / 4) ∧
      (∀ j, j < s.Lines.length →
        (((rowYF64 s plt i).toRat < (rowYF64 s plt j).toRat ∧
            (rowYF64 s plt j).toRat < (rowTopF64 s plt i).toRat)
          ↔ (i - k ≤ j ∧ j < i))) ∧
      a ≤ (rowYF64 s plt i).toRat ∧
      (rowTopF64 s plt i).toRat < b) := by
  have hemin : plt.exact.Y.Min = a := by simp [PlotF64T.exact, hmin, F64.toRat]
  have hemax : plt.exact.Y.Max = b := by simp [PlotF64T.exact, hmax, F64.toRat]
  have hy : plt.exact.Y.Min < plt.exact.Y.Max := by rw [hemin, hemax]; exact hab
  have hne : (mergedProperty (rowOf s i)).Extend ≠ 0 := by
    rw [mergedProperty_Extend, he]; omega
  refine ⟨PlotF64_strokes s canvas plt hx, ?_, ?_, ?_⟩
  · simp only [rowExtendBarsF64, if_pos hne]
  · intro hw hrep
    exact extension_wc_geometry s plt i k a b hmin hmax hi hk1 hki he hw hrep
  · intro hdy hrows htop
    obtain ⟨g1, _, g3, g4, g5, g6, g7, g8⟩ :=
      extension_exact_geometry s plt.exact i k hy hi hlen hk1 hki he
    refine ⟨?_, ?_, ?_, ?_, ?_, ?_, ?_⟩
    · rw [hdy]; exact g1
    · rw [hrows (i - k) (by omega), htop]; exact g3
    · intro hlt
      rw [htop, hrows (i - k - 1) (by omega), hdy]
      exact g4 hlt
    · intro heq
      rw [htop, hdy, ← hemax]
      exact g5 heq
    · intro j hj
      rw [hrows i hi, hrows j hj, htop]
      exact g6 j hj
    · rw [hrows i hi, ← hemin]; exact g7
    · rw [htop, ← hemax]; exact g8

/-- Witness of C18 in float64, on the extent `[-1, 1]` that a plot without data gets.  The
three rows of `raster3`, row 1 with `Extend = 1`: the extent is well-conditioned, the top of
the bars is strictly above the baseline of row 0, strictly below `Y.Max` and within
`128 * 2^-53` of `Y.Max - dy/4`.  The four rows of `raster4`, row 1 with `Extend = 1`: `dy` is
`0.5` without rounding error and the bars end at `0.875`, exactly a quarter row below the top
of the plot. -/
theorem C18_extension_reaches_k_rows_witness :
    WellConditioned raster3.Lines.length (-1) 1 ∧
    (rowYF64 raster3 (unitPlotF64 0 4 (-1) 1) 0).toRat
      < (rowTopF64 raster3 (unitPlotF64 0 4 (-1) 1) 1).toRat ∧
    (rowTopF64 raster3 (unitPlotF64 0 4 (-1) 1) 1).toRat < 1 ∧
    |(rowTopF64 raster3 (unitPlotF64 0 4 (-1) 1) 1).toRat
        - (1 - (rowHeightF64 raster3 (unitPlotF64 0 4 (-1) 1)).toRat / 4)|
      ≤ 64 * (pow2 (-53) * (|(-1 : ℚ)| + |(1 : ℚ)|)) ∧
    rowHeightF64 raster4 (unitPlotF64 0 2 (-1) 1) = .fin (1 / 2) ∧
    rowTopF64 raster4 (unitPlotF64 0 2 (-1) 1) 1 = .fin (7 / 8) ∧
    (rowTopF64 raster4 (unitPlotF64 0 2 (-1) 1) 1).toRat
      = 1 - (rowHeightF64 raster4 (unitPlotF64 0 2 (-1) 1)).toRat / 4 :=
  have h3 := (C18_extension_reaches_k_rows raster3 (unitPlotF64 0 4 (-1) 1) blankCanvas 1 1
    (-1) 1 (by decide) rfl rfl (by decide) (by decide) (by decide) (by decide) (by decide)
    (by decide)).2.2.1 (by decide!) (by decide!)
  have h4 := (C18_extension_reaches_k_rows raster4 (unitPlotF64 0 2 (-1) 1) blankCanvas 1 1
    (-1) 1 (by decide) rfl rfl (by decide) (by decide) (by decide) (by decide) (by decide)
    (by decide)).2.2.2 (by decide!) (by decide!) (by decide!)
  ⟨by decide!, h3.2.2.2.2.1, h3.2.2.2.2.2.2.2.2.2, h3.2.2.2.2.2.2.1 rfl,
    by decide!, by decide!, h4.2.2.2.1 rfl⟩

/-- Counterexample to C18 as stated, in float64.  The three rows of `raster3` between `-1` and
`1`, row 1 with `Extend = 1`: the top of its bars is `0.8333333333333333`, while `Y.Max - dy/4`
is `0.8333333333333334` in float64 and lies between the two in exact arithmetic.  The four
rows of `raster4` between `1e16` and `1e16 + 2`, row 1 with `Extend = 1`: the baseline of row 0
is `1e16 + 2`, the baseline of row 1 and the top of its bars are both `1e16`, so the bar that
`SpikeLines.Plot` draws does not reach the baseline of the row above. -/
theorem C18_counterexample :
    rowTopF64 raster3 (unitPlotF64 0 4 (-1) 1) 1
      = .fin (3752999689475413 / 4503599627370496) ∧
    F64.sub (.fin 1) (F64.div (rowHeightF64 raster3 (unitPlotF64 0 4 (-1) 1)) (.fin 4))
      = .fin (7505999378950827 / 9007199254740992) ∧
    (rowTopF64 raster3 (unitPlotF64 0 4 (-1) 1) 1).toRat
      < 1 - (rowHeightF64 raster3 (unitPlotF64 0 4 (-1) 1)).toRat / 4 ∧
    rowYF64 raster4 (unitPlotF64 0 2 10000000000000000 10000000000000002) 0
      = .fin 10000000000000002 ∧
    rowYF64 raster4 (unitPlotF64 0 2 10000000000000000 10000000000000002) 1
      = .fin 10000000000000000 ∧
    rowTopF64 raster4 (unitPlotF64 0 2 10000000000000000 10000000000000002) 1
      = .fin 10000000000000000 ∧
    rowExtendBarsF64 raster4 (unitPlotF64 0 2 10000000000000000 10000000000000002) 1
      = [segment ⟨some ⟨160, 160, 160, 255⟩, 1⟩ ⟨1, 10000000000000000⟩
          ⟨1, 10000000000000000⟩] ∧
    (raster4.PlotF64 blankCanvas
        (unitPlotF64 0 2 10000000000000000 10000000000000002)).map Canvas.strokes
      = some ((drawingOrder raster4).flatMap
          (rowStrokesF64 raster4 (unitPlotF64 0 2 10000000000000000 10000000000000002))) := by
  refine ⟨by decide!, by decide!, by decide!, by decide!, by decide!, by decide!, by decide!,
    by decide!⟩

end Plots
